import Mathlib

/-!
# Verification of the govbeacon-prompts CSV/merge/group core and Markdown renderer

Shallow embedding of the browser-side logic of `src/viewer/compare/app.js` and
`src/viewer/docs/app.js`: the hand-rolled CSV parser (`_parseCsv`), the merge
logic (`_handleSummaryFile` / `_tryMerge`), the grouping logic
(`_groupByOpportunity`) and the Markdown-subset renderer (`_parseMarkdown`).
Strings are modelled as `List Char` (JS strings are sequences of UTF-16 units;
the characters relevant here are code points, which is faithful for all inputs
considered).  JS objects used as records are modelled as insertion-ordered
association lists with assignment-overwrite semantics; JS `Map` likewise.
-/

namespace GovBeacon

/-- JS whitespace (the class `\s` of JS regexes and the set removed by
`String.prototype.trim`): tab, LF, VT, FF, CR, space, NBSP, and the Unicode
space separators, line separator, paragraph separator, and BOM. -/
def isJsWs (c : Char) : Bool :=
  c = ' ' || c = '\t' || c = '\n' || c = '\r' || c.val = 11 || c.val = 12 ||
  c.val = 160 || c.val = 0x1680 || (0x2000 ≤ c.val && c.val ≤ 0x200A) ||
  c.val = 0x2028 || c.val = 0x2029 || c.val = 0x202F || c.val = 0x205F ||
  c.val = 0x3000 || c.val = 0xFEFF

/-- JS line terminators (the characters `.` does not match and multiline
`^`/`$` anchor around): LF, CR, LS, PS. -/
def isLineTerm (c : Char) : Bool :=
  c = '\n' || c = '\r' || c.val = 0x2028 || c.val = 0x2029

/-- ASCII digit, the class `\d` of JS regexes. -/
def isDigitCh (c : Char) : Bool := '0' ≤ c && c ≤ '9'

/-- JS `String.prototype.trim` on a character list. -/
def jsTrim (l : List Char) : List Char :=
  ((l.dropWhile isJsWs).reverse.dropWhile isJsWs).reverse

/-- JS `String.prototype.trim` on a `String`. -/
def jsTrimS (s : String) : String := ⟨jsTrim s.data⟩

/-- A parsed CSV row / JS object: column name ↦ cell value, insertion ordered. -/
abbrev Record := List (String × String)

/-- JS property assignment `obj[k] = v`: overwrite in place if the key exists
(keeping its position), otherwise append. -/
def objSet : Record → String → String → Record
  | [], k, v => [(k, v)]
  | (k', v') :: rest, k, v =>
      if k' = k then (k, v) :: rest else (k', v') :: objSet rest k v

/-- JS property read `obj[k]`, `none` for an absent key. -/
def objGet : Record → String → Option String
  | [], _ => none
  | (k', v') :: rest, k => if k' = k then some v' else objGet rest k

/-- JS `obj[k] || d` for string `d`: absent keys and empty values fall back. -/
def objGetD (r : Record) (k : String) (d : String) : String :=
  match objGet r k with
  | some v => if v = "" then d else v
  | none => d

/-- `_parseCsv`'s `row` construction: `headers.forEach((h, i) => row[h] =
currentRow[i] ?? '')`. -/
def mkRecord (headers vals : List String) : Record :=
  go headers vals []
where
  go : List String → List String → Record → Record
  | [], _, r => r
  | h :: hs, vs, r => go hs vs.tail (objSet r h (vs.headD ""))

/-- The mutable closure state of `_parseCsv`. -/
structure CsvState where
  headers : List String
  rows : List Record
  currentRow : List String
  currentField : List Char
  inQuotes : Bool
deriving Repr, DecidableEq

def CsvState.init : CsvState :=
  { headers := [], rows := [], currentRow := [], currentField := [], inQuotes := false }

/-- `pushField`: the completed field is trimmed and appended to the row. -/
def pushFieldSt (st : CsvState) : CsvState :=
  { st with currentRow := st.currentRow ++ [(⟨jsTrim st.currentField⟩ : String)],
            currentField := [] }

/-- `pushRow`: an empty row is ignored; the first completed row becomes the
header; later rows become Records only when their field count matches. -/
def pushRowSt (st : CsvState) : CsvState :=
  if st.currentRow = [] then st
  else if st.headers = [] then { st with headers := st.currentRow, currentRow := [] }
  else if st.currentRow.length = st.headers.length then
    { st with rows := st.rows ++ [mkRecord st.headers st.currentRow], currentRow := [] }
  else { st with currentRow := [] }

def appendField (st : CsvState) (c : Char) : CsvState :=
  { st with currentField := st.currentField ++ [c] }

/-- The character scan of `_parseCsv`: `"` toggles quoting unless it is the
first of a `""` pair inside quotes; `,` outside quotes ends a field; `\n`,
`\r` or `\r\n` outside quotes ends the field and the row.  The JS loop's
`i += 1` lookahead-skip is modelled by the `skip` flag: the loop consumes one
character per step and `skip` records that the current character was already
consumed by the previous iteration's two-character case. -/
def csvScanAux : List Char → Bool → CsvState → CsvState
  | [], _, st => st
  | c :: rest, skip, st =>
    if skip then csvScanAux rest false st
    else if c = '"' then
      (if st.inQuotes then
        (if rest.head? = some '"' then csvScanAux rest true (appendField st '"')
         else csvScanAux rest false { st with inQuotes := false })
       else csvScanAux rest false { st with inQuotes := true })
    else if c = ',' ∧ ¬st.inQuotes then csvScanAux rest false (pushFieldSt st)
    else if (c = '\n' ∨ c = '\r') ∧ ¬st.inQuotes then
      (if c = '\r' ∧ rest.head? = some '\n' then csvScanAux rest true (pushRowSt (pushFieldSt st))
       else csvScanAux rest false (pushRowSt (pushFieldSt st)))
    else csvScanAux rest false (appendField st c)

def csvScan (l : List Char) (st : CsvState) : CsvState := csvScanAux l false st

/-- The final flush of `_parseCsv`:
`if (currentField || currentRow.length) { pushField(); pushRow(); }`. -/
def parseCsvEnd (st : CsvState) : List Record :=
  if st.currentField ≠ [] ∨ st.currentRow ≠ [] then (pushRowSt (pushFieldSt st)).rows
  else st.rows

/-- `_parseCsv`: scan the whole text, then flush a pending field/row. -/
def parseCsv (text : String) : List Record :=
  parseCsvEnd (csvScan text.data CsvState.init)

/-- A JS `Map` from strings to records (insertion ordered, set overwrites). -/
abbrev RecMap := List (String × Record)

def mapSet : RecMap → String → Record → RecMap
  | [], k, v => [(k, v)]
  | (k', v') :: rest, k, v =>
      if k' = k then (k, v) :: rest else (k', v') :: mapSet rest k v

def mapGet : RecMap → String → Option Record
  | [], _ => none
  | (k', v') :: rest, k => if k' = k then some v' else mapGet rest k

/-- `_handleSummaryFile`'s index construction: for each summary row, the
trimmed `sam-url` is the key; blank keys are skipped; `Map.set` overwrites,
so a duplicated key keeps the last record. -/
def buildSummaryMap (summaryRows : List Record) : RecMap :=
  summaryRows.foldl
    (fun m row =>
      let samUrl := jsTrimS (objGetD row "sam-url" "")
      if samUrl = "" then m else mapSet m samUrl row)
    []

/-- One element of `this.mergedRows` in `_tryMerge`. -/
structure MergedRow where
  index : Nat
  samUrl : String
  opportunityId : String
  baseRow : Record
  summaryRow : Option Record
deriving Repr, DecidableEq

/-- `row['opportunity_id'] || summaryRow?.opportunity_id || `Row ${index+1}``. -/
def oppId (row : Record) (summaryRow : Option Record) (index : Nat) : String :=
  let a := objGetD row "opportunity_id" ""
  if a ≠ "" then a
  else
    let b := match summaryRow with
             | some sr => objGetD sr "opportunity_id" ""
             | none => ""
    if b ≠ "" then b else "Row " ++ toString (index + 1)

/-- The body of `_tryMerge`'s `.map(...)`: `null` for a blank trimmed key. -/
def mergeOne (summaryMap : RecMap) (index : Nat) (row : Record) : Option MergedRow :=
  let samUrl := jsTrimS (objGetD row "sam-url" "")
  if samUrl = "" then none
  else
    let summaryRow := mapGet summaryMap samUrl
    some { index := index, samUrl := samUrl,
           opportunityId := oppId row summaryRow index,
           baseRow := row, summaryRow := summaryRow }

def mergeRows (baseRows : List Record) (summaryMap : RecMap) : List MergedRow :=
  go baseRows 0
where
  go : List Record → Nat → List MergedRow
  | [], _ => []
  | row :: rest, i =>
      match mergeOne summaryMap i row with
      | some mr => mr :: go rest (i + 1)
      | none => go rest (i + 1)

/-- `_tryMerge` together with the index built by `_handleSummaryFile`: if
either table is empty the function returns early and `this.mergedRows` keeps
its initial empty value. -/
def tryMerge (baseRows summaryRows : List Record) : List MergedRow :=
  if baseRows = [] ∨ summaryRows = [] then []
  else mergeRows baseRows (buildSummaryMap summaryRows)

/-- A JS `Map` from strings to lists of records (for `_groupByOpportunity`). -/
abbrev GroupMap := List (String × List Record)

def gmapSet : GroupMap → String → List Record → GroupMap
  | [], k, v => [(k, v)]
  | (k', v') :: rest, k, v =>
      if k' = k then (k, v) :: rest else (k', v') :: gmapSet rest k v

def gmapGet : GroupMap → String → Option (List Record)
  | [], _ => none
  | (k', v') :: rest, k => if k' = k then some v' else gmapGet rest k

/-- `_groupByOpportunity` of `src/viewer/docs/app.js`: rows with a blank
trimmed `sam-url` are skipped; each other row is appended to its key's list. -/
def groupByOpportunity (rows : List Record) : GroupMap :=
  rows.foldl
    (fun grouped row =>
      let samUrl := jsTrimS (objGetD row "sam-url" "")
      if samUrl = "" then grouped
      else gmapSet grouped samUrl ((gmapGet grouped samUrl).getD [] ++ [row]))
    []

/-- The trimmed `sam-url` key of a record, as both apps compute it. -/
def trimKey (row : Record) : String := jsTrimS (objGetD row "sam-url" "")

/-- A character that is neither a quote, a separator nor a line break, so that
a field made of such characters needs no quoting. -/
def plainChar (c : Char) : Bool := !(c = '"' || c = ',' || c = '\n' || c = '\r')

/-- CSV quoting of a field body: each literal `"` is doubled. -/
def escQuote (l : List Char) : List Char :=
  l.flatMap (fun c => if c = '"' then ['"', '"'] else [c])

/-- A field wrapped in quotes with `"` doubled, as in the round-trip claim. -/
def quoteField (s : String) : String :=
  "\"" ++ (⟨escQuote s.data⟩ : String) ++ "\""

/-- One CSV line: fields joined by `,` and terminated by `\n` (the encoding of
one row of the row-count claim). -/
def csvLineChars : List String → List Char
  | [] => ['\n']
  | [f] => f.data ++ ['\n']
  | f :: fs => f.data ++ ',' :: csvLineChars fs

/-- CSV text made of a header line followed by data lines. -/
def csvTextChars (header : List String) (rows : List (List String)) : List Char :=
  csvLineChars header ++ (rows.map csvLineChars).flatten

/-- The merge as the claim words it: one MergedRow per base Record with a
non-empty trimmed key, in base order, paired with the index lookup (`none` is
the explicit no-match marker) — a left outer join. -/
def mergeSpecClaim (base : List Record) (m : RecMap) : List MergedRow :=
  base.enum.filterMap (fun p =>
    let k := trimKey p.2
    if k = "" then none
    else some { index := p.1, samUrl := k,
                opportunityId := oppId p.2 (mapGet m k) p.1,
                baseRow := p.2, summaryRow := mapGet m k })


/-! ### The Markdown renderer `_parseMarkdown` of `src/viewer/compare/app.js`

Each regex pass of the source is embedded as a character scanner.  Scanners
that can jump over a matched region take a fuel argument, always called with
the input length (one character is consumed per step at minimum, so the fuel
never runs out); this keeps them structurally recursive and kernel-evaluable.
-/

/-- Step 1: `.replace(/&/g,'&amp;').replace(/</g,'&lt;').replace(/>/g,'&gt;')`.
The replacements introduce no `<`/`>` and re-scan nothing, so each pass is a
per-character expansion. -/
def escapeAmp (l : List Char) : List Char :=
  l.flatMap (fun c => if c = '&' then "&amp;".data else [c])

def escapeLt (l : List Char) : List Char :=
  l.flatMap (fun c => if c = '<' then "&lt;".data else [c])

def escapeGt (l : List Char) : List Char :=
  l.flatMap (fun c => if c = '>' then "&gt;".data else [c])

def escapeHtml (l : List Char) : List Char := escapeGt (escapeLt (escapeAmp l))

/-- Apply `f` to every line of the text, where multiline `^`/`$` anchor
around every line terminator (LF, CR, LS, PS), as a JS `^...$`-anchored
`gm`-replace does; terminators are preserved. -/
def mapLinesAux (f : List Char → List Char) : List Char → List Char → List Char
  | acc, [] => f acc.reverse
  | acc, c :: rest =>
      if isLineTerm c then f acc.reverse ++ c :: mapLinesAux f [] rest
      else mapLinesAux f (c :: acc) rest

def mapRegexLines (f : List Char → List Char) (l : List Char) : List Char :=
  mapLinesAux f [] l

/-- Step 2: `^#### (.*)$` → `<h4>$1</h4>` on one line (and the h3/h2/h1
variants). -/
def headerLine (prefixMark : List Char) (tagOpen tagClose : List Char)
    (line : List Char) : List Char :=
  if prefixMark.isPrefixOf line then
    tagOpen ++ line.drop prefixMark.length ++ tagClose
  else line

def h4Line : List Char → List Char := headerLine "#### ".data "<h4>".data "</h4>".data
def h3Line : List Char → List Char := headerLine "### ".data "<h3>".data "</h3>".data
def h2Line : List Char → List Char := headerLine "## ".data "<h2>".data "</h2>".data
def h1Line : List Char → List Char := headerLine "# ".data "<h1>".data "</h1>".data

/-- Step 2, all four header passes in source order (h4 first). -/
def headersPass (l : List Char) : List Char :=
  mapRegexLines h1Line (mapRegexLines h2Line (mapRegexLines h3Line (mapRegexLines h4Line l)))

/-- The lazy closing search of `/\*\*(.+?)\*\*/`: the shortest non-empty run
of non-line-terminator characters followed by `**`. -/
def boldClose : List Char → Option (List Char × List Char)
  | [] => none
  | c :: rest =>
      if isLineTerm c then none
      else if rest.head? = some '*' ∧ rest.tail.head? = some '*' then
        some ([c], rest.tail.tail)
      else (boldClose rest).map (fun p => (c :: p.1, p.2))

/-- Step 4a: `.replace(/\*\*(.+?)\*\*/g, '<strong>$1</strong>')`.  On a failed
match the regex engine advances one position, which re-examines the second
`*`. -/
def boldScanF : Nat → List Char → List Char
  | 0, l => l
  | _ + 1, [] => []
  | n + 1, c :: rest =>
      if c = '*' ∧ rest.head? = some '*' then
        match boldClose rest.tail with
        | some (content, rest2) =>
            "<strong>".data ++ content ++ "</strong>".data ++ boldScanF n rest2
        | none => c :: boldScanF n rest
      else c :: boldScanF n rest

def boldScan (l : List Char) : List Char := boldScanF l.length l

/-- The closing search of `/\*([^*\s]+[^*]*[^*\s]+)\*/`: the run up to the
next `*` is the only candidate content; it matches iff it has length ≥ 2 and
non-whitespace first and last characters (whitespace includes line
terminators, but the middle may span lines). -/
def emClose (l : List Char) : Option (List Char × List Char) :=
  let content := l.takeWhile (fun c => c ≠ '*')
  let rest := l.dropWhile (fun c => c ≠ '*')
  if rest.head? = some '*' ∧ 2 ≤ content.length
      ∧ ¬isJsWs (content.headD ' ') ∧ ¬isJsWs (content.getLastD ' ') then
    some (content, rest.tail)
  else none

/-- Step 4b: `.replace(/\*([^*\s]+[^*]*[^*\s]+)\*\/g, '<em>$1</em>')`. -/
def emScanF : Nat → List Char → List Char
  | 0, l => l
  | _ + 1, [] => []
  | n + 1, c :: rest =>
      if c = '*' then
        match emClose rest with
        | some (content, rest2) => "<em>".data ++ content ++ "</em>".data ++ emScanF n rest2
        | none => c :: emScanF n rest
      else c :: emScanF n rest

def emScan (l : List Char) : List Char := emScanF l.length l

/-- The match of `/\[([^\]]+)\]\(([^)]+)\)/` starting right after a `[`:
non-empty text up to the next `]`, then `(`, non-empty url up to the next
`)`, then `)`. -/
def linkMatch (l : List Char) : Option (List Char × List Char × List Char) :=
  let text := l.takeWhile (fun c => c ≠ ']')
  let r1 := l.dropWhile (fun c => c ≠ ']')
  if text ≠ [] ∧ r1.head? = some ']' ∧ r1.tail.head? = some '(' then
    let r2 := r1.tail.tail
    let url := r2.takeWhile (fun c => c ≠ ')')
    let r3 := r2.dropWhile (fun c => c ≠ ')')
    if url ≠ [] ∧ r3.head? = some ')' then some (text, url, r3.tail)
    else none
  else none

/-- `'<a href="$2" target="_blank" rel="noopener">$1</a>'`. -/
def linkEmit (text url : List Char) : List Char :=
  "<a href=\"".data ++ url ++ "\" target=\"_blank\" rel=\"noopener\">".data
    ++ text ++ "</a>".data

/-- Step 5 (and the link step of `processInlineFormatting`). -/
def linkScanF : Nat → List Char → List Char
  | 0, l => l
  | _ + 1, [] => []
  | n + 1, c :: rest =>
      if c = '[' then
        match linkMatch rest with
        | some (text, url, rest2) => linkEmit text url ++ linkScanF n rest2
        | none => c :: linkScanF n rest
      else c :: linkScanF n rest

def linkScan (l : List Char) : List Char := linkScanF l.length l

/-- The `processInlineFormatting` helper: bold, then italic, then links. -/
def processInline (l : List Char) : List Char := linkScan (emScan (boldScan l))

inductive LType | ul | ol
deriving Repr, DecidableEq

/-- One entry of `listPlaceholders`. -/
structure PH where
  type : LType
  content : List Char
  indent : List Char
  number : Option (List Char)
deriving Repr, DecidableEq

/-- `__LIST_ITEM_${i}__`. -/
def phName (i : Nat) : List Char := "__LIST_ITEM_".data ++ (toString i).data ++ "__".data

/-- The `\s+(.+)$` tail of both list-marker regexes, applied after the
marker: `\s+` greedily eats whitespace (line terminators included); `(.+)`
then takes the maximal run of non-line-terminator characters; if nothing
follows the whitespace, greedy backtracking hands the last non-terminator
whitespace character (if any, and if at least one whitespace character
remains for `\s+`) to `(.+)` and `$` matches before the trailing
terminators. -/
def markerTail (l : List Char) : Option (List Char × List Char) :=
  let w := l.takeWhile isJsWs
  let after := l.dropWhile isJsWs
  if w = [] then none
  else if after ≠ [] then
    let content := after.takeWhile (fun c => !isLineTerm c)
    some (content, after.dropWhile (fun c => !isLineTerm c))
  else
    let w' := (w.reverse.dropWhile isLineTerm).reverse
    if 2 ≤ w'.length then some ([w'.getLastD ' '], w.drop w'.length)
    else none

/-- A match of `^(\s*)([\*\-])\s+(.+)$` at a line start: `(indent, content,
rest-of-input)`. -/
def ulMatch (l : List Char) : Option (List Char × List Char × List Char) :=
  let indent := l.takeWhile isJsWs
  let after := l.dropWhile isJsWs
  if after.head? = some '*' ∨ after.head? = some '-' then
    (markerTail after.tail).map (fun p => (indent, p.1, p.2))
  else none

/-- A match of `^(\s*)(\d+)\.\s+(.+)$` at a line start: `(indent, number,
content, rest-of-input)`. -/
def olMatch (l : List Char) : Option (List Char × List Char × List Char × List Char) :=
  let indent := l.takeWhile isJsWs
  let after := l.dropWhile isJsWs
  let digits := after.takeWhile isDigitCh
  if digits ≠ [] ∧ (after.dropWhile isDigitCh).head? = some '.' then
    (markerTail (after.dropWhile isDigitCh).tail).map
      (fun p => (indent, digits, p.1, p.2))
  else none

/-- Step 3a: replace unordered list items with placeholders, processing each
item's content with `processInlineFormatting` and recording it in the shared
`listPlaceholders` table.  `atStart` tracks whether the position is a `^`
anchor position of the multiline regex. -/
def ulPassF : Nat → Bool → List Char → Nat → List PH → List Char × Nat × List PH
  | 0, _, l, idx, phs => (l, idx, phs)
  | n + 1, atStart, l, idx, phs =>
      if l = [] then ([], idx, phs)
      else if atStart then
        match ulMatch l with
        | some p =>
            let ph : PH := { type := LType.ul, content := processInline p.2.1,
                             indent := p.1, number := none }
            let r := ulPassF n false p.2.2 (idx + 1) (phs ++ [ph])
            (p.1 ++ phName idx ++ r.1, r.2)
        | none =>
            let r := ulPassF n (isLineTerm (l.headD ' ')) l.tail idx phs
            (l.headD ' ' :: r.1, r.2)
      else
        let r := ulPassF n (isLineTerm (l.headD ' ')) l.tail idx phs
        (l.headD ' ' :: r.1, r.2)

/-- Step 3b: the ordered-list pass, run on the output of the unordered pass
with the same shared placeholder counter and table. -/
def olPassF : Nat → Bool → List Char → Nat → List PH → List Char × Nat × List PH
  | 0, _, l, idx, phs => (l, idx, phs)
  | n + 1, atStart, l, idx, phs =>
      if l = [] then ([], idx, phs)
      else if atStart then
        match olMatch l with
        | some p =>
            let ph : PH := { type := LType.ol, content := processInline p.2.2.1,
                             indent := p.1, number := some p.2.1 }
            let r := olPassF n false p.2.2.2 (idx + 1) (phs ++ [ph])
            (p.1 ++ phName idx ++ r.1, r.2)
        | none =>
            let r := olPassF n (isLineTerm (l.headD ' ')) l.tail idx phs
            (l.headD ' ' :: r.1, r.2)
      else
        let r := olPassF n (isLineTerm (l.headD ' ')) l.tail idx phs
        (l.headD ' ' :: r.1, r.2)

/-- The unordered pass at exact fuel. -/
def ulPassRun (s : Bool) (l : List Char) (idx : Nat) (phs : List PH) :
    List Char × Nat × List PH := ulPassF l.length s l idx phs

/-- The ordered pass at exact fuel. -/
def olPassRun (s : Bool) (l : List Char) (idx : Nat) (phs : List PH) :
    List Char × Nat × List PH := olPassF l.length s l idx phs

/-- `html.split('\n')`. -/
def splitOnNlAux : List Char → List Char → List (List Char)
  | acc, [] => [acc.reverse]
  | acc, c :: rest =>
      if c = '\n' then acc.reverse :: splitOnNlAux [] rest
      else splitOnNlAux (c :: acc) rest

def splitOnNl (l : List Char) : List (List Char) := splitOnNlAux [] l

/-- `Array.join('\n')`. -/
def joinNl : List (List Char) → List Char
  | [] => []
  | [x] => x
  | x :: xs => x ++ '\n' :: joinNl xs

/-- The digit value of `parseInt` on a run of decimal digits. -/
def digitsToNat (l : List Char) : Nat :=
  l.foldl (fun a c => a * 10 + (c.toNat - '0'.toNat)) 0

/-- `line.match(/^(\s*)__LIST_ITEM_(\d+)__$/)`: optional whitespace, the
literal prefix, a digit run, the literal `__`, end of line. -/
def phLineMatch (line : List Char) : Option Nat :=
  let rest := line.dropWhile isJsWs
  if "__LIST_ITEM_".data.isPrefixOf rest then
    let rest2 := rest.drop 12
    let digits := rest2.takeWhile isDigitCh
    if digits ≠ [] ∧ rest2.drop digits.length = "__".data then some (digitsToNat digits)
    else none
  else none

/-- Step 6: walk the lines, replacing placeholder lines by `<li>` elements,
wrapping runs in `<ul>`/`<ol>`, closing the other list kind on a type change,
closing open lists at a non-list line and at end of input.  A placeholder
line whose index is not in the table is pushed unchanged and — like the JS
`continue` — leaves any open list open. -/
def walkLines (phs : List PH) : List (List Char) → Bool → Bool → List (List Char)
  | [], inU, inO =>
      (if inU then ["</ul>".data] else []) ++ (if inO then ["</ol>".data] else [])
  | line :: rest, inU, inO =>
      match phLineMatch line with
      | some k =>
          match phs.get? k with
          | none => line :: walkLines phs rest inU inO
          | some ph =>
              match ph.type with
              | LType.ul =>
                  if inU then
                    ("<li>".data ++ ph.content ++ "</li>".data) :: walkLines phs rest true inO
                  else
                    (if inO then ["</ol>".data] else [])
                      ++ ["<ul>".data, "<li>".data ++ ph.content ++ "</li>".data]
                      ++ walkLines phs rest true false
              | LType.ol =>
                  if inO then
                    ("<li>".data ++ ph.content ++ "</li>".data) :: walkLines phs rest inU true
                  else
                    (if inU then ["</ul>".data] else [])
                      ++ ["<ol>".data, "<li>".data ++ ph.content ++ "</li>".data]
                      ++ walkLines phs rest false true
      | none =>
          (if inU then ["</ul>".data] else []) ++ (if inO then ["</ol>".data] else [])
            ++ [line] ++ walkLines phs rest false false

/-- `html.split(/\n\n+/)`: pieces between maximal runs of two or more
newlines. -/
def splitBlocksAux : Nat → List Char → List Char → List (List Char)
  | 0, acc, l => [acc.reverse ++ l]
  | _ + 1, acc, [] => [acc.reverse]
  | n + 1, acc, c :: rest =>
      if c = '\n' ∧ rest.head? = some '\n' then
        acc.reverse :: splitBlocksAux n [] (rest.dropWhile (fun x => x = '\n'))
      else splitBlocksAux n (c :: acc) rest

def splitBlocks (l : List Char) : List (List Char) := splitBlocksAux l.length [] l

/-- `para.match(/^<(h[1-6]|ul|ol|li|p|div|blockquote|pre)/)`. -/
def isBlockStart (p : List Char) : Bool :=
  ["<h1", "<h2", "<h3", "<h4", "<h5", "<h6", "<ul", "<ol", "<li", "<p", "<div",
   "<blockquote", "<pre"].any (fun t => t.data.isPrefixOf p)

/-- `para.match(/^<(ul|ol)/)`. -/
def isListStart (p : List Char) : Bool :=
  "<ul".data.isPrefixOf p || "<ol".data.isPrefixOf p

/-- `para.replace(/\n/g, '<br>')`. -/
def brReplace (l : List Char) : List Char :=
  l.flatMap (fun c => if c = '\n' then "<br>".data else [c])

/-- Step 7, one paragraph candidate: trim; empty → `''`; block-start → pass
through (lists verbatim, others with `\n` → `<br>`); otherwise wrap in
`<p>…</p>` with `\n` → `<br>`. -/
def blockMap (b : List Char) : List Char :=
  let p := jsTrim b
  if p = [] then []
  else if isBlockStart p then (if isListStart p then p else brReplace p)
  else "<p>".data ++ brReplace p ++ "</p>".data

/-- `_parseMarkdown`, the whole pipeline. -/
def parseMarkdown (text : String) : String :=
  if text = "" then ""
  else
    let l0 := escapeHtml text.data
    let l1 := headersPass l0
    let u := ulPassRun true l1 0 []
    let o := olPassRun true u.1 u.2.1 u.2.2
    let l4 := linkScan (emScan (boldScan o.1))
    let walked := walkLines o.2.2 (splitOnNl l4) false false
    let blocks := splitBlocks (joinNl walked)
    ⟨joinNl (blocks.map blockMap)⟩

/-- The raw markdown text of a run of `- `-marked list-item lines, newline
separated. -/
def ulItemLines : List String → List Char
  | [] => []
  | [it] => '-' :: ' ' :: it.data
  | it :: rest => ('-' :: ' ' :: it.data) ++ '\n' :: ulItemLines rest

/-- The placeholder lines the unordered pass leaves for a run of items
starting at table index `idx`. -/
def phNameLines (idx : Nat) : List String → List (List Char)
  | [] => []
  | _ :: rest => phName idx :: phNameLines (idx + 1) rest

/-- The `<li>` lines of the final `<ul>`, newline separated. -/
def liLines : List String → List Char
  | [] => []
  | [it] => "<li>".data ++ it.data ++ "</li>".data
  | it :: rest => ("<li>".data ++ it.data ++ "</li>".data) ++ '\n' :: liLines rest

/-- Scan for the absence of two adjacent newlines (so `split(/\n\n+/)` cannot
cut anywhere). -/
def noNlNl : List Char → Bool
  | [] => true
  | c :: rest => if c = '\n' ∧ rest.head? = some '\n' then false else noNlNl rest

/-- The JSON value universe produced by `JSON.parse` (objects kept as
insertion-ordered member lists).  Strings are sequences of Unicode scalar
values, Lean's `Char`; numbers are kept as exact decimals — a signed
mantissa and a base-10 exponent — rather than IEEE-754 doubles. -/
inductive Json where
  | str : List Char → Json
  | num : Int → Int → Json
  | bool : Bool → Json
  | null : Json
  | arr : List Json → Json
  | obj : List (List Char × Json) → Json
deriving Repr

/-- The whitespace `JSON.parse` skips between tokens: space, tab, LF, CR. -/
def jsonWsCh (c : Char) : Bool := c = ' ' || c = '\t' || c = '\n' || c = '\x0d'

/-- Skip inter-token whitespace. -/
def skipWs (l : List Char) : List Char := l.dropWhile jsonWsCh

/-- The value of one hex digit of a `\uXXXX` escape. -/
def hexVal (c : Char) : Option Nat :=
  if '0' ≤ c ∧ c ≤ '9' then some (c.toNat - '0'.toNat)
  else if 'a' ≤ c ∧ c ≤ 'f' then some (c.toNat - 'a'.toNat + 10)
  else if 'A' ≤ c ∧ c ≤ 'F' then some (c.toNat - 'A'.toNat + 10)
  else none

/-- Exactly four hex digits: the code unit of a `\uXXXX` escape and the rest
of the input. -/
def hex4 (l : List Char) : Option (Nat × List Char) :=
  match l with
  | a :: b :: c :: d :: r =>
      match hexVal a, hexVal b, hexVal c, hexVal d with
      | some x, some y, some z, some w => some (((x * 16 + y) * 16 + z) * 16 + w, r)
      | _, _, _, _ => none
  | _ => none

/-- A JSON string body after the opening quote, per the JSON grammar
`JSON.parse` implements: the escapes `\" \\ \/ \b \f \n \r \t` and `\uXXXX`
(a high/low surrogate escape pair decodes to the astral scalar it encodes;
a lone surrogate escape, which JS keeps as an unpaired UTF-16 code unit that
`Char` cannot carry, decodes to U+FFFD), any other escape is a parse error,
and a raw control character below U+0020 is a parse error.  Returns the
decoded content and the input after the closing quote. -/
def parseStringF : Nat → List Char → Option (List Char × List Char)
  | 0, _ => none
  | _ + 1, [] => none
  | n + 1, c :: rest =>
      if c = '"' then some ([], rest)
      else if c = '\\' then
        match rest with
        | [] => none
        | e :: rest2 =>
            if e = '"' then (parseStringF n rest2).map (fun p => ('"' :: p.1, p.2))
            else if e = '\\' then (parseStringF n rest2).map (fun p => ('\\' :: p.1, p.2))
            else if e = '/' then (parseStringF n rest2).map (fun p => ('/' :: p.1, p.2))
            else if e = 'n' then (parseStringF n rest2).map (fun p => ('\n' :: p.1, p.2))
            else if e = 't' then (parseStringF n rest2).map (fun p => ('\t' :: p.1, p.2))
            else if e = 'r' then (parseStringF n rest2).map (fun p => ('\x0d' :: p.1, p.2))
            else if e = 'b' then (parseStringF n rest2).map (fun p => ('\x08' :: p.1, p.2))
            else if e = 'f' then (parseStringF n rest2).map (fun p => ('\x0c' :: p.1, p.2))
            else if e = 'u' then
              match hex4 rest2 with
              | none => none
              | some (u, r3) =>
                  if 0xD800 ≤ u ∧ u ≤ 0xDBFF then
                    match r3 with
                    | '\\' :: 'u' :: r4 =>
                        match hex4 r4 with
                        | none => none
                        | some (u2, r5) =>
                            if 0xDC00 ≤ u2 ∧ u2 ≤ 0xDFFF then
                              (parseStringF n r5).map (fun p =>
                                (Char.ofNat (0x10000 + (u - 0xD800) * 0x400
                                  + (u2 - 0xDC00)) :: p.1, p.2))
                            else
                              (parseStringF n ('\\' :: 'u' :: r4)).map
                                (fun p => ('\uFFFD' :: p.1, p.2))
                    | _ => (parseStringF n r3).map (fun p => ('\uFFFD' :: p.1, p.2))
                  else if 0xDC00 ≤ u ∧ u ≤ 0xDFFF then
                    (parseStringF n r3).map (fun p => ('\uFFFD' :: p.1, p.2))
                  else
                    (parseStringF n r3).map (fun p => (Char.ofNat u :: p.1, p.2))
            else none
      else if c.toNat < 0x20 then none
      else (parseStringF n rest).map (fun p => (c :: p.1, p.2))

/-- The optional fraction part of a JSON number: `.` must be followed by at
least one digit. -/
def parseFrac (l : List Char) : Option (List Char × List Char) :=
  match l with
  | '.' :: r =>
      let ds := r.takeWhile isDigitCh
      if ds = [] then none else some (ds, r.drop ds.length)
  | _ => some ([], l)

/-- The optional exponent part of a JSON number: `e`/`E`, an optional sign,
at least one digit. -/
def parseExp (l : List Char) : Option (Int × List Char) :=
  match l with
  | c :: r =>
      if c = 'e' ∨ c = 'E' then
        match r with
        | '+' :: r2 =>
            let ds := r2.takeWhile isDigitCh
            if ds = [] then none else some ((digitsToNat ds : Int), r2.drop ds.length)
        | '-' :: r2 =>
            let ds := r2.takeWhile isDigitCh
            if ds = [] then none else some (-(digitsToNat ds : Int), r2.drop ds.length)
        | _ =>
            let ds := r.takeWhile isDigitCh
            if ds = [] then none else some ((digitsToNat ds : Int), r.drop ds.length)
      else some (0, l)
  | [] => some (0, [])

/-- A JSON number per the grammar `JSON.parse` implements:
`-?(0|[1-9][0-9]*)(.[0-9]+)?([eE][+-]?[0-9]+)?` — no leading zeros, fraction
and exponent need digits.  Returns the exact decimal value as a signed
mantissa and base-10 exponent, and the rest of the input. -/
def parseNumber (l : List Char) : Option (Int × Int × List Char) :=
  let p := match l with
    | '-' :: r => (true, r)
    | _ => (false, l)
  let intDs := p.2.takeWhile isDigitCh
  if intDs = [] then none
  else if intDs.headD '0' = '0' ∧ intDs.length ≠ 1 then none
  else
    match parseFrac (p.2.drop intDs.length) with
    | none => none
    | some (fracDs, l3) =>
        match parseExp l3 with
        | none => none
        | some (e, l4) =>
            let mant : Int := (digitsToNat (intDs ++ fracDs) : Int)
            some (if p.1 then -mant else mant, e - (fracDs.length : Int), l4)

mutual

/-- Recursive-descent `JSON.parse` over the JSON grammar (strings, numbers,
booleans, null, arrays, objects); returns the value and the unconsumed
input, or `none` on a parse error. -/
def parseValueF : Nat → List Char → Option (Json × List Char)
  | 0, _ => none
  | n + 1, l =>
      match skipWs l with
      | [] => none
      | c :: rest =>
          if c = '"' then (parseStringF n rest).map (fun p => (Json.str p.1, p.2))
          else if c = '\x7b' then
            match skipWs rest with
            | '\x7d' :: rest2 => some (Json.obj [], rest2)
            | l2 => (parseMembersF n l2).map (fun p => (Json.obj p.1, p.2))
          else if c = '[' then
            match skipWs rest with
            | ']' :: rest2 => some (Json.arr [], rest2)
            | l2 => (parseElemsF n l2).map (fun p => (Json.arr p.1, p.2))
          else if c = 't' then
            if "rue".data.isPrefixOf rest then some (Json.bool true, rest.drop 3) else none
          else if c = 'f' then
            if "alse".data.isPrefixOf rest then some (Json.bool false, rest.drop 4) else none
          else if c = 'n' then
            if "ull".data.isPrefixOf rest then some (Json.null, rest.drop 3) else none
          else if c = '-' ∨ isDigitCh c then
            (parseNumber (c :: rest)).map (fun p => (Json.num p.1 p.2.1, p.2.2))
          else none

/-- One or more `"key": value` object members up to the closing brace. -/
def parseMembersF : Nat → List Char → Option (List (List Char × Json) × List Char)
  | 0, _ => none
  | n + 1, l =>
      match skipWs l with
      | '"' :: rest =>
          match parseStringF n rest with
          | none => none
          | some (key, rest2) =>
              match skipWs rest2 with
              | ':' :: rest3 =>
                  match parseValueF n rest3 with
                  | none => none
                  | some (v, rest4) =>
                      match skipWs rest4 with
                      | ',' :: rest5 =>
                          (parseMembersF n rest5).map (fun p => ((key, v) :: p.1, p.2))
                      | '\x7d' :: rest5 => some ([(key, v)], rest5)
                      | _ => none
              | _ => none
      | _ => none

/-- One or more array elements up to the closing `]`. -/
def parseElemsF : Nat → List Char → Option (List Json × List Char)
  | 0, _ => none
  | n + 1, l =>
      match parseValueF n l with
      | none => none
      | some (v, rest) =>
          match skipWs rest with
          | ',' :: rest2 => (parseElemsF n rest2).map (fun p => (v :: p.1, p.2))
          | ']' :: rest2 => some ([v], rest2)
          | _ => none

end

/-- `JSON.parse` on a whole string — one value with nothing but whitespace
after it. -/
def jsonParse (l : List Char) : Option Json :=
  match parseValueF (l.length + 1) l with
  | some (v, rest) => if skipWs rest = [] then some v else none
  | none => none

/-- JS property read on a parsed object; with duplicate keys `JSON.parse`
keeps the last occurrence. -/
def jsonGet : List (List Char × Json) → List Char → Option Json
  | [], _ => none
  | (k', v) :: rest, k =>
      match jsonGet rest k with
      | some r => some r
      | none => if k' = k then some v else none

/-- JS truthiness of the payload field (`if (data.document_summary)`): a
number is falsy exactly when its mantissa is zero (the IEEE-754 underflow of
astronomically small exponents to zero is not modelled; no claim observes a
numeric payload). -/
def jsonTruthy : Json → Bool
  | Json.str s => !(s = [])
  | Json.num m _ => !(m = 0)
  | Json.bool b => b
  | Json.null => false
  | Json.arr _ => true
  | Json.obj _ => true

mutual

/-- The returned payload as render text: the identity on strings — the only
payload type the claims observe; for the other JS values (which
`_extractSummaryText` returns raw, to be string-coerced downstream) an exact
decimal rendering stands in for IEEE-754 float formatting. -/
def jsonAsText : Json → List Char
  | Json.str s => s
  | Json.num m e =>
      (toString m).data ++ (if e = 0 then [] else 'e' :: (toString e).data)
  | Json.bool true => "true".data
  | Json.bool false => "false".data
  | Json.null => "null".data
  | Json.arr xs => jsonAsTextList xs
  | Json.obj _ => "[object Object]".data

/-- JS `Array.prototype.toString`, elements joined by commas. -/
def jsonAsTextList : List Json → List Char
  | [] => []
  | [x] => jsonAsText x
  | x :: xs => jsonAsText x ++ ',' :: jsonAsTextList xs

end

/-- `_extractSummaryText` (src/outputs/cost_report.md), the candidate check:
the trimmed input starts with `{`, ` ```json `, or ` ``` `. -/
def startCond (trimmed : List Char) : Bool :=
  "\x7b".data.isPrefixOf trimmed || "```json".data.isPrefixOf trimmed
    || "```".data.isPrefixOf trimmed

/-- `_extractSummaryText` (src/outputs/cost_report.md): strip a leading
` ```json `/` ``` ` fence (`slice(7)`/`slice(3)`), a trailing ` ``` ` fence
(`slice(0, -3)`), then trim. -/
def stripFence (trimmed : List Char) : List Char :=
  let c1 := if "```json".data.isPrefixOf trimmed then trimmed.drop 7
            else if "```".data.isPrefixOf trimmed then trimmed.drop 3
            else trimmed
  let c2 := if "```".data.isSuffixOf c1 then c1.take (c1.length - 3) else c1
  jsTrim c2

/-- `_extractSummaryText` (src/outputs/cost_report.md): walk forward from the
first `{` tracking brace depth; returns the substring up to the matching `}`,
or `none` when the depth never balances (in which case the JS code feeds the
empty `substring(startIdx, startIdx)` to `JSON.parse`, which throws — the
same failure path). -/
def braceWalkF : Nat → List Char → Nat → List Char → Option (List Char)
  | 0, _, _, _ => none
  | _ + 1, [], _, _ => none
  | n + 1, c :: rest, depth, acc =>
      if c = '\x7b' then braceWalkF n rest (depth + 1) (acc ++ [c])
      else if c = '\x7d' then
        if depth = 1 then some (acc ++ [c])
        else braceWalkF n rest (depth - 1) (acc ++ [c])
      else braceWalkF n rest depth (acc ++ [c])

/-- `_extractSummaryText` (src/outputs/cost_report.md), the JSON-envelope
unwrapper the spec describes: empty input yields the empty string; for
candidate inputs, strip the fence, cut at the first balanced brace pair,
`JSON.parse` the cut, and return the `document_summary` field when it is
truthy; every failure (including a non-object or absent/falsy field) returns
the input unchanged, as the `try`/`catch` and fall-through do. -/
def extractSummaryText (text : String) : String :=
  if text = "" then ""
  else
    let trimmed := jsTrim text.data
    if startCond trimmed then
      let cleaned := stripFence trimmed
      let fromBrace := cleaned.dropWhile (fun c => !(c = '\x7b'))
      if fromBrace = [] then text
      else
        match braceWalkF fromBrace.length fromBrace 0 [] with
        | none => text
        | some jsonStr =>
            match jsonParse jsonStr with
            | none => text
            | some (Json.obj ms) =>
                match jsonGet ms "document_summary".data with
                | some v => if jsonTruthy v then ⟨jsonAsText v⟩ else text
                | none => text
            | some _ => text
    else text

/-- The tag starts the renderer can emit after a `<`: the fixed tags of the
whitelist plus the `a href="` attribute head (whose attribute region is built
from the link URL). -/
def tagStarts : List (List Char) :=
  ["h1>", "h2>", "h3>", "h4>", "/h1>", "/h2>", "/h3>", "/h4>", "p>", "/p>",
   "ul>", "/ul>", "ol>", "/ol>", "li>", "/li>", "strong>", "/strong>",
   "em>", "/em>", "br>", "a href=\"", "/a>"].map String.data

/-- Every `<` of the string opens one of the whitelisted tag starts. -/
def LtSafe (l : List Char) : Prop :=
  ∀ a b : List Char, l = a ++ '<' :: b → ∃ t ∈ tagStarts, t.isPrefixOf b

/-- The spec's closed tag list: the output "contains only `<h1>`–`<h4>`,
`<p>`, `<ul>`, `<ol>`, `<li>`, `<strong>`, `<em>`, `<a href target rel>`,
`<br>`, and escaped text nodes". -/
def fullTags : List (List Char) :=
  ["<h1>", "</h1>", "<h2>", "</h2>", "<h3>", "</h3>", "<h4>", "</h4>",
   "<p>", "</p>", "<ul>", "</ul>", "<ol>", "</ol>", "<li>", "</li>",
   "<strong>", "</strong>", "<em>", "</em>", "<br>", "</a>"].map String.data

/-- The spec's only allowed `<a>` form: `<a href="URL" target="_blank"
rel="noopener">` where the URL region carries no attribute-breaking
metacharacter; returns the input after the tag when it matches. -/
def claimATag (b : List Char) : Option (List Char) :=
  if "a href=\"".data.isPrefixOf b then
    let r := b.drop 8
    let url := r.takeWhile (fun c => !(c = '"' || c = '<' || c = '>'))
    let r2 := r.drop url.length
    if "\" target=\"_blank\" rel=\"noopener\">".data.isPrefixOf r2 then
      some (r2.drop 33)
    else none
  else none

/-- Scan of the spec's output guarantee: every `<` must open one of the
whitelisted full tags or the allowed `<a>` form. -/
def claimTagCheckF : Nat → List Char → Bool
  | 0, l => l.isEmpty
  | _ + 1, [] => true
  | n + 1, c :: rest =>
      if c = '<' then
        match fullTags.find? (fun t => t.isPrefixOf (c :: rest)) with
        | some t => claimTagCheckF n ((c :: rest).drop t.length)
        | none =>
            match claimATag rest with
            | some r => claimTagCheckF n r
            | none => false
      else claimTagCheckF n rest

/-- The spec's output guarantee as a checker over a rendered string. -/
def claimTagCheck (s : String) : Bool := claimTagCheckF s.data.length s.data

/-! ### Proofs about the CSV parser, merge and grouping -/


theorem csvScanAux_skip (c : Char) (rest : List Char) (st : CsvState) :
    csvScanAux (c :: rest) true st = csvScanAux rest false st := by
  simp [csvScanAux]

theorem csvScanAux_inq (c : Char) (rest : List Char) (st : CsvState)
    (h : st.inQuotes = true) (hc : c ≠ '"') :
    csvScanAux (c :: rest) false st = csvScanAux rest false (appendField st c) := by
  simp [csvScanAux, h, hc]

theorem csvScanAux_plain (c : Char) (rest : List Char) (st : CsvState)
    (h : st.inQuotes = false) (hc : plainChar c = true) :
    csvScanAux (c :: rest) false st = csvScanAux rest false (appendField st c) := by
  simp only [plainChar, Bool.not_eq_true', Bool.or_eq_false_iff, decide_eq_false_iff_not] at hc
  obtain ⟨⟨⟨h1, h2⟩, h3⟩, h4⟩ := hc
  simp [csvScanAux, h, h1, h2, h3, h4]

theorem csvScanAux_comma (rest : List Char) (st : CsvState) (h : st.inQuotes = false) :
    csvScanAux (',' :: rest) false st = csvScanAux rest false (pushFieldSt st) := by
  simp [csvScanAux, h]

theorem csvScanAux_nl (rest : List Char) (st : CsvState) (h : st.inQuotes = false) :
    csvScanAux ('\n' :: rest) false st = csvScanAux rest false (pushRowSt (pushFieldSt st)) := by
  simp [csvScanAux, h]

theorem csvScanAux_open (rest : List Char) (st : CsvState) (h : st.inQuotes = false) :
    csvScanAux ('"' :: rest) false st = csvScanAux rest false { st with inQuotes := true } := by
  simp [csvScanAux, h]

theorem csvScanAux_escQuote (s : List Char) (st : CsvState) (h : st.inQuotes = true) :
    csvScanAux (escQuote s ++ ['"']) false st =
      { st with inQuotes := false, currentField := st.currentField ++ s } := by
  induction s generalizing st with
  | nil =>
    show csvScanAux ['"'] false st = _
    simp [csvScanAux, h]
  | cons c cs ih =>
    by_cases hc : c = '"'
    · subst hc
      have he : escQuote ('"' :: cs) ++ ['"'] = '"' :: '"' :: (escQuote cs ++ ['"']) := by
        simp [escQuote]
      rw [he]
      rw [show csvScanAux ('"' :: '"' :: (escQuote cs ++ ['"'])) false st
            = csvScanAux ('"' :: (escQuote cs ++ ['"'])) true (appendField st '"') by
        simp [csvScanAux, h]]
      rw [csvScanAux_skip, ih (appendField st '"') h]
      simp [appendField]
    · have he : escQuote (c :: cs) ++ ['"'] = c :: (escQuote cs ++ ['"']) := by
        simp [escQuote, hc]
      rw [he, csvScanAux_inq c _ st h hc, ih (appendField st c) h]
      simp [appendField]

theorem csvScanAux_quoted (s : List Char) (st : CsvState) (h : st.inQuotes = false) :
    csvScanAux ('"' :: (escQuote s ++ ['"'])) false st =
      { st with currentField := st.currentField ++ s } := by
  rw [csvScanAux_open _ _ h, csvScanAux_escQuote s _ rfl]
  simp [h]


theorem csvScanAux_plainList (f : List Char) (rest : List Char) (st : CsvState)
    (h : st.inQuotes = false) (hf : ∀ c ∈ f, plainChar c = true) :
    csvScanAux (f ++ rest) false st
      = csvScanAux rest false { st with currentField := st.currentField ++ f } := by
  induction f generalizing st with
  | nil => simp
  | cons c cs ih =>
    rw [List.cons_append, csvScanAux_plain c _ st h (hf c (by simp))]
    rw [ih (appendField st c) h (fun c hc => hf c (List.mem_cons_of_mem _ hc))]
    simp [appendField]

theorem csvScanAux_line (fields : List String) (rest : List Char) (st : CsvState)
    (h : st.inQuotes = false) (hcf : st.currentField = []) (hne : fields ≠ [])
    (hf : ∀ f ∈ fields, ∀ c ∈ f.data, plainChar c = true) :
    csvScanAux (csvLineChars fields ++ rest) false st
      = csvScanAux rest false
          (pushRowSt { st with currentRow := st.currentRow ++ fields.map jsTrimS,
                               currentField := [] }) := by
  induction fields generalizing st with
  | nil => exact absurd rfl hne
  | cons f fs ih =>
    cases fs with
    | nil =>
      rw [show csvLineChars [f] = f.data ++ ['\n'] from rfl, List.append_assoc,
          csvScanAux_plainList f.data _ st h (hf f (by simp)),
          List.singleton_append,
          csvScanAux_nl rest { st with currentField := st.currentField ++ f.data } h]
      have hps : pushFieldSt { st with currentField := st.currentField ++ f.data }
          = { st with currentRow := st.currentRow ++ [f].map jsTrimS, currentField := [] } := by
        simp [pushFieldSt, hcf, jsTrimS]
      rw [hps]
    | cons g gs =>
      rw [show csvLineChars (f :: g :: gs) = f.data ++ ',' :: csvLineChars (g :: gs) from rfl,
          List.append_assoc, csvScanAux_plainList f.data _ st h (hf f (by simp)),
          List.cons_append,
          csvScanAux_comma _ { st with currentField := st.currentField ++ f.data } h]
      have hps : pushFieldSt { st with currentField := st.currentField ++ f.data }
          = { st with currentRow := st.currentRow ++ [jsTrimS f], currentField := [] } := by
        simp [pushFieldSt, hcf, jsTrimS]
      rw [hps]
      rw [ih { st with currentRow := st.currentRow ++ [jsTrimS f], currentField := [] } h rfl
            (by simp) (fun x hx => hf x (List.mem_cons_of_mem _ hx))]
      congr 2
      simp

theorem csvScanAux_rows (rows : List (List String)) (st : CsvState)
    (h : st.inQuotes = false) (hcf : st.currentField = []) (hcr : st.currentRow = [])
    (hh : st.headers ≠ [])
    (hr : ∀ r ∈ rows, r ≠ [] ∧ ∀ f ∈ r, ∀ c ∈ f.data, plainChar c = true) :
    csvScanAux ((rows.map csvLineChars).flatten) false st
      = { st with rows := st.rows ++ (rows.filter (fun r => r.length == st.headers.length)).map (fun r => mkRecord st.headers (r.map jsTrimS)) } := by
  induction rows generalizing st with
  | nil => simp [csvScanAux]
  | cons r rs ih =>
    rw [List.map_cons, List.flatten_cons,
        csvScanAux_line r _ st h hcf (hr r (by simp)).1 (fun f hf => (hr r (by simp)).2 f hf)]
    rw [hcr]
    have hne : r.map jsTrimS ≠ [] := by
      simpa using (hr r (by simp)).1
    by_cases hl : r.length = st.headers.length
    · have hps : pushRowSt { st with currentRow := [] ++ r.map jsTrimS, currentField := [] }
          = { st with rows := st.rows ++ [mkRecord st.headers (r.map jsTrimS)],
                      currentRow := [], currentField := [] } := by
        simp [pushRowSt, hne, hh, hl]
      rw [hps, ih { st with rows := st.rows ++ [mkRecord st.headers (r.map jsTrimS)],
                            currentRow := [], currentField := [] } h rfl rfl
            (by simpa using hh) (fun x hx => hr x (List.mem_cons_of_mem _ hx))]
      simp [List.filter_cons, hl, List.append_assoc, hcf, hcr]
    · have hps : pushRowSt { st with currentRow := [] ++ r.map jsTrimS, currentField := [] }
          = { st with currentRow := [], currentField := [] } := by
        simp [pushRowSt, hne, hh, hl]
      rw [hps, ih { st with currentRow := [], currentField := [] } h rfl rfl
            (by simpa using hh) (fun x hx => hr x (List.mem_cons_of_mem _ hx))]
      simp [List.filter_cons, hl, hcf, hcr]


theorem objGet_objSet (r : Record) (k : String) (v : String) (k' : String) :
    objGet (objSet r k v) k' = if k = k' then some v else objGet r k' := by
  induction r with
  | nil => by_cases hk : k = k' <;> simp [objSet, objGet, hk]
  | cons p rest ih =>
    obtain ⟨a, b⟩ := p
    by_cases ha : a = k
    · subst ha
      by_cases hk : a = k' <;> simp [objSet, objGet, hk]
    · by_cases hk : k = k'
      · subst hk
        simp [objSet, objGet, ha, ih, Ne.symm ha]
      · simp [objSet, objGet, ha, ih, hk]

theorem objGet_mkRecord_go (hs vs : List String) (r : Record) (k : String) :
    (objGet (mkRecord.go hs vs r) k).isSome = true ↔ k ∈ hs ∨ (objGet r k).isSome = true := by
  induction hs generalizing vs r with
  | nil => simp [mkRecord.go]
  | cons hh hhs ih =>
    rw [mkRecord.go, ih]
    constructor
    · rintro (hmem | hsome)
      · exact Or.inl (List.mem_cons_of_mem _ hmem)
      · rw [objGet_objSet] at hsome
        by_cases he : hh = k
        · exact Or.inl (he ▸ List.mem_cons_self _ _)
        · right; simpa [he] using hsome
    · rintro (hmem | hsome)
      · rcases List.mem_cons.mp hmem with he | hmem
        · right; rw [objGet_objSet]; simp [he]
        · exact Or.inl hmem
      · right; rw [objGet_objSet]
        by_cases he : hh = k <;> simp [he, hsome]

theorem mkRecord_keys (hs vs : List String) (k : String) :
    (objGet (mkRecord hs vs) k).isSome = true ↔ k ∈ hs := by
  rw [mkRecord, objGet_mkRecord_go]
  simp [objGet]

/-- Helper: the data of the round-trip CSV text. -/
theorem roundtrip_data (hdr s : String) :
    (hdr ++ "\n" ++ quoteField s).data
      = hdr.data ++ '\n' :: '"' :: (escQuote s.data ++ ['"']) := by
  simp [quoteField, String.data_append]

theorem parseCsv_roundtrip (hdr s : String)
    (hh : ∀ c ∈ hdr.data, plainChar c = true) (hs : s ≠ "") :
    parseCsv (hdr ++ "\n" ++ quoteField s) = [[(jsTrimS hdr, jsTrimS s)]] := by
  rw [parseCsv, csvScan, roundtrip_data hdr s,
      csvScanAux_plainList hdr.data _ CsvState.init rfl hh,
      csvScanAux_nl _ { CsvState.init with currentField := CsvState.init.currentField ++ hdr.data } rfl]
  have h1 : pushRowSt (pushFieldSt { CsvState.init with currentField := CsvState.init.currentField ++ hdr.data })
      = { CsvState.init with headers := [jsTrimS hdr] } := by
    simp [pushRowSt, pushFieldSt, CsvState.init, jsTrimS]
  rw [h1, csvScanAux_quoted s.data { CsvState.init with headers := [jsTrimS hdr] } rfl]
  have hsd : s.data ≠ [] := by
    intro hd; exact hs (by cases s; simp_all)
  simp [parseCsvEnd, CsvState.init, hsd, pushFieldSt, pushRowSt, mkRecord, mkRecord.go, objSet,
        jsTrimS]

theorem parseCsv_table (header : List String) (rows : List (List String))
    (hh : header ≠ []) (hhf : ∀ f ∈ header, ∀ c ∈ f.data, plainChar c = true)
    (hr : ∀ r ∈ rows, r ≠ [] ∧ ∀ f ∈ r, ∀ c ∈ f.data, plainChar c = true) :
    parseCsv ⟨csvTextChars header rows⟩
      = (rows.filter (fun r => r.length == header.length)).map (fun r => mkRecord (header.map jsTrimS) (r.map jsTrimS)) := by
  rw [parseCsv, csvScan,
      show (⟨csvTextChars header rows⟩ : String).data = csvTextChars header rows from rfl,
      csvTextChars, csvScanAux_line header _ CsvState.init rfl rfl hh hhf]
  have hmne : header.map jsTrimS ≠ [] := by simpa using hh
  have h1 : pushRowSt { CsvState.init with currentRow := CsvState.init.currentRow ++ header.map jsTrimS, currentField := [] }
      = { CsvState.init with headers := header.map jsTrimS } := by
    simp [pushRowSt, CsvState.init, hmne]
  rw [h1, csvScanAux_rows rows { CsvState.init with headers := header.map jsTrimS } rfl rfl rfl
        (by simpa using hh) hr]
  simp [parseCsvEnd, CsvState.init]


theorem mergeRows_go_eq (m : RecMap) (rows : List Record) (i : Nat) :
    mergeRows.go m rows i = (List.enumFrom i rows).filterMap (fun p => mergeOne m p.1 p.2) := by
  induction rows generalizing i with
  | nil => simp [mergeRows.go]
  | cons row rest ih =>
    rw [mergeRows.go, List.enumFrom, List.filterMap_cons]
    cases hmo : mergeOne m i row <;> simp [hmo, ih]

theorem tryMerge_eq_spec (base other : List Record) (ho : other ≠ []) :
    tryMerge base other = mergeSpecClaim base (buildSummaryMap other) := by
  by_cases hb : base = []
  · subst hb; simp [tryMerge, mergeSpecClaim]
  · rw [tryMerge, if_neg (by simp [hb, ho]), mergeRows, mergeRows_go_eq, mergeSpecClaim]
    rfl

theorem tryMerge_empty_other (base : List Record) : tryMerge base [] = [] := by
  simp [tryMerge]

theorem mapGet_mapSet (m : RecMap) (k : String) (v : Record) (k' : String) :
    mapGet (mapSet m k v) k' = if k = k' then some v else mapGet m k' := by
  induction m with
  | nil => by_cases hk : k = k' <;> simp [mapSet, mapGet, hk]
  | cons p rest ih =>
    obtain ⟨a, b⟩ := p
    by_cases ha : a = k
    · subst ha
      by_cases hk : a = k' <;> simp [mapSet, mapGet, hk]
    · by_cases hk : k = k'
      · subst hk
        simp [mapSet, mapGet, ha, ih, Ne.symm ha]
      · simp [mapSet, mapGet, ha, ih, hk]

theorem getLast?_cons_or {α : Type} (a : α) (l : List α) (x : Option α) :
    ((a :: l).getLast?).or x = (l.getLast?).or (some a) := by
  cases l with
  | nil => simp
  | cons b bs =>
    rcases hbs : (b :: bs).getLast? with _ | y
    · simp [List.getLast?_eq_none_iff] at hbs
    · simp [List.getLast?_cons_cons, hbs]

theorem buildSummaryMap_foldl_get (rows : List Record) (acc : RecMap) (k : String)
    (hk : k ≠ "") :
    mapGet (rows.foldl (fun m row =>
        if trimKey row = "" then m else mapSet m (trimKey row) row) acc) k
      = ((rows.filter (fun r => trimKey r == k)).getLast?).or (mapGet acc k) := by
  induction rows generalizing acc with
  | nil => simp
  | cons r rs ih =>
    rw [List.foldl_cons, ih]
    by_cases hr : trimKey r = ""
    · have hne : ¬(trimKey r == k) = true := by
        simp [hr, Ne.symm hk]
      rw [if_pos hr, List.filter_cons, if_neg hne]
    · by_cases hrk : trimKey r = k
      · have heq : (trimKey r == k) = true := by simp [hrk]
        simp only [List.filter_cons, heq, if_pos, if_neg hr]
        rw [getLast?_cons_or, hrk, mapGet_mapSet]
        simp
      · have hne : ¬(trimKey r == k) = true := by simp [hrk]
        simp only [List.filter_cons, hne, if_neg hr]
        rw [mapGet_mapSet, if_neg hrk]
        simp [hne]

theorem buildSummaryMap_get (rows : List Record) (k : String) (hk : k ≠ "") :
    mapGet (buildSummaryMap rows) k = (rows.filter (fun r => trimKey r == k)).getLast? := by
  have hb : buildSummaryMap rows
      = rows.foldl (fun m row => if trimKey row = "" then m else mapSet m (trimKey row) row) [] := rfl
  rw [hb, buildSummaryMap_foldl_get rows [] k hk]
  simp [mapGet]

theorem mem_mergeSpecClaim (base : List Record) (m : RecMap) (mr : MergedRow)
    (hmem : mr ∈ mergeSpecClaim base m) :
    mr.samUrl ≠ "" ∧ mr.summaryRow = mapGet m mr.samUrl := by
  rw [mergeSpecClaim, List.mem_filterMap] at hmem
  obtain ⟨p, _, hp⟩ := hmem
  by_cases hk : trimKey p.2 = ""
  · simp [hk] at hp
  · simp only [hk, if_neg] at hp
    cases hp
    exact ⟨hk, rfl⟩


theorem gmapGet_gmapSet (m : GroupMap) (k : String) (v : List Record) (k' : String) :
    gmapGet (gmapSet m k v) k' = if k = k' then some v else gmapGet m k' := by
  induction m with
  | nil => by_cases hk : k = k' <;> simp [gmapSet, gmapGet, hk]
  | cons p rest ih =>
    obtain ⟨a, b⟩ := p
    by_cases ha : a = k
    · subst ha
      by_cases hk : a = k' <;> simp [gmapSet, gmapGet, hk]
    · by_cases hk : k = k'
      · subst hk
        simp [gmapSet, gmapGet, ha, ih, Ne.symm ha]
      · simp [gmapSet, gmapGet, ha, ih, hk]

theorem groupBy_foldl_get (rows : List Record) (acc : GroupMap) (k : String) :
    gmapGet (rows.foldl (fun g row =>
        if trimKey row = "" then g
        else gmapSet g (trimKey row) ((gmapGet g (trimKey row)).getD [] ++ [row])) acc) k
      = if k = "" then gmapGet acc k
        else
          match gmapGet acc k with
          | some l => some (l ++ rows.filter (fun r => trimKey r == k))
          | none =>
              if rows.filter (fun r => trimKey r == k) = [] then none
              else some (rows.filter (fun r => trimKey r == k)) := by
  induction rows generalizing acc with
  | nil =>
    simp only [List.foldl_nil, List.filter_nil]
    by_cases hk : k = ""
    · simp [hk]
    · simp only [hk, if_neg]
      cases hacc : gmapGet acc k <;> simp [hacc]
  | cons r rs ih =>
    rw [List.foldl_cons]
    by_cases hr : trimKey r = ""
    · rw [if_pos hr, ih]
      by_cases hk : k = ""
      · simp [hk]
      · have hne : ¬(trimKey r == k) = true := by
          simp [hr]; intro he; exact hk he.symm
        simp only [hk, if_neg, List.filter_cons, hne]
        simp
    · rw [if_neg hr, ih]
      by_cases hk : k = ""
      · simp only [hk, if_pos]
        rw [gmapGet_gmapSet, if_neg (by simpa [hk] using hr)]
      · by_cases hrk : trimKey r = k
        · have heq : (trimKey r == k) = true := by simp [hrk]
          simp only [hk, if_neg, List.filter_cons, heq, if_pos]
          rw [gmapGet_gmapSet, if_pos hrk]
          cases hacc : gmapGet acc k with
          | none =>
            rw [hrk, hacc]
            simp
          | some l =>
            rw [hrk, hacc]
            simp
        · have hne : ¬(trimKey r == k) = true := by simp [hrk]
          simp only [hk, if_neg, List.filter_cons, hne]
          rw [gmapGet_gmapSet, if_neg hrk]
          simp


/-- C2 (counterexample): the round-trip fails for the empty field value.  For
`s = ""` the CSV `x\n""` ends with `currentField` empty and `currentRow`
empty, so the final flush is skipped and no Record at all is produced,
contradicting the claim's "yields a Record whose cell value is s trimmed". -/
theorem c2_counterexample : parseCsv "x\n\"\"" = [] := by decide

/-- C2 (amended): for every **non-empty** string `s`, parsing a header line
followed by `s` quoted (with `"` doubled) yields one Record whose cell value
is `s` trimmed; and parsing `a, b ,c` under header `x,y,z` yields trimmed
cells. -/
theorem c2_roundtrip_trim :
    (∀ hdr s : String, (∀ c ∈ hdr.data, plainChar c = true) → s ≠ "" →
      parseCsv (hdr ++ "\n" ++ quoteField s) = [[(jsTrimS hdr, jsTrimS s)]])
    ∧ parseCsv "x,y,z\na, b ,c" = [[("x", "a"), ("y", "b"), ("z", "c")]] :=
  ⟨parseCsv_roundtrip, by decide⟩

theorem c2_roundtrip_trim_witness :
    parseCsv ("col" ++ "\n" ++ quoteField "a,\n\"b") = [[("col", "a,\n\"b")]] := by
  rw [c2_roundtrip_trim.1 "col" "a,\n\"b" (by decide) (by decide)]
  decide

/-- C3: a table of a header with N columns and data rows encoded one per line
parses to exactly the Records of the rows whose field count is N (the header
itself is never among them); when all M rows match, exactly M Records result;
and every Record's key set is exactly the (trimmed) header column set. -/
theorem c3_row_count_invariant :
    ∀ (header : List String) (rows : List (List String)),
      header ≠ [] → (∀ f ∈ header, ∀ c ∈ f.data, plainChar c = true) →
      (∀ r ∈ rows, r ≠ [] ∧ ∀ f ∈ r, ∀ c ∈ f.data, plainChar c = true) →
      parseCsv ⟨csvTextChars header rows⟩
          = (rows.filter (fun r => r.length == header.length)).map (fun r => mkRecord (header.map jsTrimS) (r.map jsTrimS))
        ∧ ((∀ r ∈ rows, r.length = header.length) →
            (parseCsv ⟨csvTextChars header rows⟩).length = rows.length)
        ∧ (∀ rec ∈ parseCsv ⟨csvTextChars header rows⟩, ∀ k,
            (objGet rec k).isSome = true ↔ k ∈ header.map jsTrimS) := by
  intro header rows hh hhf hr
  have hmain := parseCsv_table header rows hh hhf hr
  refine ⟨hmain, ?_, ?_⟩
  · intro hall
    rw [hmain, List.length_map,
        List.filter_eq_self.mpr (fun r hrm => by simp [hall r hrm])]
  · intro rec hrec k
    rw [hmain] at hrec
    obtain ⟨r, hrm, hre⟩ := List.mem_map.mp hrec
    rw [← hre]
    exact mkRecord_keys _ _ k

theorem c3_row_count_invariant_witness :
    parseCsv ⟨csvTextChars ["x", "y"] [["a", "b"], ["c"], ["d", "e"]]⟩
      = [[("x", "a"), ("y", "b")], [("x", "d"), ("y", "e")]] := by
  rw [(c3_row_count_invariant ["x", "y"] [["a", "b"], ["c"], ["d", "e"]]
        (by decide) (by decide) (by decide)).1]
  decide

/-- C4 (counterexample): when `otherTable` is empty, `_tryMerge` returns
early, so a base row with a non-empty trimmed key produces no MergedRow,
contradicting the claim's "one MergedRow per base Record whose trimmed key is
non-empty ... or an explicit no-match marker when no such Record exists". -/
theorem c4_counterexample :
    tryMerge [[("sam-url", "1")]] [] = [] ∧ trimKey [("sam-url", "1")] = "1" := by
  constructor
  · decide
  · decide

/-- C4 (amended): whenever `otherTable` is non-empty, `_tryMerge` is exactly
the claimed left outer join — one MergedRow per base Record with a non-empty
trimmed key, in base order, paired with the one-shot-index lookup (`none` is
the explicit no-match marker); when either table is empty it emits nothing. -/
theorem c4_merge_left_outer_join :
    ∀ (base other : List Record),
      (other ≠ [] → tryMerge base other = mergeSpecClaim base (buildSummaryMap other))
      ∧ (other = [] → tryMerge base other = []) :=
  fun base other =>
    ⟨tryMerge_eq_spec base other, fun ho => ho ▸ tryMerge_empty_other base⟩

theorem c4_merge_left_outer_join_witness :
    tryMerge [[("sam-url", "1")], [("sam-url", "2")]] [[("sam-url", "2"), ("v", "x")]]
        = mergeSpecClaim [[("sam-url", "1")], [("sam-url", "2")]]
            (buildSummaryMap [[("sam-url", "2"), ("v", "x")]])
      ∧ tryMerge [[("sam-url", "1")], [("sam-url", "2")]] [[("sam-url", "2"), ("v", "x")]]
        = [{ index := 0, samUrl := "1", opportunityId := "Row 1",
             baseRow := [("sam-url", "1")], summaryRow := none },
           { index := 1, samUrl := "2", opportunityId := "Row 2",
             baseRow := [("sam-url", "2")],
             summaryRow := some [("sam-url", "2"), ("v", "x")] }] :=
  ⟨(c4_merge_left_outer_join _ _).1 (by decide), by decide⟩

/-- C5: the one-shot index keeps the **last** record of `otherTable` for a
duplicated trimmed key, and consequently every merged row is paired with the
last matching record, never an earlier one. -/
theorem c5_last_record_wins :
    ∀ (base other : List Record) (k : String),
      (k ≠ "" →
        mapGet (buildSummaryMap other) k = (other.filter (fun r => trimKey r == k)).getLast?)
      ∧ (∀ mr ∈ tryMerge base other,
          mr.summaryRow = (other.filter (fun r => trimKey r == mr.samUrl)).getLast?) := by
  intro base other k
  refine ⟨fun hk => buildSummaryMap_get other k hk, ?_⟩
  intro mr hmr
  by_cases ho : other = []
  · subst ho
    rw [tryMerge_empty_other] at hmr
    simp at hmr
  · rw [tryMerge_eq_spec base other ho] at hmr
    obtain ⟨hne, hsum⟩ := mem_mergeSpecClaim base _ mr hmr
    rw [hsum, buildSummaryMap_get other mr.samUrl hne]

theorem c5_last_record_wins_witness :
    mapGet (buildSummaryMap [[("sam-url", "1"), ("w", "first")], [("sam-url", "1"), ("w", "second")]]) "1"
      = some [("sam-url", "1"), ("w", "second")] := by
  rw [(c5_last_record_wins [] [[("sam-url", "1"), ("w", "first")], [("sam-url", "1"), ("w", "second")]] "1").1
        (by decide)]
  decide

/-- C6: `_groupByOpportunity` groups exactly the rows with a non-empty trimmed
key: a key maps to the in-order list of rows carrying it, the empty key is
never present, and rows with a blank trimmed key appear in no group. -/
theorem c6_group_excludes_blank_keys :
    ∀ (rows : List Record) (k : String),
      gmapGet (groupByOpportunity rows) k
        = if k = "" ∨ rows.filter (fun r => trimKey r == k) = [] then none
          else some (rows.filter (fun r => trimKey r == k)) := by
  intro rows k
  have hg : groupByOpportunity rows
      = rows.foldl (fun g row =>
          if trimKey row = "" then g
          else gmapSet g (trimKey row) ((gmapGet g (trimKey row)).getD [] ++ [row])) [] := rfl
  rw [hg, groupBy_foldl_get]
  by_cases hk : k = ""
  · simp [hk, gmapGet]
  · simp only [hk, if_neg, gmapGet]
    by_cases hf : rows.filter (fun r => trimKey r == k) = [] <;> simp [hf, hk]



/-! ### Scanner unfolding equations (exact-fuel runs) -/

theorem length_dropWhile_le' {α : Type} (l : List α) (p : α → Bool) :
    (l.dropWhile p).length ≤ l.length := by
  induction l with
  | nil => simp
  | cons c rest ih =>
    rw [List.dropWhile_cons]
    split
    · exact Nat.le_trans ih (by simp)
    · simp

theorem boldClose_le (l : List Char) (ct r : List Char) (h : boldClose l = some (ct, r)) :
    r.length ≤ l.length := by
  induction l generalizing ct r with
  | nil => simp [boldClose] at h
  | cons c rest ih =>
    rw [boldClose] at h
    split at h
    · cases h
    · split at h
      · cases h
        have h1 : rest.tail.tail.length = rest.tail.length - 1 := List.length_tail _
        have h2 : rest.tail.length = rest.length - 1 := List.length_tail _
        simp only [List.length_cons]
        omega
      · rw [Option.map_eq_some'] at h
        obtain ⟨⟨pc, pr⟩, hp, hpe⟩ := h
        cases hpe
        have := ih pc pr hp
        simp only [List.length_cons]
        omega

theorem boldScanF_nil (m : Nat) : boldScanF m [] = [] := by cases m <;> rfl

theorem boldScanF_irrel (n : Nat) : ∀ (m : Nat) (l : List Char),
    l.length ≤ n → l.length ≤ m → boldScanF n l = boldScanF m l := by
  induction n with
  | zero =>
    intro m l hn _
    have : l = [] := List.length_eq_zero.mp (Nat.le_zero.mp hn)
    subst this
    rw [boldScanF_nil, boldScanF_nil]
  | succ n ih =>
    intro m l hn hm
    cases m with
    | zero =>
      have : l = [] := List.length_eq_zero.mp (Nat.le_zero.mp hm)
      subst this
      rw [boldScanF_nil, boldScanF_nil]
    | succ m' =>
      cases l with
      | nil => rw [boldScanF_nil, boldScanF_nil]
      | cons c rest =>
        have hrest : rest.length ≤ n := by simp at hn; omega
        have hrestm : rest.length ≤ m' := by simp at hm; omega
        rw [boldScanF, boldScanF]
        split
        · split
          · rename_i content rest2 heq
            have hr2 := boldClose_le _ _ _ heq
            have hrt : rest.tail.length = rest.length - 1 := List.length_tail _
            rw [ih m' rest2 (by omega) (by omega)]
          · rw [ih m' rest hrest hrestm]
        · rw [ih m' rest hrest hrestm]

theorem boldScan_cons (c : Char) (rest : List Char) :
    boldScan (c :: rest)
      = if c = '*' ∧ rest.head? = some '*' then
          match boldClose rest.tail with
          | some p => "<strong>".data ++ p.1 ++ "</strong>".data ++ boldScan p.2
          | none => c :: boldScan rest
        else c :: boldScan rest := by
  rw [boldScan, show (c :: rest).length = rest.length + 1 from rfl, boldScanF]
  by_cases hc : c = '*' ∧ rest.head? = some '*'
  · rw [if_pos hc, if_pos hc]
    cases hbc : boldClose rest.tail with
    | none => rfl
    | some p =>
      obtain ⟨ct, r2⟩ := p
      dsimp only
      have hr2 := boldClose_le _ _ _ hbc
      have hrt : rest.tail.length = rest.length - 1 := List.length_tail _
      rw [show boldScan r2 = boldScanF r2.length r2 from rfl,
          boldScanF_irrel rest.length r2.length r2 (by omega) (by omega)]
  · rw [if_neg hc, if_neg hc]
    rfl

theorem emClose_le (l : List Char) (ct r : List Char) (h : emClose l = some (ct, r)) :
    r.length ≤ l.length := by
  rw [emClose] at h
  split at h
  · cases h
    have h1 : (l.dropWhile (fun c => c ≠ '*')).tail.length
        = (l.dropWhile (fun c => c ≠ '*')).length - 1 := List.length_tail _
    have h2 : (l.dropWhile (fun c => c ≠ '*')).length ≤ l.length :=
      length_dropWhile_le' _ _
    omega
  · cases h

theorem emScanF_nil (m : Nat) : emScanF m [] = [] := by cases m <;> rfl

theorem emScanF_irrel (n : Nat) : ∀ (m : Nat) (l : List Char),
    l.length ≤ n → l.length ≤ m → emScanF n l = emScanF m l := by
  induction n with
  | zero =>
    intro m l hn _
    have : l = [] := List.length_eq_zero.mp (Nat.le_zero.mp hn)
    subst this
    rw [emScanF_nil, emScanF_nil]
  | succ n ih =>
    intro m l hn hm
    cases m with
    | zero =>
      have : l = [] := List.length_eq_zero.mp (Nat.le_zero.mp hm)
      subst this
      rw [emScanF_nil, emScanF_nil]
    | succ m' =>
      cases l with
      | nil => rw [emScanF_nil, emScanF_nil]
      | cons c rest =>
        have hrest : rest.length ≤ n := by simp at hn; omega
        have hrestm : rest.length ≤ m' := by simp at hm; omega
        rw [emScanF, emScanF]
        split
        · split
          · rename_i content rest2 heq
            have hr2 := emClose_le _ _ _ heq
            rw [ih m' rest2 (by omega) (by omega)]
          · rw [ih m' rest hrest hrestm]
        · rw [ih m' rest hrest hrestm]

theorem emScan_cons (c : Char) (rest : List Char) :
    emScan (c :: rest)
      = if c = '*' then
          match emClose rest with
          | some p => "<em>".data ++ p.1 ++ "</em>".data ++ emScan p.2
          | none => c :: emScan rest
        else c :: emScan rest := by
  rw [emScan, show (c :: rest).length = rest.length + 1 from rfl, emScanF]
  by_cases hc : c = '*'
  · rw [if_pos hc, if_pos hc]
    cases hbc : emClose rest with
    | none => rfl
    | some p =>
      obtain ⟨ct, r2⟩ := p
      dsimp only
      have hr2 := emClose_le _ _ _ hbc
      rw [show emScan r2 = emScanF r2.length r2 from rfl,
          emScanF_irrel rest.length r2.length r2 (by omega) (by omega)]
  · rw [if_neg hc, if_neg hc]
    rfl

theorem linkMatch_le (l : List Char) (t u r : List Char)
    (h : linkMatch l = some (t, u, r)) : r.length ≤ l.length := by
  rw [linkMatch] at h
  dsimp only at h
  split at h
  · split at h
    · cases h
      have c1 : ((l.dropWhile (fun c => c ≠ ']')).tail.tail.dropWhile (fun c => c ≠ ')')).tail.length
          = ((l.dropWhile (fun c => c ≠ ']')).tail.tail.dropWhile (fun c => c ≠ ')')).length - 1 :=
        List.length_tail _
      have c2 : ((l.dropWhile (fun c => c ≠ ']')).tail.tail.dropWhile (fun c => c ≠ ')')).length
          ≤ (l.dropWhile (fun c => c ≠ ']')).tail.tail.length := length_dropWhile_le' _ _
      have c3 : (l.dropWhile (fun c => c ≠ ']')).tail.tail.length
          = (l.dropWhile (fun c => c ≠ ']')).tail.length - 1 := List.length_tail _
      have c4 : (l.dropWhile (fun c => c ≠ ']')).tail.length
          = (l.dropWhile (fun c => c ≠ ']')).length - 1 := List.length_tail _
      have c5 : (l.dropWhile (fun c => c ≠ ']')).length ≤ l.length :=
        length_dropWhile_le' _ _
      omega
    · cases h
  · cases h

theorem linkScanF_nil (m : Nat) : linkScanF m [] = [] := by cases m <;> rfl

theorem linkScanF_irrel (n : Nat) : ∀ (m : Nat) (l : List Char),
    l.length ≤ n → l.length ≤ m → linkScanF n l = linkScanF m l := by
  induction n with
  | zero =>
    intro m l hn _
    have : l = [] := List.length_eq_zero.mp (Nat.le_zero.mp hn)
    subst this
    rw [linkScanF_nil, linkScanF_nil]
  | succ n ih =>
    intro m l hn hm
    cases m with
    | zero =>
      have : l = [] := List.length_eq_zero.mp (Nat.le_zero.mp hm)
      subst this
      rw [linkScanF_nil, linkScanF_nil]
    | succ m' =>
      cases l with
      | nil => rw [linkScanF_nil, linkScanF_nil]
      | cons c rest =>
        have hrest : rest.length ≤ n := by simp at hn; omega
        have hrestm : rest.length ≤ m' := by simp at hm; omega
        rw [linkScanF, linkScanF]
        split
        · split
          · rename_i text url rest2 heq
            have hr2 := linkMatch_le _ _ _ _ heq
            rw [ih m' rest2 (by omega) (by omega)]
          · rw [ih m' rest hrest hrestm]
        · rw [ih m' rest hrest hrestm]

theorem linkScan_cons (c : Char) (rest : List Char) :
    linkScan (c :: rest)
      = if c = '[' then
          match linkMatch rest with
          | some p => linkEmit p.1 p.2.1 ++ linkScan p.2.2
          | none => c :: linkScan rest
        else c :: linkScan rest := by
  rw [linkScan, show (c :: rest).length = rest.length + 1 from rfl, linkScanF]
  by_cases hc : c = '['
  · rw [if_pos hc, if_pos hc]
    cases hbc : linkMatch rest with
    | none => rfl
    | some p =>
      obtain ⟨t, u, r2⟩ := p
      dsimp only
      have hr2 := linkMatch_le _ _ _ _ hbc
      rw [show linkScan r2 = linkScanF r2.length r2 from rfl,
          linkScanF_irrel rest.length r2.length r2 (by omega) (by omega)]
  · rw [if_neg hc, if_neg hc]
    rfl


theorem length_takeWhile_le' {α : Type} (l : List α) (p : α → Bool) :
    (l.takeWhile p).length ≤ l.length := by
  induction l with
  | nil => simp
  | cons c rest ih =>
    rw [List.takeWhile_cons]
    split
    · simpa using ih
    · simp

theorem takeWhile_length_add_dropWhile_length {α : Type} (l : List α) (p : α → Bool) :
    (l.takeWhile p).length + (l.dropWhile p).length = l.length := by
  conv_rhs => rw [← List.takeWhile_append_dropWhile (p := p) (l := l)]
  rw [List.length_append]

theorem markerTail_lt (l ct r : List Char) (h : markerTail l = some (ct, r)) :
    r.length < l.length := by
  rw [markerTail] at h
  dsimp only at h
  split at h
  · cases h
  · split at h
    · cases h
      have h1 := length_dropWhile_le' (l.dropWhile isJsWs) (fun c => !isLineTerm c)
      have h2 := takeWhile_length_add_dropWhile_length l isJsWs
      have h3 : l.takeWhile isJsWs ≠ [] := by
        rename_i hw _
        exact hw
      have h4 : 1 ≤ (l.takeWhile isJsWs).length := by
        cases he : l.takeWhile isJsWs with
        | nil => exact absurd he h3
        | cons a b => simp
      omega
    · split at h
      · cases h
        rename_i hw'
        have h5 := length_takeWhile_le' l isJsWs
        have h7 := length_dropWhile_le' (l.takeWhile isJsWs).reverse isLineTerm
        rw [List.length_drop]
        simp only [List.length_reverse] at hw' h7 ⊢
        omega
      · cases h

theorem ulMatch_lt (l i ct r : List Char) (h : ulMatch l = some (i, ct, r)) :
    r.length < l.length := by
  rw [ulMatch] at h
  split at h
  · rw [Option.map_eq_some'] at h
    obtain ⟨⟨mc, mr⟩, hp, hpe⟩ := h
    cases hpe
    have h1 := markerTail_lt _ _ _ hp
    have h2 : (l.dropWhile isJsWs).tail.length = (l.dropWhile isJsWs).length - 1 :=
      List.length_tail _
    have h3 := length_dropWhile_le' l isJsWs
    have h4 : (l.dropWhile isJsWs) ≠ [] := by
      rename_i hh
      rcases hh with hh | hh <;> · intro he; rw [he] at hh; simp at hh
    have h5 : 1 ≤ (l.dropWhile isJsWs).length := by
      cases he : l.dropWhile isJsWs with
      | nil => exact absurd he h4
      | cons a b => simp
    dsimp only
    omega
  · cases h

theorem olMatch_lt (l i d ct r : List Char) (h : olMatch l = some (i, d, ct, r)) :
    r.length < l.length := by
  rw [olMatch] at h
  split at h
  · rw [Option.map_eq_some'] at h
    obtain ⟨⟨mc, mr⟩, hp, hpe⟩ := h
    cases hpe
    have h1 := markerTail_lt _ _ _ hp
    have h2 : ((l.dropWhile isJsWs).dropWhile isDigitCh).tail.length
        = ((l.dropWhile isJsWs).dropWhile isDigitCh).length - 1 := List.length_tail _
    have h3 := length_dropWhile_le' l isJsWs
    have h6 := length_dropWhile_le' (l.dropWhile isJsWs) isDigitCh
    rename_i hh
    obtain ⟨hd, hdot⟩ := hh
    have h5 : 1 ≤ ((l.dropWhile isJsWs).takeWhile isDigitCh).length := by
      cases he : (l.dropWhile isJsWs).takeWhile isDigitCh with
      | nil => exact absurd he hd
      | cons a b => simp
    have h7 := takeWhile_length_add_dropWhile_length (l.dropWhile isJsWs) isDigitCh
    dsimp only
    omega
  · cases h

theorem ulPassF_nil (m : Nat) (s : Bool) (idx : Nat) (phs : List PH) :
    ulPassF m s [] idx phs = ([], idx, phs) := by
  cases m with
  | zero => rfl
  | succ n => rw [ulPassF]; simp

theorem ulPassF_irrel (n : Nat) : ∀ (m : Nat) (s : Bool) (l : List Char) (idx : Nat)
    (phs : List PH), l.length ≤ n → l.length ≤ m →
    ulPassF n s l idx phs = ulPassF m s l idx phs := by
  induction n with
  | zero =>
    intro m s l idx phs hn _
    have : l = [] := List.length_eq_zero.mp (Nat.le_zero.mp hn)
    subst this
    rw [ulPassF_nil, ulPassF_nil]
  | succ n ih =>
    intro m s l idx phs hn hm
    cases m with
    | zero =>
      have : l = [] := List.length_eq_zero.mp (Nat.le_zero.mp hm)
      subst this
      rw [ulPassF_nil, ulPassF_nil]
    | succ m' =>
      rw [ulPassF, ulPassF]
      by_cases hl : l = []
      · rw [if_pos hl, if_pos hl]
      · rw [if_neg hl, if_neg hl]
        have hlen : 1 ≤ l.length := by
          cases he : l with
          | nil => exact absurd he hl
          | cons a b => simp
        have htail : l.tail.length = l.length - 1 := List.length_tail _
        by_cases hs : s = true
        · rw [if_pos hs, if_pos hs]
          cases hbc : ulMatch l with
          | none =>
            dsimp only
            rw [ih m' (isLineTerm (l.headD ' ')) l.tail idx phs (by omega) (by omega)]
          | some p =>
            obtain ⟨ind, ct, r2⟩ := p
            dsimp only
            have hr2 := ulMatch_lt _ _ _ _ hbc
            rw [ih m' false r2 (idx + 1) _ (by omega) (by omega)]
        · rw [if_neg hs, if_neg hs]
          dsimp only
          rw [ih m' (isLineTerm (l.headD ' ')) l.tail idx phs (by omega) (by omega)]

theorem olPassF_nil (m : Nat) (s : Bool) (idx : Nat) (phs : List PH) :
    olPassF m s [] idx phs = ([], idx, phs) := by
  cases m with
  | zero => rfl
  | succ n => rw [olPassF]; simp

theorem olPassF_irrel (n : Nat) : ∀ (m : Nat) (s : Bool) (l : List Char) (idx : Nat)
    (phs : List PH), l.length ≤ n → l.length ≤ m →
    olPassF n s l idx phs = olPassF m s l idx phs := by
  induction n with
  | zero =>
    intro m s l idx phs hn _
    have : l = [] := List.length_eq_zero.mp (Nat.le_zero.mp hn)
    subst this
    rw [olPassF_nil, olPassF_nil]
  | succ n ih =>
    intro m s l idx phs hn hm
    cases m with
    | zero =>
      have : l = [] := List.length_eq_zero.mp (Nat.le_zero.mp hm)
      subst this
      rw [olPassF_nil, olPassF_nil]
    | succ m' =>
      rw [olPassF, olPassF]
      by_cases hl : l = []
      · rw [if_pos hl, if_pos hl]
      · rw [if_neg hl, if_neg hl]
        have hlen : 1 ≤ l.length := by
          cases he : l with
          | nil => exact absurd he hl
          | cons a b => simp
        have htail : l.tail.length = l.length - 1 := List.length_tail _
        by_cases hs : s = true
        · rw [if_pos hs, if_pos hs]
          cases hbc : olMatch l with
          | none =>
            dsimp only
            rw [ih m' (isLineTerm (l.headD ' ')) l.tail idx phs (by omega) (by omega)]
          | some p =>
            obtain ⟨ind, num, ct, r2⟩ := p
            dsimp only
            have hr2 := olMatch_lt _ _ _ _ _ hbc
            rw [ih m' false r2 (idx + 1) _ (by omega) (by omega)]
        · rw [if_neg hs, if_neg hs]
          dsimp only
          rw [ih m' (isLineTerm (l.headD ' ')) l.tail idx phs (by omega) (by omega)]

theorem ulPassRun_nil (s : Bool) (idx : Nat) (phs : List PH) :
    ulPassRun s [] idx phs = ([], idx, phs) := ulPassF_nil _ _ _ _

theorem ulPassRun_some (l : List Char) (idx : Nat) (phs : List PH)
    (ind ct r2 : List Char) (hl : l ≠ []) (hm : ulMatch l = some (ind, ct, r2)) :
    ulPassRun true l idx phs
      = (ind ++ phName idx
           ++ (ulPassRun false r2 (idx + 1)
                 (phs ++ [{ type := LType.ul, content := processInline ct,
                            indent := ind, number := none }])).1,
         (ulPassRun false r2 (idx + 1)
             (phs ++ [{ type := LType.ul, content := processInline ct,
                        indent := ind, number := none }])).2) := by
  obtain ⟨c, rest, rfl⟩ : ∃ c rest, l = c :: rest := by
    cases l with
    | nil => exact absurd rfl hl
    | cons a b => exact ⟨a, b, rfl⟩
  rw [ulPassRun, show (c :: rest).length = rest.length + 1 from rfl, ulPassF,
      if_neg (by simp), if_pos rfl, hm]
  dsimp only
  have hr2 := ulMatch_lt _ _ _ _ hm
  rw [ulPassRun,
      ulPassF_irrel rest.length r2.length false r2 (idx + 1) _
        (by simp at hr2; omega) (by omega)]

theorem ulPassRun_none (l : List Char) (idx : Nat) (phs : List PH)
    (hl : l ≠ []) (hm : ulMatch l = none) :
    ulPassRun true l idx phs
      = ((l.headD ' ') :: (ulPassRun (isLineTerm (l.headD ' ')) l.tail idx phs).1,
         (ulPassRun (isLineTerm (l.headD ' ')) l.tail idx phs).2) := by
  obtain ⟨c, rest, rfl⟩ : ∃ c rest, l = c :: rest := by
    cases l with
    | nil => exact absurd rfl hl
    | cons a b => exact ⟨a, b, rfl⟩
  rw [ulPassRun, show (c :: rest).length = rest.length + 1 from rfl, ulPassF,
      if_neg (by simp), if_pos rfl, hm]
  rfl

theorem ulPassRun_notStart (l : List Char) (idx : Nat) (phs : List PH) (hl : l ≠ []) :
    ulPassRun false l idx phs
      = ((l.headD ' ') :: (ulPassRun (isLineTerm (l.headD ' ')) l.tail idx phs).1,
         (ulPassRun (isLineTerm (l.headD ' ')) l.tail idx phs).2) := by
  obtain ⟨c, rest, rfl⟩ : ∃ c rest, l = c :: rest := by
    cases l with
    | nil => exact absurd rfl hl
    | cons a b => exact ⟨a, b, rfl⟩
  rw [ulPassRun, show (c :: rest).length = rest.length + 1 from rfl, ulPassF,
      if_neg (by simp)]
  rw [if_neg (by simp)]
  rfl

theorem olPassRun_nil (s : Bool) (idx : Nat) (phs : List PH) :
    olPassRun s [] idx phs = ([], idx, phs) := olPassF_nil _ _ _ _

theorem olPassRun_some (l : List Char) (idx : Nat) (phs : List PH)
    (ind num ct r2 : List Char) (hl : l ≠ []) (hm : olMatch l = some (ind, num, ct, r2)) :
    olPassRun true l idx phs
      = (ind ++ phName idx
           ++ (olPassRun false r2 (idx + 1)
                 (phs ++ [{ type := LType.ol, content := processInline ct,
                            indent := ind, number := some num }])).1,
         (olPassRun false r2 (idx + 1)
             (phs ++ [{ type := LType.ol, content := processInline ct,
                        indent := ind, number := some num }])).2) := by
  obtain ⟨c, rest, rfl⟩ : ∃ c rest, l = c :: rest := by
    cases l with
    | nil => exact absurd rfl hl
    | cons a b => exact ⟨a, b, rfl⟩
  rw [olPassRun, show (c :: rest).length = rest.length + 1 from rfl, olPassF,
      if_neg (by simp), if_pos rfl, hm]
  dsimp only
  have hr2 := olMatch_lt _ _ _ _ _ hm
  rw [olPassRun,
      olPassF_irrel rest.length r2.length false r2 (idx + 1) _
        (by simp at hr2; omega) (by omega)]

theorem olPassRun_none (l : List Char) (idx : Nat) (phs : List PH)
    (hl : l ≠ []) (hm : olMatch l = none) :
    olPassRun true l idx phs
      = ((l.headD ' ') :: (olPassRun (isLineTerm (l.headD ' ')) l.tail idx phs).1,
         (olPassRun (isLineTerm (l.headD ' ')) l.tail idx phs).2) := by
  obtain ⟨c, rest, rfl⟩ : ∃ c rest, l = c :: rest := by
    cases l with
    | nil => exact absurd rfl hl
    | cons a b => exact ⟨a, b, rfl⟩
  rw [olPassRun, show (c :: rest).length = rest.length + 1 from rfl, olPassF,
      if_neg (by simp), if_pos rfl, hm]
  rfl

theorem olPassRun_notStart (l : List Char) (idx : Nat) (phs : List PH) (hl : l ≠ []) :
    olPassRun false l idx phs
      = ((l.headD ' ') :: (olPassRun (isLineTerm (l.headD ' ')) l.tail idx phs).1,
         (olPassRun (isLineTerm (l.headD ' ')) l.tail idx phs).2) := by
  obtain ⟨c, rest, rfl⟩ : ∃ c rest, l = c :: rest := by
    cases l with
    | nil => exact absurd rfl hl
    | cons a b => exact ⟨a, b, rfl⟩
  rw [olPassRun, show (c :: rest).length = rest.length + 1 from rfl, olPassF,
      if_neg (by simp)]
  rw [if_neg (by simp)]
  rfl

theorem splitBlocksAux_nil (m : Nat) (acc : List Char) :
    splitBlocksAux m acc [] = [acc.reverse] := by
  cases m <;> simp [splitBlocksAux]

theorem splitBlocksAux_irrel (n : Nat) : ∀ (m : Nat) (acc l : List Char),
    l.length ≤ n → l.length ≤ m → splitBlocksAux n acc l = splitBlocksAux m acc l := by
  induction n with
  | zero =>
    intro m acc l hn _
    have : l = [] := List.length_eq_zero.mp (Nat.le_zero.mp hn)
    subst this
    rw [splitBlocksAux_nil, splitBlocksAux_nil]
  | succ n ih =>
    intro m acc l hn hm
    cases m with
    | zero =>
      have : l = [] := List.length_eq_zero.mp (Nat.le_zero.mp hm)
      subst this
      rw [splitBlocksAux_nil, splitBlocksAux_nil]
    | succ m' =>
      cases l with
      | nil => rw [splitBlocksAux_nil, splitBlocksAux_nil]
      | cons c rest =>
        have hrest : rest.length ≤ n := by simp at hn; omega
        have hrestm : rest.length ≤ m' := by simp at hm; omega
        rw [splitBlocksAux, splitBlocksAux]
        split
        · have hd := length_dropWhile_le' rest (fun x => x = '\n')
          rw [ih m' [] (rest.dropWhile (fun x => x = '\n')) (by omega) (by omega)]
        · rw [ih m' (c :: acc) rest hrest hrestm]

theorem splitBlocksAux_cons (acc : List Char) (c : Char) (rest : List Char) :
    splitBlocksAux (rest.length + 1) acc (c :: rest)
      = if c = '\n' ∧ rest.head? = some '\n' then
          acc.reverse :: splitBlocksAux (rest.dropWhile (fun x => x = '\n')).length []
            (rest.dropWhile (fun x => x = '\n'))
        else splitBlocksAux rest.length (c :: acc) rest := by
  rw [splitBlocksAux]
  split
  · have hd := length_dropWhile_le' rest (fun x => x = '\n')
    rw [splitBlocksAux_irrel rest.length (rest.dropWhile (fun x => x = '\n')).length []
          (rest.dropWhile (fun x => x = '\n')) (by omega) (by omega)]
  · rfl


theorem flatMap_id_of_fix {α : Type} (f : α → List α) (l : List α)
    (h : ∀ c ∈ l, f c = [c]) : l.flatMap f = l := by
  induction l with
  | nil => rfl
  | cons c rest ih =>
    rw [List.flatMap_cons, h c (by simp), ih (fun c hc => h c (List.mem_cons_of_mem _ hc))]
    rfl

theorem escapeHtml_id (l : List Char)
    (h : ∀ c ∈ l, c ≠ '&' ∧ c ≠ '<' ∧ c ≠ '>') : escapeHtml l = l := by
  rw [escapeHtml, escapeAmp, flatMap_id_of_fix _ _ (fun c hc => by simp [(h c hc).1]),
      escapeLt, flatMap_id_of_fix _ _ (fun c hc => by simp [(h c hc).2.1]),
      escapeGt, flatMap_id_of_fix _ _ (fun c hc => by simp [(h c hc).2.2])]

theorem mapLinesAux_id (Q : Char → Prop) (f : List Char → List Char)
    (hf : ∀ line, (∀ c ∈ line, Q c) → f line = line) :
    ∀ (l acc : List Char), (∀ c ∈ acc, Q c) → (∀ c ∈ l, ¬isLineTerm c → Q c) →
    mapLinesAux f acc l = acc.reverse ++ l := by
  intro l
  induction l with
  | nil =>
    intro acc hacc _
    rw [mapLinesAux, hf acc.reverse (fun c hc => hacc c (List.mem_reverse.mp hc))]
    simp
  | cons c rest ih =>
    intro acc hacc hl
    rw [mapLinesAux]
    by_cases hc : isLineTerm c
    · rw [if_pos hc, hf acc.reverse (fun c hc => hacc c (List.mem_reverse.mp hc)),
          ih [] (by simp) (fun c hc => hl c (List.mem_cons_of_mem _ hc))]
      simp
    · rw [if_neg hc,
          ih (c :: acc)
            (fun x hx => by
              rcases List.mem_cons.mp hx with rfl | hx
              · exact hl x (by simp) hc
              · exact hacc x hx)
            (fun x hx => hl x (List.mem_cons_of_mem _ hx))]
      simp

theorem headerLine_id (pm tagOpen tagClose line : List Char) (hpm : '#' ∈ pm)
    (h : ∀ c ∈ line, c ≠ '#') : headerLine pm tagOpen tagClose line = line := by
  rw [headerLine, if_neg]
  intro hpre
  exact h '#' ((List.isPrefixOf_iff_prefix.mp hpre).subset hpm) rfl

theorem headersPass_id (l : List Char) (h : ∀ c ∈ l, c ≠ '#') : headersPass l = l := by
  have hq : ∀ (pm tO tC : List Char), '#' ∈ pm →
      mapRegexLines (headerLine pm tO tC) l = l := by
    intro pm tO tC hpm
    rw [mapRegexLines,
        mapLinesAux_id (fun c => c ≠ '#') _ (fun line hline => headerLine_id _ _ _ _ hpm hline)
          l [] (by simp) (fun c hc _ => h c hc)]
    rfl
  rw [headersPass, h4Line, h3Line, h2Line, h1Line]
  rw [hq _ _ _ (by decide), hq _ _ _ (by decide), hq _ _ _ (by decide), hq _ _ _ (by decide)]

theorem boldScan_copy (t z : List Char) (h : ∀ c ∈ t, c ≠ '*') :
    boldScan (t ++ z) = t ++ boldScan z := by
  induction t with
  | nil => rfl
  | cons c rest ih =>
    rw [List.cons_append, boldScan_cons,
        if_neg (by intro hc; exact h c (by simp) hc.1),
        ih (fun c hc => h c (List.mem_cons_of_mem _ hc))]
    rfl

theorem boldScan_id (l : List Char) (h : ∀ c ∈ l, c ≠ '*') : boldScan l = l := by
  have := boldScan_copy l [] h
  simpa [show boldScan [] = [] from rfl] using this

theorem emScan_copy (t z : List Char) (h : ∀ c ∈ t, c ≠ '*') :
    emScan (t ++ z) = t ++ emScan z := by
  induction t with
  | nil => rfl
  | cons c rest ih =>
    rw [List.cons_append, emScan_cons, if_neg (h c (by simp)),
        ih (fun c hc => h c (List.mem_cons_of_mem _ hc))]
    rfl

theorem emScan_id (l : List Char) (h : ∀ c ∈ l, c ≠ '*') : emScan l = l := by
  have := emScan_copy l [] h
  simpa [show emScan [] = [] from rfl] using this

theorem linkScan_copy (t z : List Char) (h : ∀ c ∈ t, c ≠ '[') :
    linkScan (t ++ z) = t ++ linkScan z := by
  induction t with
  | nil => rfl
  | cons c rest ih =>
    rw [List.cons_append, linkScan_cons, if_neg (h c (by simp)),
        ih (fun c hc => h c (List.mem_cons_of_mem _ hc))]
    rfl

theorem linkScan_id (l : List Char) (h : ∀ c ∈ l, c ≠ '[') : linkScan l = l := by
  have := linkScan_copy l [] h
  simpa [show linkScan [] = [] from rfl] using this

theorem dropWhile_eq_nil_of_all {α : Type} (l : List α) (p : α → Bool)
    (h : ∀ c ∈ l, p c = true) : l.dropWhile p = [] := by
  induction l with
  | nil => rfl
  | cons c rest ih =>
    rw [List.dropWhile_cons, if_pos (h c (by simp))]
    exact ih (fun c hc => h c (List.mem_cons_of_mem _ hc))

theorem ulMatch_none_of_noMarker (l : List Char) (h : '*' ∉ l ∧ '-' ∉ l) :
    ulMatch l = none := by
  rw [ulMatch]
  rw [if_neg]
  intro hc
  have hsub : ∀ c, (l.dropWhile isJsWs).head? = some c → c ∈ l := by
    intro c hhead
    have hmem : c ∈ l.dropWhile isJsWs := by
      cases hd : l.dropWhile isJsWs with
      | nil => rw [hd] at hhead; cases hhead
      | cons a b => rw [hd] at hhead; cases hhead; simp
    exact (List.dropWhile_sublist _).subset hmem
  rcases hc with hc | hc
  · exact h.1 (hsub _ hc)
  · exact h.2 (hsub _ hc)

theorem olMatch_none_of_noDigit (l : List Char) (h : ∀ c ∈ l, ¬isDigitCh c) :
    olMatch l = none := by
  rw [olMatch]
  rw [if_neg]
  intro hc
  obtain ⟨hd, -⟩ := hc
  cases he : (l.dropWhile isJsWs).takeWhile isDigitCh with
  | nil => exact hd he
  | cons a b =>
    have ha : a ∈ (l.dropWhile isJsWs).takeWhile isDigitCh := by rw [he]; simp
    have hdig : isDigitCh a = true := List.mem_takeWhile_imp ha
    have hal : a ∈ l := (List.dropWhile_sublist _).subset ((List.takeWhile_sublist _).subset ha)
    exact absurd hdig (by simpa using h a hal)

theorem ulPassRun_id (l : List Char) (idx : Nat) (phs : List PH) (s : Bool)
    (h : ∀ l', l' <:+ l → ulMatch l' = none) :
    ulPassRun s l idx phs = (l, idx, phs) := by
  induction l generalizing s with
  | nil => exact ulPassRun_nil s idx phs
  | cons c rest ih =>
    have hm := h (c :: rest) (List.suffix_refl _)
    have hrest : ∀ l', l' <:+ rest → ulMatch l' = none :=
      fun l' hl' => h l' (hl'.trans (List.suffix_cons c rest))
    cases s with
    | true =>
      rw [ulPassRun_none (c :: rest) idx phs (by simp) hm]
      rw [show (c :: rest).headD ' ' = c from rfl, show (c :: rest).tail = rest from rfl,
          ih (isLineTerm c) hrest]
    | false =>
      rw [ulPassRun_notStart (c :: rest) idx phs (by simp)]
      rw [show (c :: rest).headD ' ' = c from rfl, show (c :: rest).tail = rest from rfl,
          ih (isLineTerm c) hrest]

theorem olPassRun_id (l : List Char) (idx : Nat) (phs : List PH) (s : Bool)
    (h : ∀ l', l' <:+ l → olMatch l' = none) :
    olPassRun s l idx phs = (l, idx, phs) := by
  induction l generalizing s with
  | nil => exact olPassRun_nil s idx phs
  | cons c rest ih =>
    have hm := h (c :: rest) (List.suffix_refl _)
    have hrest : ∀ l', l' <:+ rest → olMatch l' = none :=
      fun l' hl' => h l' (hl'.trans (List.suffix_cons c rest))
    cases s with
    | true =>
      rw [olPassRun_none (c :: rest) idx phs (by simp) hm]
      rw [show (c :: rest).headD ' ' = c from rfl, show (c :: rest).tail = rest from rfl,
          ih (isLineTerm c) hrest]
    | false =>
      rw [olPassRun_notStart (c :: rest) idx phs (by simp)]
      rw [show (c :: rest).headD ' ' = c from rfl, show (c :: rest).tail = rest from rfl,
          ih (isLineTerm c) hrest]

theorem phLineMatch_none_of_noUnderscore (line : List Char) (h : '_' ∉ line) :
    phLineMatch line = none := by
  rw [phLineMatch]
  dsimp only
  rw [if_neg]
  intro hpre
  have h1 : '_' ∈ line.dropWhile isJsWs :=
    (List.isPrefixOf_iff_prefix.mp hpre).subset (by decide)
  exact h ((List.dropWhile_sublist _).subset h1)

theorem walkLines_id (phs : List PH) (lines : List (List Char))
    (h : ∀ line ∈ lines, phLineMatch line = none) :
    walkLines phs lines false false = lines := by
  induction lines with
  | nil => rfl
  | cons line rest ih =>
    rw [walkLines, h line (by simp)]
    simp only [if_neg, Bool.false_eq_true, List.nil_append, reduceIte]
    rw [ih (fun l hl => h l (List.mem_cons_of_mem _ hl))]
    rfl

theorem splitOnNlAux_ne_nil (l acc : List Char) : splitOnNlAux acc l ≠ [] := by
  induction l generalizing acc with
  | nil => rw [splitOnNlAux]; simp
  | cons c rest ih =>
    rw [splitOnNlAux]
    by_cases hc : c = '\n'
    · rw [if_pos hc]; simp
    · rw [if_neg hc]; exact ih _

theorem joinNl_cons (x : List Char) (ps : List (List Char)) (h : ps ≠ []) :
    joinNl (x :: ps) = x ++ '\n' :: joinNl ps := by
  cases ps with
  | nil => exact absurd rfl h
  | cons p ps' => rfl

theorem joinNl_splitOnNlAux (l : List Char) : ∀ acc : List Char,
    joinNl (splitOnNlAux acc l) = acc.reverse ++ l := by
  induction l with
  | nil => intro acc; rw [splitOnNlAux, joinNl]; simp
  | cons c rest ih =>
    intro acc
    rw [splitOnNlAux]
    by_cases hc : c = '\n'
    · rw [if_pos hc, joinNl_cons _ _ (splitOnNlAux_ne_nil rest []), ih []]
      simp [hc]
    · rw [if_neg hc, ih (c :: acc)]
      simp

theorem joinNl_splitOnNl (l : List Char) : joinNl (splitOnNl l) = l := by
  rw [splitOnNl, joinNl_splitOnNlAux l []]
  rfl


theorem splitBlocksAux_chars (n : Nat) : ∀ (acc l : List Char) (b : List Char),
    b ∈ splitBlocksAux n acc l → ∀ c ∈ b, c ∈ acc ∨ c ∈ l := by
  induction n with
  | zero =>
    intro acc l b hb c hc
    rw [splitBlocksAux] at hb
    simp only [List.mem_singleton] at hb
    subst hb
    rcases List.mem_append.mp hc with hc | hc
    · exact Or.inl (List.mem_reverse.mp hc)
    · exact Or.inr hc
  | succ n ih =>
    intro acc l b hb c hc
    cases l with
    | nil =>
      rw [splitBlocksAux_nil] at hb
      simp only [List.mem_singleton] at hb
      subst hb
      exact Or.inl (List.mem_reverse.mp hc)
    | cons x rest =>
      rw [splitBlocksAux] at hb
      split at hb
      · rcases List.mem_cons.mp hb with rfl | hb
        · exact Or.inl (List.mem_reverse.mp hc)
        · rcases ih [] (rest.dropWhile (fun y => y = '\n')) b hb c hc with h | h
          · cases h
          · exact Or.inr (List.mem_cons_of_mem _ ((List.dropWhile_sublist _).subset h))
      · rcases ih (x :: acc) rest b hb c hc with h | h
        · rcases List.mem_cons.mp h with rfl | h
          · exact Or.inr (by simp)
          · exact Or.inl h
        · exact Or.inr (List.mem_cons_of_mem _ h)

theorem jsTrim_nil_of_ws (l : List Char) (h : ∀ c ∈ l, isJsWs c = true) :
    jsTrim l = [] := by
  rw [jsTrim, dropWhile_eq_nil_of_all l isJsWs h]
  rfl

theorem blockMap_ws (b : List Char) (h : ∀ c ∈ b, isJsWs c = true) : blockMap b = [] := by
  rw [blockMap]
  dsimp only
  rw [if_pos (jsTrim_nil_of_ws b h)]

theorem joinNl_all_nil (bs : List (List Char)) (h : ∀ b ∈ bs, b = ([] : List Char)) :
    ∀ c ∈ joinNl bs, c = '\n' := by
  induction bs with
  | nil => intro c hc; cases hc
  | cons b rest ih =>
    cases rest with
    | nil =>
      rw [joinNl]
      intro c hc
      rw [h b (by simp)] at hc
      cases hc
    | cons b2 rest2 =>
      rw [joinNl_cons _ _ (by simp)]
      intro c hc
      rcases List.mem_append.mp hc with hc | hc
      · rw [h b (by simp)] at hc; cases hc
      · rcases List.mem_cons.mp hc with rfl | hc
        · rfl
        · exact ih (fun x hx => h x (List.mem_cons_of_mem _ hx)) c hc

theorem splitOnNlAux_chars : ∀ (l acc : List Char) (line : List Char),
    line ∈ splitOnNlAux acc l → ∀ c ∈ line, c ∈ acc ∨ c ∈ l := by
  intro l
  induction l with
  | nil =>
    intro acc line hline c hc
    rw [splitOnNlAux] at hline
    simp only [List.mem_singleton] at hline
    subst hline
    exact Or.inl (List.mem_reverse.mp hc)
  | cons x rest ih =>
    intro acc line hline c hc
    rw [splitOnNlAux] at hline
    by_cases hx : x = '\n'
    · rw [if_pos hx] at hline
      rcases List.mem_cons.mp hline with rfl | hline
      · exact Or.inl (List.mem_reverse.mp hc)
      · rcases ih [] line hline c hc with h | h
        · cases h
        · exact Or.inr (List.mem_cons_of_mem _ h)
    · rw [if_neg hx] at hline
      rcases ih (x :: acc) line hline c hc with h | h
      · rcases List.mem_cons.mp h with rfl | h
        · exact Or.inr (by simp)
        · exact Or.inl h
      · exact Or.inr (List.mem_cons_of_mem _ h)

theorem ulMatch_none_of_ws (l : List Char) (h : ∀ c ∈ l, isJsWs c = true) :
    ulMatch l = none := by
  rw [ulMatch, if_neg]
  rw [dropWhile_eq_nil_of_all l isJsWs h]
  simp

theorem olMatch_none_of_ws (l : List Char) (h : ∀ c ∈ l, isJsWs c = true) :
    olMatch l = none := by
  rw [olMatch, if_neg]
  rw [dropWhile_eq_nil_of_all l isJsWs h]
  simp

/-- For whitespace-only input the whole pipeline degenerates: every pass is
the identity until the paragraph step maps every block to the empty string,
so the output consists solely of the `\n` separators of `join`. -/
theorem parseMarkdown_ws (s : String) (hws : ∀ c ∈ s.data, isJsWs c = true) :
    ∀ c ∈ (parseMarkdown s).data, isJsWs c = true := by
  by_cases hs : s = ""
  · subst hs
    intro c hc
    rw [parseMarkdown, if_pos rfl] at hc
    cases hc
  · rw [parseMarkdown, if_neg hs]
    have hchar : ∀ (x : Char), isJsWs x = false → x ∉ s.data := by
      intro x hx hmem
      rw [hws x hmem] at hx
      cases hx
    have hNoAmp : ∀ c ∈ s.data, c ≠ '&' ∧ c ≠ '<' ∧ c ≠ '>' := by
      intro c hc
      refine ⟨?_, ?_, ?_⟩ <;> · rintro rfl; exact hchar _ (by decide) hc
    have hNoHash : ∀ c ∈ s.data, c ≠ '#' := by
      intro c hc
      rintro rfl; exact hchar _ (by decide) hc
    have hSuffixWs : ∀ l', l' <:+ s.data → ∀ c ∈ l', isJsWs c = true :=
      fun l' hl' c hc => hws c (hl'.subset hc)
    have hul : ulPassRun true s.data 0 [] = (s.data, 0, []) :=
      ulPassRun_id s.data 0 [] true
        (fun l' hl' => ulMatch_none_of_ws l' (hSuffixWs l' hl'))
    have hol : olPassRun true s.data 0 [] = (s.data, 0, []) :=
      olPassRun_id s.data 0 [] true
        (fun l' hl' => olMatch_none_of_ws l' (hSuffixWs l' hl'))
    have hbold : boldScan s.data = s.data :=
      boldScan_id _ (fun c hc => by rintro rfl; exact hchar _ (by decide) hc)
    have hem : emScan s.data = s.data :=
      emScan_id _ (fun c hc => by rintro rfl; exact hchar _ (by decide) hc)
    have hlink : linkScan s.data = s.data :=
      linkScan_id _ (fun c hc => by rintro rfl; exact hchar _ (by decide) hc)
    have hwalk : walkLines [] (splitOnNl s.data) false false = splitOnNl s.data := by
      apply walkLines_id
      intro line hline
      apply phLineMatch_none_of_noUnderscore
      intro hmem
      have := splitOnNlAux_chars s.data [] line hline '_' hmem
      rcases this with h | h
      · cases h
      · exact hchar _ (by decide) h
    simp only [escapeHtml_id s.data hNoAmp, headersPass_id s.data hNoHash, hul, hol,
               hbold, hem, hlink, hwalk, joinNl_splitOnNl]
    intro c hc
    have hj := joinNl_all_nil ((splitBlocks s.data).map blockMap) ?hall c hc
    · rw [hj]; decide
    case hall =>
      intro b hb
      obtain ⟨b0, hb0, rfl⟩ := List.mem_map.mp hb
      apply blockMap_ws
      intro c hc
      rcases splitBlocksAux_chars s.data.length [] s.data b0 hb0 c hc with h | h
      · cases h
      · exact hws c h


/-- C8 (counterexample): rendering the blank-line-only input consisting of two
newlines yields the single-newline string, which is not empty — so
whitespace-only input does not always render to the empty string. -/
theorem c8_counterexample :
    parseMarkdown "\n\n" = "\n" ∧ ("\n" : String) ≠ "" := by
  refine ⟨by decide, by decide⟩

/-- C8 (amended): the renderer is a total function of its input; the empty
string renders to the empty string, and any whitespace-only input renders to a
whitespace-only string (never to markup, though not necessarily to the empty
string). -/
theorem c8_pure_total_empty :
    parseMarkdown "" = "" ∧
      ∀ s : String, (∀ c ∈ s.data, isJsWs c = true) →
        ∀ c ∈ (parseMarkdown s).data, isJsWs c = true :=
  ⟨by decide, parseMarkdown_ws⟩

/-- C8 witness: the whitespace-only input consisting of a space, two newlines,
a tab and a space renders to a whitespace-only string. -/
theorem c8_pure_total_empty_witness :
    (parseMarkdown " \n\n\t ").data.all isJsWs = true :=
  List.all_eq_true.mpr (fun c hc => c8_pure_total_empty.2 " \n\n\t " (by decide) c hc)

/-- C10: a line that is literally `__LIST_ITEM_0__` (bare or indented) in an
input that also extracts a genuine list item is replaced by a duplicate `<li>`
carrying item 0's content instead of rendering as literal text, while an
out-of-range index such as `__LIST_ITEM_5__` passes through unchanged. -/
theorem c10_placeholder_collision :
    parseMarkdown "- a\n__LIST_ITEM_0__" = "<ul>\n<li>a</li>\n<li>a</li>\n</ul>" ∧
    parseMarkdown "  __LIST_ITEM_0__\n- a" = "<ul>\n<li>a</li>\n<li>a</li>\n</ul>" ∧
    parseMarkdown "- a\n__LIST_ITEM_5__" = "<ul>\n<li>a</li>\n__LIST_ITEM_5__\n</ul>" := by
  refine ⟨by decide, by decide, by decide⟩

theorem alpha_not_ws (c : Char) (h : c.isAlpha = true) : isJsWs c = false := by
  simp only [Char.isAlpha, Char.isUpper, Char.isLower, Bool.or_eq_true, Bool.and_eq_true,
    decide_eq_true_eq, UInt32.le_def, BitVec.le_def] at h
  simp only [isJsWs, Char.ext_iff, UInt32.ext_iff, UInt32.le_def, BitVec.le_def,
    Bool.or_eq_false_iff, Bool.and_eq_false_iff, decide_eq_false_iff_not, not_le]
  simp only [show (UInt32.toBitVec 65).toNat = 65 from rfl,
    show (UInt32.toBitVec 90).toNat = 90 from rfl,
    show (UInt32.toBitVec 97).toNat = 97 from rfl,
    show (UInt32.toBitVec 122).toNat = 122 from rfl,
    show (' ').val.toNat = 32 from rfl, show ('\t').val.toNat = 9 from rfl,
    show ('\n').val.toNat = 10 from rfl, show ('\x0d').val.toNat = 13 from rfl,
    show UInt32.toNat 11 = 11 from rfl, show UInt32.toNat 12 = 12 from rfl,
    show UInt32.toNat 160 = 160 from rfl, show UInt32.toNat 5760 = 5760 from rfl,
    show (UInt32.toBitVec 8192).toNat = 8192 from rfl,
    show (UInt32.toBitVec 8202).toNat = 8202 from rfl,
    show UInt32.toNat 8232 = 8232 from rfl, show UInt32.toNat 8233 = 8233 from rfl,
    show UInt32.toNat 8239 = 8239 from rfl, show UInt32.toNat 8287 = 8287 from rfl,
    show UInt32.toNat 12288 = 12288 from rfl, show UInt32.toNat 65279 = 65279 from rfl,
    show c.val.toBitVec.toNat = c.val.toNat from rfl] at h ⊢
  omega

theorem lineTerm_ws (c : Char) (h : isLineTerm c = true) : isJsWs c = true := by
  simp only [isLineTerm, Bool.or_eq_true, decide_eq_true_eq] at h
  rcases h with ((h | h) | h) | h <;> simp [isJsWs, h]

theorem alpha_not_term (c : Char) (h : c.isAlpha = true) : isLineTerm c = false := by
  cases hlt : isLineTerm c with
  | false => rfl
  | true =>
    have := lineTerm_ws c hlt
    rw [alpha_not_ws c h] at this
    exact absurd this (by simp)

theorem toDigitsCore_acc (fuel : Nat) : ∀ (n : Nat) (ds : List Char),
    Nat.toDigitsCore 10 fuel n ds = Nat.toDigitsCore 10 fuel n [] ++ ds := by
  induction fuel with
  | zero => intro n ds; rfl
  | succ f ih =>
    intro n ds
    simp only [Nat.toDigitsCore]
    by_cases h : n / 10 = 0
    · rw [if_pos h, if_pos h]; rfl
    · rw [if_neg h, if_neg h, ih (n / 10) [Nat.digitChar (n % 10)],
        ih (n / 10) (Nat.digitChar (n % 10) :: ds)]
      simp

theorem toDigitsCore_fuel (fuel : Nat) : ∀ (fuel' n : Nat) (ds : List Char),
    n < fuel → n < fuel' →
    Nat.toDigitsCore 10 fuel n ds = Nat.toDigitsCore 10 fuel' n ds := by
  induction fuel with
  | zero => intro fuel' n ds h _; omega
  | succ f ih =>
    intro fuel' n ds h h'
    cases fuel' with
    | zero => omega
    | succ f' =>
      simp only [Nat.toDigitsCore]
      by_cases hz : n / 10 = 0
      · rw [if_pos hz, if_pos hz]
      · rw [if_neg hz, if_neg hz, ih f' (n / 10) (Nat.digitChar (n % 10) :: ds)
          (by omega) (by omega)]

theorem digitChar_digit : ∀ m : Nat, m < 10 → isDigitCh (Nat.digitChar m) = true := by decide

theorem digitChar_val : ∀ m : Nat, m < 10 → (Nat.digitChar m).toNat - '0'.toNat = m := by decide

theorem toDigits_correct (n : Nat) :
    Nat.toDigits 10 n ≠ [] ∧
    (∀ c ∈ Nat.toDigits 10 n, isDigitCh c = true) ∧
    ∀ a : Nat, (Nat.toDigits 10 n).foldl (fun a c => a * 10 + (c.toNat - '0'.toNat)) a
        = a * 10 ^ (Nat.toDigits 10 n).length + n := by
  induction n using Nat.strong_induction_on with
  | _ n ih =>
    by_cases h : n < 10
    · have hz : n / 10 = 0 := by omega
      have hm : n % 10 = n := by omega
      have he : Nat.toDigits 10 n = [Nat.digitChar n] := by
        rw [Nat.toDigits, Nat.toDigitsCore, if_pos hz, hm]
      refine ⟨by simp [he], ?_, ?_⟩
      · intro c hc
        rw [he] at hc
        simp at hc
        rw [hc]
        exact digitChar_digit n h
      · intro a
        rw [he]
        simp only [List.foldl_cons, List.foldl_nil, List.length_cons, List.length_nil,
          pow_one, zero_add]
        rw [digitChar_val n h]
    · have hz : n / 10 ≠ 0 := by omega
      have he : Nat.toDigits 10 n
          = Nat.toDigits 10 (n / 10) ++ [Nat.digitChar (n % 10)] := by
        rw [Nat.toDigits, Nat.toDigitsCore, if_neg hz,
          toDigitsCore_acc n (n / 10) [Nat.digitChar (n % 10)],
          toDigitsCore_fuel n (n / 10 + 1) (n / 10) [] (by omega) (by omega)]
        rfl
      obtain ⟨hne, hdig, hval⟩ := ih (n / 10) (by omega)
      refine ⟨by simp [he], ?_, ?_⟩
      · intro c hc
        rw [he] at hc
        rcases List.mem_append.mp hc with hc | hc
        · exact hdig c hc
        · simp at hc
          rw [hc]
          exact digitChar_digit (n % 10) (by omega)
      · intro a
        rw [he, List.foldl_append, hval a]
        simp only [List.foldl, List.length_append, List.length_cons, List.length_nil]
        rw [digitChar_val (n % 10) (by omega)]
        rw [pow_succ]
        have : a * (10 ^ (Nat.toDigits 10 (n / 10)).length * 10)
            = a * 10 ^ (Nat.toDigits 10 (n / 10)).length * 10 := by ring
        rw [this]
        omega

theorem repr_data (n : Nat) : (toString n).data = Nat.toDigits 10 n := rfl

theorem repr_digits (n : Nat) : ∀ c ∈ (toString n).data, isDigitCh c = true := by
  rw [repr_data]
  exact (toDigits_correct n).2.1

theorem repr_ne_nil (n : Nat) : (toString n).data ≠ [] := by
  rw [repr_data]
  exact (toDigits_correct n).1

theorem digitsToNat_repr (n : Nat) : digitsToNat (toString n).data = n := by
  rw [repr_data, digitsToNat, (toDigits_correct n).2.2 0]
  simp

theorem takeWhile_append_stop {α : Type} (p : α → Bool) (a : List α) (c : α) (b : List α)
    (ha : ∀ x ∈ a, p x = true) (hc : p c = false) :
    (a ++ c :: b).takeWhile p = a ∧ (a ++ c :: b).dropWhile p = c :: b := by
  induction a with
  | nil =>
    simp only [List.nil_append]
    rw [List.takeWhile_cons_of_neg (by simp [hc]), List.dropWhile_cons_of_neg (by simp [hc])]
    exact ⟨rfl, rfl⟩
  | cons x a' ih =>
    have hx : p x = true := ha x (by simp)
    simp only [List.cons_append]
    rw [List.takeWhile_cons_of_pos (by simp [hx]), List.dropWhile_cons_of_pos (by simp [hx])]
    obtain ⟨h1, h2⟩ := ih (fun y hy => ha y (List.mem_cons_of_mem _ hy))
    exact ⟨by rw [h1], h2⟩

theorem takeWhile_all {α : Type} (p : α → Bool) (a : List α)
    (ha : ∀ x ∈ a, p x = true) : a.takeWhile p = a := by
  induction a with
  | nil => rfl
  | cons x a' ih =>
    rw [List.takeWhile_cons_of_pos (by simp [ha x (by simp)]),
      ih (fun y hy => ha y (List.mem_cons_of_mem _ hy))]

theorem phName_assoc (i : Nat) :
    phName i = "__LIST_ITEM_".data ++ ((toString i).data ++ "__".data) := by
  rw [phName, List.append_assoc]

theorem phName_chars (i : Nat) :
    ∀ c ∈ phName i, c ∈ "_LISTEM".data ∨ isDigitCh c = true := by
  have hpre : ∀ c ∈ "__LIST_ITEM_".data, c ∈ "_LISTEM".data := by decide
  have hsuf : ∀ c ∈ "__".data, c ∈ "_LISTEM".data := by decide
  intro c hc
  rw [phName_assoc] at hc
  rcases List.mem_append.mp hc with hc | hc
  · exact Or.inl (hpre c hc)
  · rcases List.mem_append.mp hc with hc | hc
    · exact Or.inr (repr_digits i c hc)
    · exact Or.inl (hsuf c hc)

theorem phLineMatch_generic (m : List Char) (hm : m ≠ [])
    (hd : ∀ c ∈ m, isDigitCh c = true) :
    phLineMatch ("__LIST_ITEM_".data ++ (m ++ "__".data)) = some (digitsToNat m) := by
  rw [show ("__LIST_ITEM_".data ++ (m ++ "__".data) : List Char)
      = '_' :: '_' :: 'L' :: 'I' :: 'S' :: 'T' :: '_' :: 'I' :: 'T' :: 'E' :: 'M' :: '_'
          :: (m ++ "__".data) from rfl]
  rw [phLineMatch]
  dsimp only
  rw [List.dropWhile_cons_of_neg (by decide)]
  rw [if_pos (show ("__LIST_ITEM_".data).isPrefixOf
      ('_' :: '_' :: 'L' :: 'I' :: 'S' :: 'T' :: '_' :: 'I' :: 'T' :: 'E' :: 'M' :: '_'
        :: (m ++ "__".data)) = true from by
    rw [List.isPrefixOf_iff_prefix]
    exact ⟨m ++ "__".data, rfl⟩)]
  rw [show ('_' :: '_' :: 'L' :: 'I' :: 'S' :: 'T' :: '_' :: 'I' :: 'T' :: 'E' :: 'M' :: '_'
      :: (m ++ "__".data)).drop 12 = m ++ "__".data from rfl]
  have hstop := takeWhile_append_stop isDigitCh m '_' "_".data hd (by decide)
  rw [show (m ++ "__".data : List Char) = m ++ '_' :: "_".data from rfl]
  rw [hstop.1]
  rw [if_pos ⟨hm, by rw [List.drop_left]⟩]

theorem phLineMatch_phName (i : Nat) : phLineMatch (phName i) = some i := by
  rw [phName_assoc,
    phLineMatch_generic (toString i).data (repr_ne_nil i) (repr_digits i),
    digitsToNat_repr i]

theorem alpha_ne_of_not (c x : Char) (hx : x.isAlpha = false) (h : c.isAlpha = true) :
    c ≠ x := by
  rintro rfl
  rw [h] at hx
  exact absurd hx (by simp)

theorem ulMatch_item (d z : List Char) (hd : d ≠ []) (ha : ∀ c ∈ d, c.isAlpha = true)
    (hz : z = [] ∨ ∃ r, z = '\n' :: r) :
    ulMatch ('-' :: ' ' :: (d ++ z)) = some ([], d, z) := by
  obtain ⟨c0, d0, rfl⟩ : ∃ c0 d0, d = c0 :: d0 := by
    cases d with
    | nil => exact absurd rfl hd
    | cons a b => exact ⟨a, b, rfl⟩
  have hc0 : isJsWs c0 = false := alpha_not_ws c0 (ha c0 (by simp))
  have hterm : ∀ c ∈ c0 :: d0, (!isLineTerm c) = true :=
    fun c hc => by simp [alpha_not_term c (ha c hc)]
  rw [ulMatch]
  rw [List.takeWhile_cons_of_neg (by decide), List.dropWhile_cons_of_neg (by decide)]
  rw [if_pos (Or.inr (show ('-' :: ' ' :: ((c0 :: d0) ++ z)).head? = some '-' from rfl))]
  rw [show ('-' :: ' ' :: ((c0 :: d0) ++ z)).tail = ' ' :: ((c0 :: d0) ++ z) from rfl]
  rw [markerTail]
  dsimp only
  rcases hz with rfl | ⟨r, rfl⟩
  · rw [List.append_nil]
    rw [List.takeWhile_cons_of_pos (by decide), List.takeWhile_cons_of_neg (by simp [hc0]),
      List.dropWhile_cons_of_pos (by decide), List.dropWhile_cons_of_neg (by simp [hc0])]
    rw [if_neg (by simp), if_pos (by simp)]
    rw [takeWhile_all _ _ hterm, dropWhile_eq_nil_of_all _ _ hterm]
    rfl
  · have hstop := takeWhile_append_stop (fun c => !isLineTerm c) (c0 :: d0) '\n' r
      hterm (by decide)
    rw [List.cons_append] at hstop
    rw [List.cons_append]
    rw [List.takeWhile_cons_of_pos (by decide), List.takeWhile_cons_of_neg (by simp [hc0]),
      List.dropWhile_cons_of_pos (by decide), List.dropWhile_cons_of_neg (by simp [hc0])]
    rw [if_neg (by simp), if_pos (by simp)]
    rw [hstop.1, hstop.2]
    rfl

theorem processInline_alpha (d : List Char) (ha : ∀ c ∈ d, c.isAlpha = true) :
    processInline d = d := by
  have hstar : ∀ c ∈ d, c ≠ '*' := fun c hc => alpha_ne_of_not c '*' (by decide) (ha c hc)
  have hbr : ∀ c ∈ d, c ≠ '[' := fun c hc => alpha_ne_of_not c '[' (by decide) (ha c hc)
  rw [processInline, boldScan_id d hstar, emScan_id d hstar, linkScan_id d hbr]

theorem ulPassRun_items : ∀ (items : List String) (idx : Nat) (phs : List PH),
    items ≠ [] →
    (∀ it ∈ items, it.data ≠ [] ∧ ∀ c ∈ it.data, c.isAlpha = true) →
    ulPassRun true (ulItemLines items) idx phs
      = (joinNl (phNameLines idx items), idx + items.length,
         phs ++ items.map (fun it => PH.mk LType.ul it.data [] none)) := by
  intro items
  induction items with
  | nil => intro idx phs h _; exact absurd rfl h
  | cons it rest ih =>
    intro idx phs _ hok
    obtain ⟨hne, ha⟩ := hok it (by simp)
    have hpi : processInline it.data = it.data := processInline_alpha it.data ha
    cases rest with
    | nil =>
      have hm : ulMatch ('-' :: ' ' :: (it.data ++ [])) = some ([], it.data, []) :=
        ulMatch_item it.data [] hne ha (Or.inl rfl)
      rw [List.append_nil] at hm
      rw [show ulItemLines [it] = '-' :: ' ' :: it.data from rfl]
      rw [ulPassRun_some ('-' :: ' ' :: it.data) idx phs [] it.data [] (by simp) hm]
      rw [hpi, ulPassRun_nil]
      simp [phNameLines, joinNl]
    | cons it2 rest2 =>
      have hm : ulMatch ('-' :: ' ' :: (it.data ++ '\n' :: ulItemLines (it2 :: rest2)))
          = some ([], it.data, '\n' :: ulItemLines (it2 :: rest2)) :=
        ulMatch_item it.data ('\n' :: ulItemLines (it2 :: rest2)) hne ha
          (Or.inr ⟨ulItemLines (it2 :: rest2), rfl⟩)
      have hshape : ulItemLines (it :: it2 :: rest2)
          = '-' :: ' ' :: (it.data ++ '\n' :: ulItemLines (it2 :: rest2)) := by
        rw [show ulItemLines (it :: it2 :: rest2)
            = ('-' :: ' ' :: it.data) ++ '\n' :: ulItemLines (it2 :: rest2) from rfl]
        rfl
      rw [hshape]
      rw [ulPassRun_some _ idx phs [] it.data ('\n' :: ulItemLines (it2 :: rest2))
        (by simp) hm]
      rw [hpi]
      rw [ulPassRun_notStart ('\n' :: ulItemLines (it2 :: rest2)) (idx + 1) _ (by simp)]
      rw [show (('\n' : Char) :: ulItemLines (it2 :: rest2)).headD ' ' = '\n' from rfl,
        show (('\n' : Char) :: ulItemLines (it2 :: rest2)).tail
          = ulItemLines (it2 :: rest2) from rfl,
        show isLineTerm '\n' = true from rfl]
      rw [ih (idx + 1) (phs ++ [PH.mk LType.ul it.data [] none]) (by simp)
        (fun x hx => hok x (List.mem_cons_of_mem _ hx))]
      simp only [Prod.mk.injEq]
      refine ⟨?_, by simp only [List.length_cons]; omega, by simp⟩
      rw [show phNameLines idx (it :: it2 :: rest2)
          = phName idx :: phNameLines (idx + 1) (it2 :: rest2) from rfl]
      rw [joinNl_cons _ _ (by rw [show phNameLines (idx + 1) (it2 :: rest2)
          = phName (idx + 1) :: phNameLines (idx + 2) rest2 from rfl]; simp)]
      simp

theorem olMatch_none_of_noDot (l : List Char) (h : '.' ∉ l) : olMatch l = none := by
  rw [olMatch, if_neg]
  rintro ⟨-, hdot⟩
  have h1 : '.' ∈ (l.dropWhile isJsWs).dropWhile isDigitCh := by
    cases hc : (l.dropWhile isJsWs).dropWhile isDigitCh with
    | nil => rw [hc] at hdot; cases hdot
    | cons a t =>
      rw [hc] at hdot
      simp only [List.head?_cons, Option.some.injEq] at hdot
      simp [hdot]
  exact h ((List.dropWhile_sublist _).subset ((List.dropWhile_sublist _).subset h1))

theorem phNameLines_chars (items : List String) : ∀ (idx : Nat),
    ∀ line ∈ phNameLines idx items, ∀ c ∈ line,
      c ∈ "_LISTEM".data ∨ isDigitCh c = true := by
  induction items with
  | nil => intro idx line hline; cases hline
  | cons it rest ih =>
    intro idx line hline
    rcases List.mem_cons.mp hline with rfl | hline
    · exact phName_chars idx
    · exact ih (idx + 1) line hline

theorem joinNl_chars (lines : List (List Char)) :
    ∀ c ∈ joinNl lines, c = '\n' ∨ ∃ line ∈ lines, c ∈ line := by
  induction lines with
  | nil => intro c hc; cases hc
  | cons x rest ih =>
    cases rest with
    | nil =>
      intro c hc
      rw [joinNl] at hc
      exact Or.inr ⟨x, by simp, hc⟩
    | cons y ys =>
      intro c hc
      rw [joinNl_cons _ _ (by simp)] at hc
      rcases List.mem_append.mp hc with hc | hc
      · exact Or.inr ⟨x, by simp, hc⟩
      · rcases List.mem_cons.mp hc with rfl | hc
        · exact Or.inl rfl
        · rcases ih c hc with hx | ⟨line, hl, hcl⟩
          · exact Or.inl hx
          · exact Or.inr ⟨line, List.mem_cons_of_mem _ hl, hcl⟩

theorem splitOnNlAux_no_nl (a : List Char) : ∀ acc, '\n' ∉ a →
    splitOnNlAux acc a = [acc.reverse ++ a] := by
  induction a with
  | nil => intro acc _; rw [splitOnNlAux]; simp
  | cons c rest ih =>
    intro acc h
    rw [splitOnNlAux, if_neg (by rintro rfl; exact h (by simp)),
      ih (c :: acc) (fun hm => h (List.mem_cons_of_mem _ hm))]
    simp

theorem splitOnNlAux_append (a : List Char) : ∀ (acc rest : List Char), '\n' ∉ a →
    splitOnNlAux acc (a ++ '\n' :: rest) = (acc.reverse ++ a) :: splitOnNlAux [] rest := by
  induction a with
  | nil =>
    intro acc rest _
    rw [List.nil_append, splitOnNlAux, if_pos rfl]
    simp
  | cons c a' ih =>
    intro acc rest h
    rw [List.cons_append, splitOnNlAux, if_neg (by rintro rfl; exact h (by simp)),
      ih (c :: acc) rest (fun hm => h (List.mem_cons_of_mem _ hm))]
    simp

theorem splitOnNl_joinNl : ∀ (lines : List (List Char)), lines ≠ [] →
    (∀ line ∈ lines, '\n' ∉ line) → splitOnNl (joinNl lines) = lines := by
  intro lines
  induction lines with
  | nil => intro hne _; exact absurd rfl hne
  | cons x rest ih =>
    intro _ h
    cases rest with
    | nil =>
      rw [joinNl, splitOnNl, splitOnNlAux_no_nl x [] (h x (by simp))]
      simp
    | cons y ys =>
      rw [joinNl_cons _ _ (by simp), splitOnNl,
        splitOnNlAux_append x [] (joinNl (y :: ys)) (h x (by simp)),
        show splitOnNlAux [] (joinNl (y :: ys)) = splitOnNl (joinNl (y :: ys)) from rfl,
        ih (by simp) (fun l hl => h l (List.mem_cons_of_mem _ hl))]
      simp

theorem walkLines_ul_cont (phs : List PH) : ∀ (rest : List String) (idx : Nat),
    (∀ j, j < rest.length → ∃ it, rest.get? j = some it ∧
        phs.get? (idx + j) = some (PH.mk LType.ul it.data [] none)) →
    walkLines phs (phNameLines idx rest) true false
      = rest.map (fun it => "<li>".data ++ it.data ++ "</li>".data) ++ ["</ul>".data] := by
  intro rest
  induction rest with
  | nil => intro idx _; rfl
  | cons it rest2 ih =>
    intro idx h
    obtain ⟨it0, hgot, hlook⟩ := h 0 (by simp)
    have hit : it0 = it := by
      simp only [List.get?] at hgot
      exact (Option.some.injEq _ _ ▸ hgot).symm
    subst hit
    rw [show idx + 0 = idx from rfl] at hlook
    rw [show phNameLines idx (it0 :: rest2) = phName idx :: phNameLines (idx + 1) rest2
      from rfl]
    rw [walkLines, phLineMatch_phName idx]
    dsimp only
    rw [hlook]
    dsimp only
    rw [ih (idx + 1) (fun j hj => by
      obtain ⟨w, hw1, hw2⟩ := h (j + 1) (by simp only [List.length_cons]; omega)
      exact ⟨w, by simpa using hw1,
        by rw [show idx + 1 + j = idx + (j + 1) from by omega]; exact hw2⟩)]
    rfl

theorem walkLines_ul_open (phs : List PH) (items : List String) (hne : items ≠ [])
    (h : ∀ j, j < items.length → ∃ it, items.get? j = some it ∧
        phs.get? j = some (PH.mk LType.ul it.data [] none)) :
    walkLines phs (phNameLines 0 items) false false
      = "<ul>".data :: (items.map (fun it => "<li>".data ++ it.data ++ "</li>".data)
          ++ ["</ul>".data]) := by
  cases items with
  | nil => exact absurd rfl hne
  | cons it rest =>
    obtain ⟨it0, hgot, hlook⟩ := h 0 (by simp)
    have hit : it0 = it := by
      simp only [List.get?] at hgot
      exact (Option.some.injEq _ _ ▸ hgot).symm
    subst hit
    rw [show phNameLines 0 (it0 :: rest) = phName 0 :: phNameLines 1 rest from rfl]
    rw [walkLines, phLineMatch_phName 0]
    dsimp only
    rw [hlook]
    dsimp only
    rw [walkLines_ul_cont phs rest 1 (fun j hj => by
      obtain ⟨w, hw1, hw2⟩ := h (j + 1) (by simp only [List.length_cons]; omega)
      exact ⟨w, by simpa using hw1,
        by rw [show 1 + j = j + 1 from by omega]; exact hw2⟩)]
    rfl

theorem splitBlocksAux_single (n : Nat) : ∀ (acc l : List Char), l.length ≤ n →
    noNlNl l = true → splitBlocksAux n acc l = [acc.reverse ++ l] := by
  induction n with
  | zero =>
    intro acc l hlen _
    rw [splitBlocksAux]
  | succ m ih =>
    intro acc l hlen hnn
    cases l with
    | nil => rw [splitBlocksAux]; simp
    | cons c rest =>
      rw [noNlNl] at hnn
      have hcond : ¬(c = '\n' ∧ rest.head? = some '\n') := by
        intro hc
        rw [if_pos hc] at hnn
        cases hnn
      rw [if_neg hcond] at hnn
      rw [splitBlocksAux, if_neg hcond,
        ih (c :: acc) rest (by simp at hlen; omega) hnn]
      simp

theorem splitBlocks_single (l : List Char) (h : noNlNl l = true) :
    splitBlocks l = [l] := by
  rw [splitBlocks, splitBlocksAux_single l.length [] l le_rfl h]
  simp

theorem noNlNl_of_no_nl (a : List Char) (h : '\n' ∉ a) : noNlNl a = true := by
  induction a with
  | nil => rfl
  | cons c rest ih =>
    rw [noNlNl, if_neg (by rintro ⟨rfl, -⟩; exact h (by simp))]
    exact ih (fun hm => h (List.mem_cons_of_mem _ hm))

theorem noNlNl_append_nl (a : List Char) : ∀ b : List Char, '\n' ∉ a →
    noNlNl b = true → b.head? ≠ some '\n' → noNlNl (a ++ '\n' :: b) = true := by
  induction a with
  | nil =>
    intro b _ hb hbh
    rw [List.nil_append, noNlNl, if_neg (by rintro ⟨-, hx⟩; exact hbh hx)]
    exact hb
  | cons c a' ih =>
    intro b h hb hbh
    rw [List.cons_append, noNlNl, if_neg (by rintro ⟨rfl, -⟩; exact h (by simp))]
    exact ih b (fun hm => h (List.mem_cons_of_mem _ hm)) hb hbh

theorem head?_joinNl_cons (y : List Char) (ys : List (List Char)) (hy : y ≠ []) :
    (joinNl (y :: ys)).head? = y.head? := by
  obtain ⟨c, t, rfl⟩ : ∃ c t, y = c :: t := by
    cases y with
    | nil => exact absurd rfl hy
    | cons a b => exact ⟨a, b, rfl⟩
  cases ys with
  | nil => rw [joinNl]
  | cons z zs => rw [joinNl_cons _ _ (by simp)]; rfl

theorem noNlNl_joinNl : ∀ (lines : List (List Char)),
    (∀ line ∈ lines, '\n' ∉ line) → (∀ line ∈ lines, line ≠ []) →
    noNlNl (joinNl lines) = true := by
  intro lines
  induction lines with
  | nil => intro _ _; rfl
  | cons x rest ih =>
    intro hnl hne
    cases rest with
    | nil => rw [joinNl]; exact noNlNl_of_no_nl x (hnl x (by simp))
    | cons y ys =>
      rw [joinNl_cons _ _ (by simp)]
      refine noNlNl_append_nl x (joinNl (y :: ys)) (hnl x (by simp))
        (ih (fun l hl => hnl l (List.mem_cons_of_mem _ hl))
            (fun l hl => hne l (List.mem_cons_of_mem _ hl))) ?_
      rw [head?_joinNl_cons y ys (hne y (by simp))]
      intro hx
      have : '\n' ∈ y := by
        cases y with
        | nil => cases hx
        | cons c t =>
          simp only [List.head?_cons, Option.some.injEq] at hx
          rw [hx]
          exact List.mem_cons_self _ _
      exact hnl y (by simp) this

theorem dropWhile_eq_self_of_head {α : Type} (p : α → Bool) (l : List α)
    (h : ∀ c, l.head? = some c → p c = false) : l.dropWhile p = l := by
  cases l with
  | nil => rfl
  | cons c t => exact List.dropWhile_cons_of_neg (by simp [h c rfl])

theorem jsTrim_eq_self (l : List Char)
    (hh : ∀ c, l.head? = some c → isJsWs c = false)
    (hl : ∀ c, l.getLast? = some c → isJsWs c = false) : jsTrim l = l := by
  rw [jsTrim, dropWhile_eq_self_of_head isJsWs l hh,
    dropWhile_eq_self_of_head isJsWs l.reverse
      (fun c hc => hl c (by rwa [List.head?_reverse] at hc)),
    List.reverse_reverse]

theorem joinNl_li : ∀ (items : List String), items ≠ [] →
    joinNl (items.map (fun it => "<li>".data ++ it.data ++ "</li>".data)
        ++ ["</ul>".data])
      = liLines items ++ '\n' :: "</ul>".data := by
  intro items
  induction items with
  | nil => intro hne; exact absurd rfl hne
  | cons it rest ih =>
    intro _
    cases rest with
    | nil =>
      rw [show liLines [it] = "<li>".data ++ it.data ++ "</li>".data from rfl]
      rw [show (([it].map (fun it => "<li>".data ++ it.data ++ "</li>".data))
          ++ ["</ul>".data])
        = ["<li>".data ++ it.data ++ "</li>".data, "</ul>".data] from by simp]
      rw [joinNl_cons _ _ (by simp), joinNl]
    | cons it2 rest2 =>
      rw [show ((it :: it2 :: rest2).map (fun it => "<li>".data ++ it.data ++ "</li>".data))
          ++ ["</ul>".data]
        = ("<li>".data ++ it.data ++ "</li>".data)
            :: (((it2 :: rest2).map (fun it => "<li>".data ++ it.data ++ "</li>".data))
              ++ ["</ul>".data]) from by simp]
      rw [joinNl_cons _ _ (by simp), ih (by simp)]
      rw [show liLines (it :: it2 :: rest2)
        = ("<li>".data ++ it.data ++ "</li>".data) ++ '\n' :: liLines (it2 :: rest2)
        from rfl]
      simp

theorem getLast?_append_some {α : Type} (l1 l2 : List α) (c : α)
    (h : l2.getLast? = some c) : (l1 ++ l2).getLast? = some c := by
  rw [List.getLast?_append, h]
  rfl

theorem ulItemLines_chars : ∀ (items : List String), ∀ c ∈ ulItemLines items,
    c = '-' ∨ c = ' ' ∨ c = '\n' ∨ ∃ it ∈ items, c ∈ it.data := by
  intro items
  induction items with
  | nil => intro c hc; cases hc
  | cons it rest ih =>
    intro c hc
    cases rest with
    | nil =>
      rw [show ulItemLines [it] = '-' :: ' ' :: it.data from rfl] at hc
      rcases List.mem_cons.mp hc with rfl | hc
      · exact Or.inl rfl
      rcases List.mem_cons.mp hc with rfl | hc
      · exact Or.inr (Or.inl rfl)
      · exact Or.inr (Or.inr (Or.inr ⟨it, by simp, hc⟩))
    | cons it2 rest2 =>
      rw [show ulItemLines (it :: it2 :: rest2)
          = ('-' :: ' ' :: it.data) ++ '\n' :: ulItemLines (it2 :: rest2) from rfl] at hc
      rcases List.mem_append.mp hc with hc | hc
      · rcases List.mem_cons.mp hc with rfl | hc
        · exact Or.inl rfl
        rcases List.mem_cons.mp hc with rfl | hc
        · exact Or.inr (Or.inl rfl)
        · exact Or.inr (Or.inr (Or.inr ⟨it, by simp, hc⟩))
      · rcases List.mem_cons.mp hc with rfl | hc
        · exact Or.inr (Or.inr (Or.inl rfl))
        · rcases ih c hc with h | h | h | ⟨w, hw, hcw⟩
          · exact Or.inl h
          · exact Or.inr (Or.inl h)
          · exact Or.inr (Or.inr (Or.inl h))
          · exact Or.inr (Or.inr (Or.inr ⟨w, List.mem_cons_of_mem _ hw, hcw⟩))

theorem joinNl_singleton (x : List Char) : joinNl [x] = x := rfl

theorem parseMarkdown_ul_items (items : List String) (hne : items ≠ [])
    (hok : ∀ it ∈ items, it.data ≠ [] ∧ ∀ c ∈ it.data, c.isAlpha = true) :
    parseMarkdown ⟨ulItemLines items⟩
      = ⟨"<ul>".data ++ '\n' :: (liLines items ++ '\n' :: "</ul>".data)⟩ := by
  obtain ⟨it1, rest1, hitems⟩ : ∃ it1 rest1, items = it1 :: rest1 := by
    cases items with
    | nil => exact absurd rfl hne
    | cons a b => exact ⟨a, b, rfl⟩
  have hinput : (⟨ulItemLines items⟩ : String) ≠ "" := by
    intro hmk
    have hdat : ulItemLines items = [] := congrArg String.data hmk
    rw [hitems] at hdat
    cases rest1 with
    | nil => simp [ulItemLines] at hdat
    | cons it2 r2 => simp [ulItemLines] at hdat
  have hclass : ∀ c ∈ ulItemLines items, c = '-' ∨ c = ' ' ∨ c = '\n' ∨ c.isAlpha = true := by
    intro c hc
    rcases ulItemLines_chars items c hc with h | h | h | ⟨it, hit, hc'⟩
    · exact Or.inl h
    · exact Or.inr (Or.inl h)
    · exact Or.inr (Or.inr (Or.inl h))
    · exact Or.inr (Or.inr (Or.inr ((hok it hit).2 c hc')))
  have hnotin : ∀ (x : Char), x.isAlpha = false → x ≠ '-' → x ≠ ' ' → x ≠ '\n' →
      x ∉ ulItemLines items := by
    intro x hx h1 h2 h3 hmem
    rcases hclass x hmem with h | h | h | h
    · exact h1 h
    · exact h2 h
    · exact h3 h
    · rw [hx] at h; exact absurd h (by simp)
  have hne3 : ∀ c ∈ ulItemLines items, c ≠ '&' ∧ c ≠ '<' ∧ c ≠ '>' := by
    intro c hc
    refine ⟨?_, ?_, ?_⟩ <;>
      · rintro rfl
        exact hnotin _ (by decide) (by decide) (by decide) (by decide) hc
  have hesc : escapeHtml (ulItemLines items) = ulItemLines items :=
    escapeHtml_id _ hne3
  have hhp : headersPass (ulItemLines items) = ulItemLines items :=
    headersPass_id _ (fun c hc => by
      rintro rfl
      exact hnotin _ (by decide) (by decide) (by decide) (by decide) hc)
  have hul := ulPassRun_items items 0 [] hne hok
  have hT1chars : ∀ c ∈ joinNl (phNameLines 0 items),
      c = '\n' ∨ c ∈ "_LISTEM".data ∨ isDigitCh c = true := by
    intro c hc
    rcases joinNl_chars _ c hc with h | ⟨line, hl, hcl⟩
    · exact Or.inl h
    · exact Or.inr (phNameLines_chars items 0 line hl c hcl)
  have hT1not : ∀ (x : Char), x ≠ '\n' → x ∉ "_LISTEM".data → isDigitCh x = false →
      x ∉ joinNl (phNameLines 0 items) := by
    intro x h1 h2 h3 hmem
    rcases hT1chars x hmem with h | h | h
    · exact h1 h
    · exact h2 h
    · rw [h3] at h; exact absurd h (by simp)
  have hol : olPassRun true (joinNl (phNameLines 0 items)) items.length
      (items.map (fun it => PH.mk LType.ul it.data [] none))
      = (joinNl (phNameLines 0 items), items.length,
         items.map (fun it => PH.mk LType.ul it.data [] none)) :=
    olPassRun_id _ _ _ true (fun l' hl' => olMatch_none_of_noDot l'
      (fun hdot => hT1not '.' (by decide) (by decide) (by decide) (hl'.subset hdot)))
  have hbold : boldScan (joinNl (phNameLines 0 items)) = joinNl (phNameLines 0 items) :=
    boldScan_id _ (fun c hc => by
      rintro rfl; exact hT1not '*' (by decide) (by decide) (by decide) hc)
  have hem : emScan (joinNl (phNameLines 0 items)) = joinNl (phNameLines 0 items) :=
    emScan_id _ (fun c hc => by
      rintro rfl; exact hT1not '*' (by decide) (by decide) (by decide) hc)
  have hlink : linkScan (joinNl (phNameLines 0 items)) = joinNl (phNameLines 0 items) :=
    linkScan_id _ (fun c hc => by
      rintro rfl; exact hT1not '[' (by decide) (by decide) (by decide) hc)
  have hsplit : splitOnNl (joinNl (phNameLines 0 items)) = phNameLines 0 items :=
    splitOnNl_joinNl _ (by rw [hitems]; simp [phNameLines])
      (fun line hl hm => by
        rcases phNameLines_chars items 0 line hl '\n' hm with h | h
        · exact absurd h (by decide)
        · exact absurd h (by decide))
  have hwalk : walkLines (items.map (fun it => PH.mk LType.ul it.data [] none))
      (phNameLines 0 items) false false
      = "<ul>".data :: (items.map (fun it => "<li>".data ++ it.data ++ "</li>".data)
          ++ ["</ul>".data]) := by
    refine walkLines_ul_open _ items hne ?_
    intro j hj
    refine ⟨items.get ⟨j, hj⟩, List.get?_eq_get hj, ?_⟩
    rw [List.get?_map, List.get?_eq_get hj]
    rfl
  have hjoin : joinNl ("<ul>".data
        :: (items.map (fun it => "<li>".data ++ it.data ++ "</li>".data)
          ++ ["</ul>".data]))
      = "<ul>".data ++ '\n' :: (liLines items ++ '\n' :: "</ul>".data) := by
    rw [joinNl_cons _ _ (by simp), joinNl_li items hne]
  have hlinesok : ∀ line ∈ "<ul>".data
        :: (items.map (fun it => "<li>".data ++ it.data ++ "</li>".data)
          ++ ["</ul>".data]), '\n' ∉ line ∧ line ≠ [] := by
    intro line hl
    rcases List.mem_cons.mp hl with rfl | hl
    · exact ⟨by decide, by decide⟩
    rcases List.mem_append.mp hl with hl | hl
    · obtain ⟨it, hit, rfl⟩ := List.mem_map.mp hl
      refine ⟨?_, by simp⟩
      intro hmem
      rcases List.mem_append.mp hmem with hm | hm
      · rcases List.mem_append.mp hm with hm | hm
        · exact absurd hm (by decide)
        · have := (hok it hit).2 '\n' hm
          exact absurd this (by decide)
      · exact absurd hm (by decide)
    · rw [List.mem_singleton.mp hl]
      exact ⟨by decide, by decide⟩
  have hnn : noNlNl ("<ul>".data ++ '\n' :: (liLines items ++ '\n' :: "</ul>".data))
      = true := by
    rw [← hjoin]
    exact noNlNl_joinNl _ (fun l hl => (hlinesok l hl).1) (fun l hl => (hlinesok l hl).2)
  have hblocks : splitBlocks ("<ul>".data ++ '\n' :: (liLines items ++ '\n' :: "</ul>".data))
      = ["<ul>".data ++ '\n' :: (liLines items ++ '\n' :: "</ul>".data)] :=
    splitBlocks_single _ hnn
  have htrim : jsTrim ("<ul>".data ++ '\n' :: (liLines items ++ '\n' :: "</ul>".data))
      = "<ul>".data ++ '\n' :: (liLines items ++ '\n' :: "</ul>".data) := by
    refine jsTrim_eq_self _ ?_ ?_
    · intro c hc
      have : c = '<' := by
        rw [show ("<ul>".data ++ '\n' :: (liLines items ++ '\n' :: "</ul>".data)).head?
            = some '<' from rfl] at hc
        exact (Option.some.injEq _ _ ▸ hc).symm
      rw [this]
      decide
    · intro c hc
      have hg : ("<ul>".data ++ '\n' :: (liLines items ++ '\n' :: "</ul>".data)).getLast?
          = some '>' := by
        refine getLast?_append_some _ _ '>' ?_
        rw [show (('\n' : Char) :: (liLines items ++ '\n' :: "</ul>".data))
            = ['\n'] ++ (liLines items ++ '\n' :: "</ul>".data) from rfl]
        refine getLast?_append_some _ _ '>' ?_
        refine getLast?_append_some _ _ '>' ?_
        rw [show (('\n' : Char) :: "</ul>".data) = ['\n'] ++ "</ul>".data from rfl]
        exact getLast?_append_some _ _ '>' rfl
      rw [hg] at hc
      have : c = '>' := (Option.some.injEq _ _ ▸ hc).symm
      rw [this]
      decide
  have hbm : blockMap ("<ul>".data ++ '\n' :: (liLines items ++ '\n' :: "</ul>".data))
      = "<ul>".data ++ '\n' :: (liLines items ++ '\n' :: "</ul>".data) := by
    rw [blockMap]
    dsimp only
    rw [htrim]
    rw [if_neg (by simp)]
    rw [if_pos (show isBlockStart ("<ul>".data
        ++ '\n' :: (liLines items ++ '\n' :: "</ul>".data)) = true from rfl)]
    rw [if_pos (show isListStart ("<ul>".data
        ++ '\n' :: (liLines items ++ '\n' :: "</ul>".data)) = true from rfl)]
  rw [parseMarkdown, if_neg hinput]
  simp only [show (⟨ulItemLines items⟩ : String).data = ulItemLines items from rfl,
    hesc, hhp, hul, zero_add, List.nil_append, hol, hbold, hem, hlink, hsplit, hwalk,
    hjoin, hblocks, List.map_cons, List.map_nil, hbm, joinNl_singleton]

/-- C7: consecutive list-item lines of the same type are wrapped in one single
list element: the spec's example renders as one `<ul>` with two `<li>`s
followed by `<p>c</p>`; a type change closes the `<ul>` and opens an `<ol>`;
and for every non-empty run of alphabetic `- ` items, of any length, the
output is a single `<ul>` wrapping exactly the items' `<li>` lines, closed at
end of input. -/
theorem c7_list_grouping :
    parseMarkdown "- a\n- b\n\nc" = "<ul>\n<li>a</li>\n<li>b</li>\n</ul>\n<p>c</p>" ∧
    parseMarkdown "- a\n1. b" = "<ul>\n<li>a</li>\n</ul>\n<ol>\n<li>b</li>\n</ol>" ∧
    ∀ items : List String, items ≠ [] →
      (∀ it ∈ items, it.data ≠ [] ∧ ∀ c ∈ it.data, c.isAlpha = true) →
      parseMarkdown ⟨ulItemLines items⟩
        = ⟨"<ul>".data ++ '\n' :: (liLines items ++ '\n' :: "</ul>".data)⟩ :=
  ⟨by decide, by decide, parseMarkdown_ul_items⟩

/-- C7 witness: a three-item run renders as one `<ul>` with three `<li>`s. -/
theorem c7_list_grouping_witness :
    parseMarkdown ⟨ulItemLines ["x", "y", "z"]⟩
      = ⟨"<ul>".data ++ '\n' :: (liLines ["x", "y", "z"] ++ '\n' :: "</ul>".data)⟩ :=
  c7_list_grouping.2.2 ["x", "y", "z"] (by decide) (by decide)

/-- C9: `_extractSummaryText` returns the payload of the spec's fenced
example, decodes `\uXXXX` string escapes, parses fraction/exponent numbers
in the envelope, passes plain non-JSON text through unchanged (the concrete
example, and universally every non-empty input that does not look like JSON
or a fence), and on each listed failure mode — no `{` after the fence, brace
depth never balancing, a JSON parse error, the payload field absent —
returns the original input unchanged; it is a total function, so no failure
escapes its boundary. -/
theorem c9_json_unwrap :
    extractSummaryText "```json\n\x7b\"document_summary\":\"hi\"\x7d\n```" = "hi" ∧
    extractSummaryText "Just plain text." = "Just plain text." ∧
    extractSummaryText "\x7b\"document_summary\":\"caf\\u00e9\"\x7d" = "caf\u00E9" ∧
    extractSummaryText "```json\n\x7b\"document_summary\":\"hi\",\"n\":1.5e2\x7d\n```" = "hi" ∧
    extractSummaryText "```json\nno object here\n```" = "```json\nno object here\n```" ∧
    extractSummaryText "\x7b\"document_summary\":\"hi\"" = "\x7b\"document_summary\":\"hi\"" ∧
    extractSummaryText "\x7b\"document_summary\" \"hi\"\x7d" = "\x7b\"document_summary\" \"hi\"\x7d" ∧
    extractSummaryText "\x7b\"other\":\"hi\"\x7d" = "\x7b\"other\":\"hi\"\x7d" ∧
    ∀ s : String, s ≠ "" → startCond (jsTrim s.data) = false →
      extractSummaryText s = s := by
  refine ⟨by decide, by decide, by decide, by decide, by decide, by decide, by decide,
    by decide, ?_⟩
  intro s hs hcond
  rw [extractSummaryText, if_neg hs]
  dsimp only
  rw [if_neg (by rw [hcond]; simp)]

/-- C9 witness: a plain sentence is passed through unchanged. -/
theorem c9_json_unwrap_witness :
    extractSummaryText "hello world" = "hello world" :=
  c9_json_unwrap.2.2.2.2.2.2.2.2 "hello world" (by decide) (by decide)

theorem append_split_char {α : Type} (ch : α) :
    ∀ (a x b y : List α), a ++ b = x ++ ch :: y →
      (∃ y', a = x ++ ch :: y' ∧ y = y' ++ b) ∨
      (∃ x', x = a ++ x' ∧ b = x' ++ ch :: y) := by
  intro a
  induction a with
  | nil =>
    intro x b y h
    exact Or.inr ⟨x, by simp, by simpa using h⟩
  | cons c a' ih =>
    intro x b y h
    cases x with
    | nil =>
      simp only [List.nil_append, List.cons_append, List.cons.injEq] at h
      exact Or.inl ⟨a', by rw [h.1]; simp, h.2.symm⟩
    | cons d x' =>
      simp only [List.cons_append, List.cons.injEq] at h
      rcases ih x' b y h.2 with ⟨y', h1, h2⟩ | ⟨x'', h1, h2⟩
      · exact Or.inl ⟨y', by rw [h.1, h1]; rfl, h2⟩
      · exact Or.inr ⟨x'', by rw [h.1, h1]; rfl, h2⟩

theorem LtSafe_nil : LtSafe [] := by
  intro a b h
  exact absurd h (by simp)

theorem LtSafe_of_not_mem (l : List Char) (h : '<' ∉ l) : LtSafe l := by
  intro a b heq
  exact absurd (by rw [heq]; simp : '<' ∈ l) h

theorem LtSafe_append (a b : List Char) (ha : LtSafe a) (hb : LtSafe b) :
    LtSafe (a ++ b) := by
  intro x y heq
  rcases append_split_char '<' a x b y heq with ⟨y', h1, h2⟩ | ⟨x', h1, h2⟩
  · obtain ⟨t, ht, hpre⟩ := ha x y' h1
    refine ⟨t, ht, List.isPrefixOf_iff_prefix.mpr ?_⟩
    obtain ⟨r, hr⟩ := List.isPrefixOf_iff_prefix.mp hpre
    rw [h2]
    exact ⟨r ++ b, by rw [← List.append_assoc, hr]⟩
  · exact hb x' y h2

theorem LtSafe_suffix (r l : List Char) (hs : r <:+ l) (h : LtSafe l) : LtSafe r := by
  obtain ⟨u, rfl⟩ := hs
  intro a b heq
  exact h (u ++ a) b (by rw [heq]; simp)

theorem LtSafe_cons (c : Char) (rest : List Char)
    (hc : c = '<' → ∃ t ∈ tagStarts, t.isPrefixOf rest) (h : LtSafe rest) :
    LtSafe (c :: rest) := by
  intro a b heq
  cases a with
  | nil =>
    simp only [List.nil_append, List.cons.injEq] at heq
    rw [← heq.2]
    exact hc heq.1
  | cons d a' =>
    simp only [List.cons_append, List.cons.injEq] at heq
    exact h a' b heq.2

theorem LtSafe_lit (u : List Char) (hu : ∃ t ∈ tagStarts, t.isPrefixOf u)
    (hno : '<' ∉ u) : LtSafe ('<' :: u) :=
  LtSafe_cons '<' u (fun _ => hu) (LtSafe_of_not_mem u hno)

theorem prefix_cut_notMem (t y : List Char) (c : Char) (z : List Char)
    (h : t <+: y ++ c :: z) (hc : c ∉ t) : t <+: y := by
  by_cases hlen : t.length ≤ y.length
  · exact List.prefix_of_prefix_length_le h (y.prefix_append (c :: z)) hlen
  · exfalso
    apply hc
    have heq : t = (y ++ c :: z).take t.length := by
      obtain ⟨r, hr⟩ := h
      rw [← hr, List.take_left']
      rfl
    rw [List.take_append_eq_append_take] at heq
    have h2 : t = y ++ (c :: z).take (t.length - y.length) := by
      rwa [List.take_of_length_le (by omega)] at heq
    have h3 : (c :: z).take (t.length - y.length) = c :: z.take (t.length - y.length - 1) := by
      cases hk : t.length - y.length with
      | zero => omega
      | succ k => simp [hk]
    rw [h2, h3]
    simp

theorem mem_getLast? {α : Type} : ∀ (l : List α) (x : α), l.getLast? = some x → x ∈ l := by
  intro l
  induction l with
  | nil => intro x hx; cases hx
  | cons c rest ih =>
    intro x hx
    cases rest with
    | nil =>
      simp only [List.getLast?_singleton, Option.some.injEq] at hx
      simp [hx]
    | cons d r =>
      rw [List.getLast?_cons_cons] at hx
      exact List.mem_cons_of_mem _ (ih x hx)

theorem tagStarts_last_map : ∀ t ∈ tagStarts, t.getLast?.map isJsWs = some false := by decide

theorem prefix_cut_ws (t y z : List Char) (h : t <+: y ++ z)
    (hz : ∀ c ∈ z, isJsWs c = true)
    (hlast : ∀ c, t.getLast? = some c → isJsWs c = false) : t <+: y := by
  by_cases hlen : t.length ≤ y.length
  · exact List.prefix_of_prefix_length_le h (y.prefix_append z) hlen
  · exfalso
    have heq : t = (y ++ z).take t.length := by
      obtain ⟨r, hr⟩ := h
      rw [← hr, List.take_left']
      rfl
    rw [List.take_append_eq_append_take,
      List.take_of_length_le (by omega)] at heq
    have hne : z.take (t.length - y.length) ≠ [] := by
      have hlz : t.length ≤ y.length + z.length := by
        have h2 := h.length_le
        rw [List.length_append] at h2
        exact h2
      intro hnil
      have hlen0 := congrArg List.length hnil
      rw [List.length_take, List.length_nil] at hlen0
      rcases Nat.min_eq_zero_iff.mp hlen0 with h0 | h0 <;> omega
    obtain ⟨x, hx⟩ : ∃ x, (z.take (t.length - y.length)).getLast? = some x := by
      cases hg : (z.take (t.length - y.length)).getLast? with
      | none => exact absurd (List.getLast?_eq_none_iff.mp hg) hne
      | some x => exact ⟨x, rfl⟩
    have hxz : x ∈ z := List.take_subset _ _ (mem_getLast? _ x hx)
    have hxt : t.getLast? = some x := by
      rw [heq, List.getLast?_append, hx]
      rfl
    have hfx := hlast x hxt
    rw [hz x hxz] at hfx
    exact absurd hfx (by decide)

theorem LtSafe_stop (ct : List Char) (c : Char) (z : List Char)
    (h : LtSafe (ct ++ c :: z)) (hc : ∀ t ∈ tagStarts, c ∉ t) : LtSafe ct := by
  intro x y heq
  obtain ⟨t, ht, hpre⟩ := h x (y ++ c :: z) (by rw [heq]; simp)
  exact ⟨t, ht, List.isPrefixOf_iff_prefix.mpr
    (prefix_cut_notMem t y c z (List.isPrefixOf_iff_prefix.mp hpre) (hc t ht))⟩

theorem LtSafe_trim_right (p z : List Char) (h : LtSafe (p ++ z))
    (hz : ∀ c ∈ z, isJsWs c = true) : LtSafe p := by
  intro x y heq
  obtain ⟨t, ht, hpre⟩ := h x (y ++ z) (by rw [heq]; simp)
  refine ⟨t, ht, List.isPrefixOf_iff_prefix.mpr
    (prefix_cut_ws t y z (List.isPrefixOf_iff_prefix.mp hpre) hz ?_)⟩
  intro c hcl
  have hm := tagStarts_last_map t ht
  rw [hcl] at hm
  simpa using hm

theorem LtSafe_joinNl (lines : List (List Char)) (h : ∀ line ∈ lines, LtSafe line) :
    LtSafe (joinNl lines) := by
  induction lines with
  | nil => exact LtSafe_nil
  | cons x rest ih =>
    cases rest with
    | nil => rw [joinNl]; exact h x (by simp)
    | cons y ys =>
      rw [joinNl_cons _ _ (by simp)]
      refine LtSafe_append _ _ (h x (by simp)) (LtSafe_cons '\n' _ (by simp) ?_)
      exact ih (fun l hl => h l (List.mem_cons_of_mem _ hl))

theorem tagStarts_no_star : ∀ t ∈ tagStarts, '*' ∉ t := by decide

theorem tagStarts_no_lbracket : ∀ t ∈ tagStarts, '[' ∉ t := by decide

theorem tagStarts_no_rbracket : ∀ t ∈ tagStarts, ']' ∉ t := by decide

theorem tagStarts_no_rparen : ∀ t ∈ tagStarts, ')' ∉ t := by decide

theorem tagStarts_no_term : ∀ t ∈ tagStarts, ∀ c ∈ t, isLineTerm c = false := by decide

theorem tagStarts_no_nl : ∀ t ∈ tagStarts, '\n' ∉ t := by decide

theorem boldClose_decomp : ∀ (l ct r2 : List Char), boldClose l = some (ct, r2) →
    l = ct ++ '*' :: '*' :: r2 := by
  intro l
  induction l with
  | nil => intro ct r2 h; cases h
  | cons c rest ih =>
    intro ct r2 h
    rw [boldClose] at h
    by_cases hterm : isLineTerm c
    · rw [if_pos hterm] at h; cases h
    · rw [if_neg hterm] at h
      by_cases hcond : rest.head? = some '*' ∧ rest.tail.head? = some '*'
      · rw [if_pos hcond] at h
        cases rest with
        | nil => exact absurd hcond.1 (by simp)
        | cons a t =>
          cases t with
          | nil => exact absurd hcond.2 (by simp)
          | cons b u =>
            have ha : a = '*' := by simpa using hcond.1
            have hb : b = '*' := by simpa using hcond.2
            simp only [Option.some.injEq, Prod.mk.injEq] at h
            rw [← h.1, ← h.2, ha, hb]
            rfl
      · rw [if_neg hcond] at h
        cases hbc : boldClose rest with
        | none => rw [hbc] at h; cases h
        | some p =>
          obtain ⟨p1, p2⟩ := p
          rw [hbc] at h
          simp only [Option.map_some', Option.some.injEq, Prod.mk.injEq] at h
          rw [← h.1, ← h.2, List.cons_append, ih p1 p2 hbc]

theorem emClose_decomp (l ct r2 : List Char) (h : emClose l = some (ct, r2)) :
    l = ct ++ '*' :: r2 := by
  rw [emClose] at h
  by_cases hcond : (l.dropWhile (fun c => c ≠ '*')).head? = some '*'
      ∧ 2 ≤ (l.takeWhile (fun c => c ≠ '*')).length
      ∧ ¬isJsWs ((l.takeWhile (fun c => c ≠ '*')).headD ' ')
      ∧ ¬isJsWs ((l.takeWhile (fun c => c ≠ '*')).getLastD ' ')
  · rw [if_pos hcond] at h
    simp only [Option.some.injEq, Prod.mk.injEq] at h
    cases hd : l.dropWhile (fun c => c ≠ '*') with
    | nil => rw [hd] at hcond; exact absurd hcond.1 (by simp)
    | cons a t =>
      rw [hd] at hcond h
      have ha : a = '*' := by simpa using hcond.1
      subst ha
      rw [← h.1, ← h.2]
      simp only [List.tail_cons]
      rw [← hd, List.takeWhile_append_dropWhile]
  · rw [if_neg hcond] at h
    cases h

theorem linkMatch_decomp (l tx url r : List Char) (h : linkMatch l = some (tx, url, r)) :
    l = tx ++ ']' :: '(' :: (url ++ ')' :: r) := by
  rw [linkMatch] at h
  by_cases h1 : l.takeWhile (fun c => c ≠ ']') ≠ []
      ∧ (l.dropWhile (fun c => c ≠ ']')).head? = some ']'
      ∧ (l.dropWhile (fun c => c ≠ ']')).tail.head? = some '('
  · rw [if_pos h1] at h
    cases hd : l.dropWhile (fun c => c ≠ ']') with
    | nil => rw [hd] at h1; exact absurd h1.2.1 (by simp)
    | cons a t =>
      rw [hd] at h1 h
      have ha : a = ']' := by simpa using h1.2.1
      cases t with
      | nil => exact absurd h1.2.2 (by simp)
      | cons b u =>
        have hb : b = '(' := by simpa using h1.2.2
        simp only [List.tail_cons] at h
        by_cases h2 : u.takeWhile (fun c => c ≠ ')') ≠ []
            ∧ (u.dropWhile (fun c => c ≠ ')')).head? = some ')'
        · rw [if_pos h2] at h
          cases hd2 : u.dropWhile (fun c => c ≠ ')') with
          | nil => rw [hd2] at h2; exact absurd h2.2 (by simp)
          | cons e v =>
            rw [hd2] at h2 h
            have he : e = ')' := by simpa using h2.2
            subst he
            subst ha
            subst hb
            simp only [Option.some.injEq, Prod.mk.injEq] at h
            rw [← h.1, ← h.2.1, ← h.2.2]
            simp only [List.tail_cons]
            rw [← hd2, List.takeWhile_append_dropWhile, ← hd,
              List.takeWhile_append_dropWhile]
        · rw [if_neg h2] at h
          cases h
  · rw [if_neg h1] at h
    cases h

theorem boldScan_ltsafe : ∀ (n : Nat) (l : List Char), l.length ≤ n → LtSafe l →
    LtSafe (boldScan l) := by
  intro n
  induction n with
  | zero =>
    intro l hlen _
    have hl : l = [] := List.eq_nil_of_length_eq_zero (by omega)
    rw [hl]
    exact LtSafe_nil
  | succ m ih =>
    intro l hlen hsafe
    cases l with
    | nil => exact LtSafe_nil
    | cons c rest =>
      have hrests : LtSafe rest := LtSafe_suffix rest _ (List.suffix_cons c rest) hsafe
      have hrestlen : rest.length ≤ m := by simp at hlen; omega
      rw [boldScan_cons]
      by_cases hc : c = '*' ∧ rest.head? = some '*'
      · rw [if_pos hc]
        cases hbc : boldClose rest.tail with
        | none =>
          dsimp only
          exact LtSafe_cons c _ (fun hceq => absurd (hc.1 ▸ hceq) (by decide))
            (ih rest hrestlen hrests)
        | some p =>
          obtain ⟨ct, r2⟩ := p
          dsimp only
          have hdec := boldClose_decomp rest.tail ct r2 hbc
          have htails : LtSafe rest.tail :=
            LtSafe_suffix _ _ (List.tail_suffix rest) hrests
          have hct : LtSafe ct := by
            refine LtSafe_stop ct '*' ('*' :: r2) ?_ tagStarts_no_star
            rw [← hdec]
            exact htails
          have hr2s : LtSafe r2 := by
            refine LtSafe_suffix r2 rest.tail ?_ htails
            rw [hdec]
            exact ⟨ct ++ ['*', '*'], by simp⟩
          have hr2len : r2.length ≤ m := by
            have hc2 := congrArg List.length hdec
            have hc3 := List.length_tail rest
            simp at hc2
            omega
          refine LtSafe_append _ _ (LtSafe_append _ _ (LtSafe_append _ _ ?_ hct) ?_)
            (ih r2 hr2len hr2s)
          · exact LtSafe_lit "strong>".data ⟨"strong>".data, by decide, by decide⟩ (by decide)
          · exact LtSafe_lit "/strong>".data ⟨"/strong>".data, by decide, by decide⟩ (by decide)
      · rw [if_neg hc]
        refine LtSafe_cons c _ ?_ (ih rest hrestlen hrests)
        intro hceq
        subst hceq
        obtain ⟨t, ht, hpre⟩ := hsafe [] rest rfl
        obtain ⟨z, hz⟩ := List.isPrefixOf_iff_prefix.mp hpre
        rw [← hz, boldScan_copy t z (fun x hx hxeq => tagStarts_no_star t ht (hxeq ▸ hx))]
        exact ⟨t, ht, List.isPrefixOf_iff_prefix.mpr (t.prefix_append _)⟩

theorem emScan_ltsafe : ∀ (n : Nat) (l : List Char), l.length ≤ n → LtSafe l →
    LtSafe (emScan l) := by
  intro n
  induction n with
  | zero =>
    intro l hlen _
    have hl : l = [] := List.eq_nil_of_length_eq_zero (by omega)
    rw [hl]
    exact LtSafe_nil
  | succ m ih =>
    intro l hlen hsafe
    cases l with
    | nil => exact LtSafe_nil
    | cons c rest =>
      have hrests : LtSafe rest := LtSafe_suffix rest _ (List.suffix_cons c rest) hsafe
      have hrestlen : rest.length ≤ m := by simp at hlen; omega
      rw [emScan_cons]
      by_cases hc : c = '*'
      · rw [if_pos hc]
        cases hbc : emClose rest with
        | none =>
          dsimp only
          exact LtSafe_cons c _ (fun hceq => absurd (hc ▸ hceq) (by decide))
            (ih rest hrestlen hrests)
        | some p =>
          obtain ⟨ct, r2⟩ := p
          dsimp only
          have hdec := emClose_decomp rest ct r2 hbc
          have hct : LtSafe ct := by
            refine LtSafe_stop ct '*' r2 ?_ tagStarts_no_star
            rw [← hdec]
            exact hrests
          have hr2s : LtSafe r2 := by
            refine LtSafe_suffix r2 rest ?_ hrests
            rw [hdec]
            exact ⟨ct ++ ['*'], by simp⟩
          have hr2len : r2.length ≤ m := by
            have hc2 := congrArg List.length hdec
            simp at hc2
            omega
          refine LtSafe_append _ _ (LtSafe_append _ _ (LtSafe_append _ _ ?_ hct) ?_)
            (ih r2 hr2len hr2s)
          · exact LtSafe_lit "em>".data ⟨"em>".data, by decide, by decide⟩ (by decide)
          · exact LtSafe_lit "/em>".data ⟨"/em>".data, by decide, by decide⟩ (by decide)
      · rw [if_neg hc]
        refine LtSafe_cons c _ ?_ (ih rest hrestlen hrests)
        intro hceq
        subst hceq
        obtain ⟨t, ht, hpre⟩ := hsafe [] rest rfl
        obtain ⟨z, hz⟩ := List.isPrefixOf_iff_prefix.mp hpre
        rw [← hz, emScan_copy t z (fun x hx hxeq => tagStarts_no_star t ht (hxeq ▸ hx))]
        exact ⟨t, ht, List.isPrefixOf_iff_prefix.mpr (t.prefix_append _)⟩

theorem linkScan_ltsafe : ∀ (n : Nat) (l : List Char), l.length ≤ n → LtSafe l →
    LtSafe (linkScan l) := by
  intro n
  induction n with
  | zero =>
    intro l hlen _
    have hl : l = [] := List.eq_nil_of_length_eq_zero (by omega)
    rw [hl]
    exact LtSafe_nil
  | succ m ih =>
    intro l hlen hsafe
    cases l with
    | nil => exact LtSafe_nil
    | cons c rest =>
      have hrests : LtSafe rest := LtSafe_suffix rest _ (List.suffix_cons c rest) hsafe
      have hrestlen : rest.length ≤ m := by simp at hlen; omega
      rw [linkScan_cons]
      by_cases hc : c = '['
      · rw [if_pos hc]
        cases hbc : linkMatch rest with
        | none =>
          dsimp only
          exact LtSafe_cons c _ (fun hceq => absurd (hc ▸ hceq) (by decide))
            (ih rest hrestlen hrests)
        | some p =>
          obtain ⟨tx, url, r2⟩ := p
          dsimp only
          have hdec := linkMatch_decomp rest tx url r2 hbc
          have htx : LtSafe tx := by
            refine LtSafe_stop tx ']' ('(' :: (url ++ ')' :: r2)) ?_ tagStarts_no_rbracket
            rw [← hdec]
            exact hrests
          have hurlctx : LtSafe (url ++ ')' :: r2) := by
            refine LtSafe_suffix _ rest ?_ hrests
            rw [hdec]
            exact ⟨tx ++ [']', '('], by simp⟩
          have hurl : LtSafe url := LtSafe_stop url ')' r2 hurlctx tagStarts_no_rparen
          have hr2s : LtSafe r2 := by
            refine LtSafe_suffix r2 _ ?_ hurlctx
            exact ⟨url ++ [')'], by simp⟩
          have hr2len : r2.length ≤ m := by
            have hc2 := congrArg List.length hdec
            simp at hc2
            omega
          rw [linkEmit]
          refine LtSafe_append _ _
            (LtSafe_append _ _
              (LtSafe_append _ _ (LtSafe_append _ _ (LtSafe_append _ _ ?_ hurl) ?_) htx)
              ?_)
            (ih r2 hr2len hr2s)
          · exact LtSafe_lit "a href=\"".data ⟨"a href=\"".data, by decide, by decide⟩
              (by decide)
          · exact LtSafe_of_not_mem "\" target=\"_blank\" rel=\"noopener\">".data (by decide)
          · exact LtSafe_lit "/a>".data ⟨"/a>".data, by decide, by decide⟩ (by decide)
      · rw [if_neg hc]
        refine LtSafe_cons c _ ?_ (ih rest hrestlen hrests)
        intro hceq
        subst hceq
        obtain ⟨t, ht, hpre⟩ := hsafe [] rest rfl
        obtain ⟨z, hz⟩ := List.isPrefixOf_iff_prefix.mp hpre
        rw [← hz, linkScan_copy t z (fun x hx hxeq => tagStarts_no_lbracket t ht (hxeq ▸ hx))]
        exact ⟨t, ht, List.isPrefixOf_iff_prefix.mpr (t.prefix_append _)⟩

theorem processInline_ltsafe (l : List Char) (h : LtSafe l) :
    LtSafe (processInline l) := by
  rw [processInline]
  exact linkScan_ltsafe _ _ le_rfl
    (emScan_ltsafe _ _ le_rfl (boldScan_ltsafe _ _ le_rfl h))

theorem mem_head? {α : Type} (l : List α) (x : α) (h : l.head? = some x) : x ∈ l := by
  cases l with
  | nil => cases h
  | cons c t =>
    simp only [List.head?_cons, Option.some.injEq] at h
    rw [← h]
    exact List.mem_cons_self _ _

theorem escapeLt_no_lt (l : List Char) : '<' ∉ escapeLt l := by
  intro hmem
  rw [escapeLt] at hmem
  obtain ⟨b, hb1, hb2⟩ := List.mem_flatMap.mp hmem
  by_cases hlt : b = '<'
  · rw [if_pos hlt] at hb2
    exact absurd hb2 (by decide)
  · rw [if_neg hlt] at hb2
    exact hlt (List.mem_singleton.mp hb2).symm

theorem escapeHtml_no_lt (l : List Char) : '<' ∉ escapeHtml l := by
  intro hmem
  rw [escapeHtml, escapeGt] at hmem
  obtain ⟨a, ha1, ha2⟩ := List.mem_flatMap.mp hmem
  by_cases hgt : a = '>'
  · rw [if_pos hgt] at ha2
    exact absurd ha2 (by decide)
  · rw [if_neg hgt] at ha2
    rw [← List.mem_singleton.mp ha2] at ha1
    exact escapeLt_no_lt _ ha1

theorem mapLinesAux_ltsafe (f : List Char → List Char)
    (hf : ∀ line, LtSafe line → LtSafe (f line)) :
    ∀ (l acc : List Char), LtSafe (acc.reverse ++ l) → LtSafe (mapLinesAux f acc l) := by
  intro l
  induction l with
  | nil =>
    intro acc h
    rw [mapLinesAux]
    exact hf _ (by simpa using h)
  | cons c rest ih =>
    intro acc h
    rw [mapLinesAux]
    by_cases hterm : isLineTerm c
    · rw [if_pos hterm]
      refine LtSafe_append _ _ (hf _ ?_) (LtSafe_cons c _ ?_ (ih [] ?_))
      · refine LtSafe_stop _ c rest h ?_
        intro t ht hmem
        have h2 := tagStarts_no_term t ht c hmem
        rw [hterm] at h2
        cases h2
      · intro hceq
        subst hceq
        exact absurd hterm (by decide)
      · exact LtSafe_suffix rest _ ⟨acc.reverse ++ [c], by simp⟩ h
    · rw [if_neg hterm]
      refine ih (c :: acc) ?_
      rw [List.reverse_cons, List.append_assoc]
      exact h

theorem headerLine_ltsafe (pm tagO tagC : List Char) (hO : LtSafe tagO) (hC : LtSafe tagC)
    (line : List Char) (h : LtSafe line) : LtSafe (headerLine pm tagO tagC line) := by
  rw [headerLine]
  by_cases hp : pm.isPrefixOf line
  · rw [if_pos hp]
    exact LtSafe_append _ _
      (LtSafe_append _ _ hO (LtSafe_suffix _ _ (List.drop_suffix _ _) h)) hC
  · rw [if_neg hp]
    exact h

theorem headersPass_ltsafe (l : List Char) (h : LtSafe l) : LtSafe (headersPass l) := by
  have h4 : ∀ line, LtSafe line → LtSafe (h4Line line) := fun line hl =>
    headerLine_ltsafe _ _ _
      (LtSafe_lit "h4>".data ⟨"h4>".data, by decide, by decide⟩ (by decide))
      (LtSafe_lit "/h4>".data ⟨"/h4>".data, by decide, by decide⟩ (by decide)) line hl
  have h3 : ∀ line, LtSafe line → LtSafe (h3Line line) := fun line hl =>
    headerLine_ltsafe _ _ _
      (LtSafe_lit "h3>".data ⟨"h3>".data, by decide, by decide⟩ (by decide))
      (LtSafe_lit "/h3>".data ⟨"/h3>".data, by decide, by decide⟩ (by decide)) line hl
  have h2 : ∀ line, LtSafe line → LtSafe (h2Line line) := fun line hl =>
    headerLine_ltsafe _ _ _
      (LtSafe_lit "h2>".data ⟨"h2>".data, by decide, by decide⟩ (by decide))
      (LtSafe_lit "/h2>".data ⟨"/h2>".data, by decide, by decide⟩ (by decide)) line hl
  have h1 : ∀ line, LtSafe line → LtSafe (h1Line line) := fun line hl =>
    headerLine_ltsafe _ _ _
      (LtSafe_lit "h1>".data ⟨"h1>".data, by decide, by decide⟩ (by decide))
      (LtSafe_lit "/h1>".data ⟨"/h1>".data, by decide, by decide⟩ (by decide)) line hl
  rw [headersPass]
  exact mapLinesAux_ltsafe h1Line h1 _ []
    (mapLinesAux_ltsafe h2Line h2 _ []
      (mapLinesAux_ltsafe h3Line h3 _ []
        (mapLinesAux_ltsafe h4Line h4 _ [] h)))

theorem dropWhile_head_false {α : Type} (p : α → Bool) :
    ∀ (l : List α) (c : α) (t : List α), l.dropWhile p = c :: t → p c = false := by
  intro l
  induction l with
  | nil => intro c t h; cases h
  | cons a r ih =>
    intro c t h
    rw [List.dropWhile] at h
    by_cases hp : p a
    · rw [hp] at h
      exact ih c t (by simpa using h)
    · have hpa : p a = false := by simpa using hp
      rw [hpa] at h
      simp only [List.cons.injEq] at h
      rw [← h.1]
      exact hpa

theorem markerTail_ltsafe (l ct r2 : List Char) (h : markerTail l = some (ct, r2))
    (hl : LtSafe l) : LtSafe ct ∧ LtSafe r2 := by
  rw [markerTail] at h
  by_cases hw : l.takeWhile isJsWs = []
  · rw [if_pos hw] at h
    cases h
  · rw [if_neg hw] at h
    by_cases ha : l.dropWhile isJsWs ≠ []
    · rw [if_pos ha] at h
      simp only [Option.some.injEq, Prod.mk.injEq] at h
      obtain ⟨hct, hr2⟩ := h
      subst hct
      subst hr2
      have hmid : LtSafe (l.dropWhile isJsWs) :=
        LtSafe_suffix _ _ (List.dropWhile_suffix _) hl
      constructor
      · cases hr : (l.dropWhile isJsWs).dropWhile (fun c => !isLineTerm c) with
        | nil =>
          have heq : (l.dropWhile isJsWs).takeWhile (fun c => !isLineTerm c)
              = l.dropWhile isJsWs := by
            conv_rhs => rw [← List.takeWhile_append_dropWhile
              (fun c => !isLineTerm c) (l.dropWhile isJsWs)]
            rw [hr]
            simp
          rw [heq]
          exact hmid
        | cons e v =>
          have he : isLineTerm e = true := by
            have := dropWhile_head_false _ _ _ _ hr
            simpa using this
          refine LtSafe_stop _ e v ?_ ?_
          · rw [show (l.dropWhile isJsWs).takeWhile (fun c => !isLineTerm c) ++ e :: v
                = l.dropWhile isJsWs from by
              rw [← hr]
              exact List.takeWhile_append_dropWhile _ _]
            exact hmid
          · intro t ht hmem
            have h2 := tagStarts_no_term t ht e hmem
            rw [he] at h2
            cases h2
      · exact LtSafe_suffix _ _ (List.dropWhile_suffix _) hmid
    · rw [if_neg ha] at h
      by_cases h2 : 2 ≤ ((l.takeWhile isJsWs).reverse.dropWhile isLineTerm).reverse.length
      · rw [if_pos h2] at h
        simp only [Option.some.injEq, Prod.mk.injEq] at h
        obtain ⟨hct, hr2⟩ := h
        subst hct
        subst hr2
        constructor
        · refine LtSafe_cons _ _ ?_ LtSafe_nil
          intro hceq
          exfalso
          rw [List.getLastD_eq_getLast?, List.getLast?_reverse] at hceq
          cases hh : ((l.takeWhile isJsWs).reverse.dropWhile isLineTerm).head? with
          | none =>
            rw [hh] at hceq
            simp at hceq
          | some y =>
            rw [hh] at hceq
            simp only [Option.getD_some] at hceq
            subst hceq
            have hy : '<' ∈ (l.takeWhile isJsWs).reverse :=
              (List.dropWhile_sublist _).subset (mem_head? _ _ hh)
            have hws := List.mem_takeWhile_imp (List.mem_reverse.mp hy)
            exact absurd hws (by decide)
        · refine LtSafe_of_not_mem _ ?_
          intro hmem
          have hinw : '<' ∈ l.takeWhile isJsWs := (List.drop_subset _ _) hmem
          have hws := List.mem_takeWhile_imp hinw
          exact absurd hws (by decide)
      · rw [if_neg h2] at h
        cases h

theorem ulMatch_ltsafe (l ind ct r2 : List Char) (h : ulMatch l = some (ind, ct, r2))
    (hl : LtSafe l) : '<' ∉ ind ∧ LtSafe ct ∧ LtSafe r2 := by
  rw [ulMatch] at h
  by_cases hc : (l.dropWhile isJsWs).head? = some '*' ∨ (l.dropWhile isJsWs).head? = some '-'
  · rw [if_pos hc] at h
    cases hmt : markerTail (l.dropWhile isJsWs).tail with
    | none => rw [hmt] at h; cases h
    | some p =>
      obtain ⟨p1, p2⟩ := p
      rw [hmt] at h
      simp only [Option.map_some', Option.some.injEq, Prod.mk.injEq] at h
      obtain ⟨h1, h2, h3⟩ := h
      subst h1
      subst h2
      subst h3
      have hmid : LtSafe (l.dropWhile isJsWs).tail :=
        LtSafe_suffix _ _ ((List.tail_suffix _).trans (List.dropWhile_suffix _)) hl
      obtain ⟨hcts, hr2s⟩ := markerTail_ltsafe _ _ _ hmt hmid
      refine ⟨?_, hcts, hr2s⟩
      intro hmem
      have hws := List.mem_takeWhile_imp hmem
      exact absurd hws (by decide)
  · rw [if_neg hc] at h
    cases h

theorem olMatch_ltsafe (l ind num ct r2 : List Char)
    (h : olMatch l = some (ind, num, ct, r2)) (hl : LtSafe l) :
    '<' ∉ ind ∧ LtSafe ct ∧ LtSafe r2 := by
  rw [olMatch] at h
  by_cases hc : (l.dropWhile isJsWs).takeWhile isDigitCh ≠ []
      ∧ ((l.dropWhile isJsWs).dropWhile isDigitCh).head? = some '.'
  · rw [if_pos hc] at h
    cases hmt : markerTail ((l.dropWhile isJsWs).dropWhile isDigitCh).tail with
    | none => rw [hmt] at h; cases h
    | some p =>
      obtain ⟨p1, p2⟩ := p
      rw [hmt] at h
      simp only [Option.map_some', Option.some.injEq, Prod.mk.injEq] at h
      obtain ⟨h1, h2, h3, h4⟩ := h
      subst h1
      subst h3
      subst h4
      have hmid : LtSafe ((l.dropWhile isJsWs).dropWhile isDigitCh).tail :=
        LtSafe_suffix _ _ ((List.tail_suffix _).trans
          ((List.dropWhile_suffix _).trans (List.dropWhile_suffix _))) hl
      obtain ⟨hcts, hr2s⟩ := markerTail_ltsafe _ _ _ hmt hmid
      refine ⟨?_, hcts, hr2s⟩
      intro hmem
      have hws := List.mem_takeWhile_imp hmem
      exact absurd hws (by decide)
  · rw [if_neg hc] at h
    cases h

theorem phName_no_lt (i : Nat) : '<' ∉ phName i := by
  intro hmem
  rcases phName_chars i '<' hmem with h | h
  · exact absurd h (by decide)
  · exact absurd h (by decide)

theorem ulPassRun_copy : ∀ (t : List Char), (∀ c ∈ t, isLineTerm c = false) →
    ∀ (z : List Char) (idx : Nat) (phs : List PH),
    ulPassRun false (t ++ z) idx phs
      = (t ++ (ulPassRun false z idx phs).1, (ulPassRun false z idx phs).2) := by
  intro t
  induction t with
  | nil => intro _ z idx phs; rfl
  | cons c t' ih =>
    intro h z idx phs
    rw [List.cons_append, ulPassRun_notStart _ _ _ (by simp)]
    rw [show ((c :: (t' ++ z)).headD ' ') = c from rfl,
      show (c :: (t' ++ z)).tail = t' ++ z from rfl,
      h c (by simp),
      ih (fun x hx => h x (List.mem_cons_of_mem _ hx)) z idx phs]
    rfl

theorem olPassRun_copy : ∀ (t : List Char), (∀ c ∈ t, isLineTerm c = false) →
    ∀ (z : List Char) (idx : Nat) (phs : List PH),
    olPassRun false (t ++ z) idx phs
      = (t ++ (olPassRun false z idx phs).1, (olPassRun false z idx phs).2) := by
  intro t
  induction t with
  | nil => intro _ z idx phs; rfl
  | cons c t' ih =>
    intro h z idx phs
    rw [List.cons_append, olPassRun_notStart _ _ _ (by simp)]
    rw [show ((c :: (t' ++ z)).headD ' ') = c from rfl,
      show (c :: (t' ++ z)).tail = t' ++ z from rfl,
      h c (by simp),
      ih (fun x hx => h x (List.mem_cons_of_mem _ hx)) z idx phs]
    rfl

theorem ulPass_ltsafe : ∀ (n : Nat) (l : List Char) (s : Bool) (idx : Nat) (phs : List PH),
    l.length ≤ n → LtSafe l → (∀ ph ∈ phs, LtSafe ph.content) →
    LtSafe (ulPassRun s l idx phs).1 ∧
    ∀ ph ∈ (ulPassRun s l idx phs).2.2, LtSafe ph.content := by
  intro n
  induction n with
  | zero =>
    intro l s idx phs hlen _ hphs
    have hl : l = [] := List.eq_nil_of_length_eq_zero (by omega)
    subst hl
    rw [ulPassRun_nil]
    exact ⟨LtSafe_nil, hphs⟩
  | succ m ih =>
    intro l s idx phs hlen hsafe hphs
    cases l with
    | nil => rw [ulPassRun_nil]; exact ⟨LtSafe_nil, hphs⟩
    | cons c rest =>
      have hrests : LtSafe rest := LtSafe_suffix _ _ (List.suffix_cons c rest) hsafe
      have hrestlen : rest.length ≤ m := by simp at hlen; omega
      have hcopystep :
          LtSafe (c :: (ulPassRun (isLineTerm c) rest idx phs).1) ∧
          ∀ ph ∈ (ulPassRun (isLineTerm c) rest idx phs).2.2, LtSafe ph.content := by
        obtain ⟨ih1, ih2⟩ := ih rest (isLineTerm c) idx phs hrestlen hrests hphs
        refine ⟨LtSafe_cons c _ ?_ ih1, ih2⟩
        intro hceq
        subst hceq
        obtain ⟨t, ht, hpre⟩ := hsafe [] rest rfl
        obtain ⟨z, hz⟩ := List.isPrefixOf_iff_prefix.mp hpre
        rw [show isLineTerm '<' = false from rfl, ← hz,
          ulPassRun_copy t (fun x hx => tagStarts_no_term t ht x hx) z idx phs]
        exact ⟨t, ht, List.isPrefixOf_iff_prefix.mpr (t.prefix_append _)⟩
      cases s with
      | false =>
        rw [ulPassRun_notStart _ _ _ (by simp)]
        exact hcopystep
      | true =>
        cases hm : ulMatch (c :: rest) with
        | none =>
          rw [ulPassRun_none _ _ _ (by simp) hm]
          exact hcopystep
        | some p =>
          obtain ⟨ind, ct, r2⟩ := p
          rw [ulPassRun_some _ _ _ ind ct r2 (by simp) hm]
          obtain ⟨hind, hcts, hr2s⟩ := ulMatch_ltsafe _ _ _ _ hm hsafe
          have hr2len : r2.length ≤ m := by
            have hlt := ulMatch_lt _ _ _ _ hm
            simp at hlt hlen
            omega
          have hphs' : ∀ ph,
              ph ∈ phs ++ [PH.mk LType.ul (processInline ct) ind none] →
              LtSafe ph.content := by
            intro ph hph
            rcases List.mem_append.mp hph with hp | hp
            · exact hphs ph hp
            · rw [List.mem_singleton.mp hp]
              exact processInline_ltsafe ct hcts
          obtain ⟨ih1, ih2⟩ := ih r2 false (idx + 1)
            (phs ++ [PH.mk LType.ul (processInline ct) ind none]) hr2len hr2s hphs'
          refine ⟨?_, ih2⟩
          exact LtSafe_append _ _
            (LtSafe_append _ _ (LtSafe_of_not_mem ind hind)
              (LtSafe_of_not_mem _ (phName_no_lt idx))) ih1

theorem olPass_ltsafe : ∀ (n : Nat) (l : List Char) (s : Bool) (idx : Nat) (phs : List PH),
    l.length ≤ n → LtSafe l → (∀ ph ∈ phs, LtSafe ph.content) →
    LtSafe (olPassRun s l idx phs).1 ∧
    ∀ ph ∈ (olPassRun s l idx phs).2.2, LtSafe ph.content := by
  intro n
  induction n with
  | zero =>
    intro l s idx phs hlen _ hphs
    have hl : l = [] := List.eq_nil_of_length_eq_zero (by omega)
    subst hl
    rw [olPassRun_nil]
    exact ⟨LtSafe_nil, hphs⟩
  | succ m ih =>
    intro l s idx phs hlen hsafe hphs
    cases l with
    | nil => rw [olPassRun_nil]; exact ⟨LtSafe_nil, hphs⟩
    | cons c rest =>
      have hrests : LtSafe rest := LtSafe_suffix _ _ (List.suffix_cons c rest) hsafe
      have hrestlen : rest.length ≤ m := by simp at hlen; omega
      have hcopystep :
          LtSafe (c :: (olPassRun (isLineTerm c) rest idx phs).1) ∧
          ∀ ph ∈ (olPassRun (isLineTerm c) rest idx phs).2.2, LtSafe ph.content := by
        obtain ⟨ih1, ih2⟩ := ih rest (isLineTerm c) idx phs hrestlen hrests hphs
        refine ⟨LtSafe_cons c _ ?_ ih1, ih2⟩
        intro hceq
        subst hceq
        obtain ⟨t, ht, hpre⟩ := hsafe [] rest rfl
        obtain ⟨z, hz⟩ := List.isPrefixOf_iff_prefix.mp hpre
        rw [show isLineTerm '<' = false from rfl, ← hz,
          olPassRun_copy t (fun x hx => tagStarts_no_term t ht x hx) z idx phs]
        exact ⟨t, ht, List.isPrefixOf_iff_prefix.mpr (t.prefix_append _)⟩
      cases s with
      | false =>
        rw [olPassRun_notStart _ _ _ (by simp)]
        exact hcopystep
      | true =>
        cases hm : olMatch (c :: rest) with
        | none =>
          rw [olPassRun_none _ _ _ (by simp) hm]
          exact hcopystep
        | some p =>
          obtain ⟨ind, num, ct, r2⟩ := p
          rw [olPassRun_some _ _ _ ind num ct r2 (by simp) hm]
          obtain ⟨hind, hcts, hr2s⟩ := olMatch_ltsafe _ _ _ _ _ hm hsafe
          have hr2len : r2.length ≤ m := by
            have hlt := olMatch_lt _ _ _ _ _ hm
            simp at hlt hlen
            omega
          have hphs' : ∀ ph,
              ph ∈ phs ++ [PH.mk LType.ol (processInline ct) ind (some num)] →
              LtSafe ph.content := by
            intro ph hph
            rcases List.mem_append.mp hph with hp | hp
            · exact hphs ph hp
            · rw [List.mem_singleton.mp hp]
              exact processInline_ltsafe ct hcts
          obtain ⟨ih1, ih2⟩ := ih r2 false (idx + 1)
            (phs ++ [PH.mk LType.ol (processInline ct) ind (some num)]) hr2len hr2s hphs'
          refine ⟨?_, ih2⟩
          exact LtSafe_append _ _
            (LtSafe_append _ _ (LtSafe_of_not_mem ind hind)
              (LtSafe_of_not_mem _ (phName_no_lt idx))) ih1

theorem splitOnNlAux_decomp : ∀ (l acc line : List Char), line ∈ splitOnNlAux acc l →
    ∃ pre post, acc.reverse ++ l = pre ++ line ++ post ∧
      (post = [] ∨ ∃ r, post = '\n' :: r) := by
  intro l
  induction l with
  | nil =>
    intro acc line hline
    rw [splitOnNlAux] at hline
    rw [List.mem_singleton.mp hline]
    exact ⟨[], [], by simp, Or.inl rfl⟩
  | cons c rest ih =>
    intro acc line hline
    rw [splitOnNlAux] at hline
    by_cases hc : c = '\n'
    · rw [if_pos hc] at hline
      rcases List.mem_cons.mp hline with rfl | hline
      · exact ⟨[], c :: rest, by simp, Or.inr ⟨rest, by rw [hc]⟩⟩
      · obtain ⟨pre, post, heq, hpost⟩ := ih [] line hline
        simp only [List.reverse_nil, List.nil_append] at heq
        refine ⟨acc.reverse ++ c :: pre, post, ?_, hpost⟩
        rw [heq]
        simp
    · rw [if_neg hc] at hline
      obtain ⟨pre, post, heq, hpost⟩ := ih (c :: acc) line hline
      refine ⟨pre, post, ?_, hpost⟩
      rw [List.reverse_cons, List.append_assoc] at heq
      simpa using heq

theorem LtSafe_of_ctx (l pre post : List Char) (line : List Char)
    (heq : l = pre ++ line ++ post) (hpost : post = [] ∨ ∃ r, post = '\n' :: r)
    (h : LtSafe l) : LtSafe line := by
  intro a b hab
  rcases hpost with rfl | ⟨r, rfl⟩
  · exact h (pre ++ a) b (by rw [heq, hab]; simp)
  · obtain ⟨t, ht, hpre⟩ := h (pre ++ a) (b ++ '\n' :: r) (by rw [heq, hab]; simp)
    exact ⟨t, ht, List.isPrefixOf_iff_prefix.mpr (prefix_cut_notMem t b '\n' r
      (List.isPrefixOf_iff_prefix.mp hpre) (tagStarts_no_nl t ht))⟩

theorem splitOnNl_lines_ltsafe (l : List Char) (h : LtSafe l) :
    ∀ line ∈ splitOnNl l, LtSafe line := by
  intro line hline
  obtain ⟨pre, post, heq, hpost⟩ := splitOnNlAux_decomp l [] line hline
  simp only [List.reverse_nil, List.nil_append] at heq
  exact LtSafe_of_ctx l pre post line heq hpost h

theorem splitBlocksAux_decomp : ∀ (n : Nat) (acc l b : List Char),
    b ∈ splitBlocksAux n acc l →
    ∃ pre post, acc.reverse ++ l = pre ++ b ++ post ∧
      (post = [] ∨ ∃ r, post = '\n' :: r) := by
  intro n
  induction n with
  | zero =>
    intro acc l b hb
    rw [splitBlocksAux] at hb
    rw [List.mem_singleton.mp hb]
    exact ⟨[], [], by simp, Or.inl rfl⟩
  | succ m ih =>
    intro acc l b hb
    cases l with
    | nil =>
      rw [splitBlocksAux] at hb
      rw [List.mem_singleton.mp hb]
      exact ⟨[], [], by simp, Or.inl rfl⟩
    | cons c rest =>
      rw [splitBlocksAux] at hb
      by_cases hc : c = '\n' ∧ rest.head? = some '\n'
      · rw [if_pos hc] at hb
        rcases List.mem_cons.mp hb with rfl | hb
        · exact ⟨[], c :: rest, by simp, Or.inr ⟨rest, by rw [hc.1]⟩⟩
        · obtain ⟨pre, post, heq, hpost⟩ :=
            ih [] (rest.dropWhile (fun x => x = '\n')) b hb
          simp only [List.reverse_nil, List.nil_append] at heq
          refine ⟨acc.reverse ++ c :: (rest.takeWhile (fun x => x = '\n')) ++ pre,
            post, ?_, hpost⟩
          conv_lhs => rw [show (rest : List Char)
            = rest.takeWhile (fun x => x = '\n') ++ rest.dropWhile (fun x => x = '\n')
            from (List.takeWhile_append_dropWhile _ _).symm]
          rw [heq]
          simp
      · rw [if_neg hc] at hb
        obtain ⟨pre, post, heq, hpost⟩ := ih (c :: acc) rest b hb
        refine ⟨pre, post, ?_, hpost⟩
        rw [List.reverse_cons, List.append_assoc] at heq
        simpa using heq

theorem splitBlocks_ltsafe (l : List Char) (h : LtSafe l) :
    ∀ b ∈ splitBlocks l, LtSafe b := by
  intro b hb
  obtain ⟨pre, post, heq, hpost⟩ := splitBlocksAux_decomp l.length [] l b hb
  simp only [List.reverse_nil, List.nil_append] at heq
  exact LtSafe_of_ctx l pre post b heq hpost h

theorem LtSafe_closeUl : LtSafe "</ul>".data :=
  LtSafe_lit "/ul>".data ⟨"/ul>".data, by decide, by decide⟩ (by decide)

theorem LtSafe_closeOl : LtSafe "</ol>".data :=
  LtSafe_lit "/ol>".data ⟨"/ol>".data, by decide, by decide⟩ (by decide)

theorem LtSafe_openUl : LtSafe "<ul>".data :=
  LtSafe_lit "ul>".data ⟨"ul>".data, by decide, by decide⟩ (by decide)

theorem LtSafe_openOl : LtSafe "<ol>".data :=
  LtSafe_lit "ol>".data ⟨"ol>".data, by decide, by decide⟩ (by decide)

theorem LtSafe_liLine (content : List Char) (h : LtSafe content) :
    LtSafe ("<li>".data ++ content ++ "</li>".data) :=
  LtSafe_append _ _
    (LtSafe_append _ _
      (LtSafe_lit "li>".data ⟨"li>".data, by decide, by decide⟩ (by decide)) h)
    (LtSafe_lit "/li>".data ⟨"/li>".data, by decide, by decide⟩ (by decide))

theorem mem_if_single (b : Bool) (x out : List Char) (hx : LtSafe x)
    (hout : out ∈ (if b then [x] else ([] : List (List Char)))) : LtSafe out := by
  cases b with
  | true =>
    rw [if_pos rfl] at hout
    rw [List.mem_singleton.mp hout]
    exact hx
  | false =>
    rw [if_neg (by simp)] at hout
    cases hout

theorem get?_mem_of_some {α : Type} : ∀ (l : List α) (k : Nat) (a : α),
    l.get? k = some a → a ∈ l := by
  intro l
  induction l with
  | nil => intro k a h; cases k <;> cases h
  | cons c rest ih =>
    intro k a h
    cases k with
    | zero =>
      simp only [List.get?] at h
      rw [← Option.some.injEq c a |>.mp h]
      exact List.mem_cons_self _ _
    | succ k' => exact List.mem_cons_of_mem _ (ih k' a h)

theorem walkLines_ltsafe (phs : List PH) (hphs : ∀ ph ∈ phs, LtSafe ph.content) :
    ∀ (lines : List (List Char)) (inU inO : Bool),
    (∀ line ∈ lines, LtSafe line) →
    ∀ out ∈ walkLines phs lines inU inO, LtSafe out := by
  intro lines
  induction lines with
  | nil =>
    intro inU inO _ out hout
    rw [walkLines] at hout
    rcases List.mem_append.mp hout with h | h
    · exact mem_if_single inU _ out LtSafe_closeUl h
    · exact mem_if_single inO _ out LtSafe_closeOl h
  | cons line rest ih =>
    intro inU inO hlines out hout
    have hrest : ∀ l ∈ rest, LtSafe l := fun l hl => hlines l (List.mem_cons_of_mem _ hl)
    have hline : LtSafe line := hlines line (by simp)
    rw [walkLines] at hout
    cases hpm : phLineMatch line with
    | none =>
      rw [hpm] at hout
      dsimp only at hout
      rcases List.mem_append.mp hout with h | h
      · rcases List.mem_append.mp h with h2 | h2
        · rcases List.mem_append.mp h2 with h3 | h3
          · exact mem_if_single inU _ out LtSafe_closeUl h3
          · exact mem_if_single inO _ out LtSafe_closeOl h3
        · rw [List.mem_singleton.mp h2]
          exact hline
      · exact ih false false hrest out h
    | some k =>
      rw [hpm] at hout
      dsimp only at hout
      cases hget : phs.get? k with
      | none =>
        rw [hget] at hout
        dsimp only at hout
        rcases List.mem_cons.mp hout with rfl | h
        · exact hline
        · exact ih inU inO hrest out h
      | some ph =>
        rw [hget] at hout
        dsimp only at hout
        have hcontent : LtSafe ph.content := hphs ph (get?_mem_of_some phs k ph hget)
        cases hty : ph.type with
        | ul =>
          rw [hty] at hout
          dsimp only at hout
          cases inU with
          | true =>
            rw [if_pos rfl] at hout
            rcases List.mem_cons.mp hout with rfl | h
            · exact LtSafe_liLine _ hcontent
            · exact ih true inO hrest out h
          | false =>
            rw [if_neg (by simp)] at hout
            rcases List.mem_append.mp hout with h | h
            · rcases List.mem_append.mp h with h2 | h2
              · exact mem_if_single inO _ out LtSafe_closeOl h2
              · rcases List.mem_cons.mp h2 with rfl | h3
                · exact LtSafe_openUl
                · rw [List.mem_singleton.mp h3]
                  exact LtSafe_liLine _ hcontent
            · exact ih true false hrest out h
        | ol =>
          rw [hty] at hout
          dsimp only at hout
          cases inO with
          | true =>
            rw [if_pos rfl] at hout
            rcases List.mem_cons.mp hout with rfl | h
            · exact LtSafe_liLine _ hcontent
            · exact ih inU true hrest out h
          | false =>
            rw [if_neg (by simp)] at hout
            rcases List.mem_append.mp hout with h | h
            · rcases List.mem_append.mp h with h2 | h2
              · exact mem_if_single inU _ out LtSafe_closeUl h2
              · rcases List.mem_cons.mp h2 with rfl | h3
                · exact LtSafe_openOl
                · rw [List.mem_singleton.mp h3]
                  exact LtSafe_liLine _ hcontent
            · exact ih false true hrest out h

theorem jsTrim_decomp (b : List Char) :
    ∃ pre post, b = pre ++ jsTrim b ++ post ∧ (∀ c ∈ pre, isJsWs c = true) ∧
      (∀ c ∈ post, isJsWs c = true) := by
  refine ⟨b.takeWhile isJsWs,
    ((b.dropWhile isJsWs).reverse.takeWhile isJsWs).reverse, ?_, ?_, ?_⟩
  · rw [jsTrim, List.append_assoc]
    conv_lhs => rw [← List.takeWhile_append_dropWhile isJsWs b]
    congr 1
    conv_lhs => rw [← List.reverse_reverse (b.dropWhile isJsWs),
      ← List.takeWhile_append_dropWhile isJsWs (b.dropWhile isJsWs).reverse]
    rw [List.reverse_append]
  · exact fun c hc => List.mem_takeWhile_imp hc
  · intro c hc
    exact List.mem_takeWhile_imp (List.mem_reverse.mp hc)

theorem jsTrim_ltsafe (b : List Char) (h : LtSafe b) : LtSafe (jsTrim b) := by
  obtain ⟨pre, post, heq, _, hpost⟩ := jsTrim_decomp b
  refine LtSafe_trim_right _ post ?_ hpost
  refine LtSafe_suffix _ b ⟨pre, ?_⟩ h
  conv_rhs => rw [heq]
  simp

theorem brReplace_ltsafe : ∀ (l : List Char), LtSafe l → LtSafe (brReplace l) := by
  intro l
  induction l with
  | nil => intro _; exact LtSafe_nil
  | cons c rest ih =>
    intro h
    have hr : LtSafe rest := LtSafe_suffix _ _ (List.suffix_cons c rest) h
    rw [brReplace, List.flatMap_cons]
    by_cases hc : c = '\n'
    · rw [if_pos hc]
      exact LtSafe_append _ _
        (LtSafe_lit "br>".data ⟨"br>".data, by decide, by decide⟩ (by decide)) (ih hr)
    · rw [if_neg hc, List.singleton_append]
      refine LtSafe_cons c _ ?_ (ih hr)
      intro hceq
      subst hceq
      obtain ⟨t, ht, hpre⟩ := h [] rest rfl
      obtain ⟨z, hz⟩ := List.isPrefixOf_iff_prefix.mp hpre
      have hnot : ∀ x ∈ t, ¬x = '\n' := fun x hx hxe => tagStarts_no_nl t ht (hxe ▸ hx)
      have hcopy : (t ++ z).flatMap (fun c => if c = '\n' then "<br>".data else [c])
          = t ++ z.flatMap (fun c => if c = '\n' then "<br>".data else [c]) := by
        rw [List.flatMap_append,
          flatMap_id_of_fix _ t (fun x hx => by rw [if_neg (hnot x hx)])]
      rw [← hz, hcopy]
      exact ⟨t, ht, List.isPrefixOf_iff_prefix.mpr (t.prefix_append _)⟩

theorem blockMap_ltsafe (b : List Char) (h : LtSafe b) : LtSafe (blockMap b) := by
  rw [blockMap]
  dsimp only
  have hp : LtSafe (jsTrim b) := jsTrim_ltsafe b h
  by_cases h0 : jsTrim b = []
  · rw [if_pos h0]
    exact LtSafe_nil
  · rw [if_neg h0]
    by_cases hbs : isBlockStart (jsTrim b)
    · rw [if_pos hbs]
      by_cases hls : isListStart (jsTrim b)
      · rw [if_pos hls]
        exact hp
      · rw [if_neg hls]
        exact brReplace_ltsafe _ hp
    · rw [if_neg hbs]
      refine LtSafe_append _ _ (LtSafe_append _ _ ?_ (brReplace_ltsafe _ hp)) ?_
      · exact LtSafe_lit "p>".data ⟨"p>".data, by decide, by decide⟩ (by decide)
      · exact LtSafe_lit "/p>".data ⟨"/p>".data, by decide, by decide⟩ (by decide)

theorem assemble_ltsafe (T : List Char) (phs : List PH)
    (hT : LtSafe T) (hphs : ∀ ph ∈ phs, LtSafe ph.content) :
    LtSafe (joinNl ((splitBlocks
      (joinNl (walkLines phs (splitOnNl T) false false))).map blockMap)) := by
  have hwalk := walkLines_ltsafe phs hphs (splitOnNl T) false false
    (splitOnNl_lines_ltsafe T hT)
  have hjoin := LtSafe_joinNl _ hwalk
  have hblocks := splitBlocks_ltsafe _ hjoin
  refine LtSafe_joinNl _ ?_
  intro x hx
  obtain ⟨b, hb, rfl⟩ := List.mem_map.mp hx
  exact blockMap_ltsafe b (hblocks b hb)

theorem parseMarkdown_ltsafe (s : String) : LtSafe (parseMarkdown s).data := by
  rw [parseMarkdown]
  by_cases hs : s = ""
  · rw [if_pos hs]
    exact LtSafe_nil
  · rw [if_neg hs]
    dsimp only
    have h0 : LtSafe (escapeHtml s.data) :=
      LtSafe_of_not_mem _ (escapeHtml_no_lt s.data)
    have h1 : LtSafe (headersPass (escapeHtml s.data)) := headersPass_ltsafe _ h0
    obtain ⟨hu1, hu2⟩ := ulPass_ltsafe _ (headersPass (escapeHtml s.data)) true 0 []
      le_rfl h1 (fun ph hph => by cases hph)
    obtain ⟨ho1, ho2⟩ := olPass_ltsafe _ _ true _ _ le_rfl hu1 hu2
    exact assemble_ltsafe _ _
      (linkScan_ltsafe _ _ le_rfl (emScan_ltsafe _ _ le_rfl (boldScan_ltsafe _ _ le_rfl ho1)))
      ho2

/-- C1 (counterexample): a double quote in a link URL escapes the `href`
attribute value and injects an arbitrary attribute — the rendered `<a>` tag of
`[x](" onclick="x)` carries an `onclick` attribute, so the output does not
consist solely of the whitelisted tags with only `href`/`target`/`rel`
attributes, as the spec-worded checker confirms. -/
theorem c1_counterexample :
    parseMarkdown "[x](\" onclick=\"x)"
      = "<p><a href=\"\" onclick=\"x\" target=\"_blank\" rel=\"noopener\">x</a></p>" ∧
    claimTagCheck
        "<p><a href=\"\" onclick=\"x\" target=\"_blank\" rel=\"noopener\">x</a></p>"
      = false :=
  ⟨by decide, by decide⟩

/-- C1 (amended): `&`, `<`, `>` are escaped before any markup is synthesized
(the `<script>` example renders fully escaped with no literal `<script>`),
and for every input, every `<` of the output opens one of the whitelisted tag
names — `h1`–`h4`, `p`, `ul`, `ol`, `li`, `strong`, `em`, `br`, their closers,
`</a>`, or `a href="` — though the attribute region of an emitted `<a>` tag
can be influenced by the link URL. -/
theorem c1_tag_whitelist :
    (∀ s : String, LtSafe (parseMarkdown s).data) ∧
    parseMarkdown "<script>alert(1)</script>"
      = "<p>&lt;script&gt;alert(1)&lt;/script&gt;</p>" :=
  ⟨parseMarkdown_ltsafe, by decide⟩

/-- C1 witness: the single `<ul>` render of `- a` decomposes at its first `<`
with the `ul>` tag start following. -/
theorem c1_tag_whitelist_witness :
    ∃ t ∈ tagStarts, t.isPrefixOf "ul>\n<li>a</li>\n</ul>".data :=
  c1_tag_whitelist.1 "- a" [] "ul>\n<li>a</li>\n</ul>".data (by decide)

end GovBeacon
